import Mathlib

/-!
# jsvalue: ToJS / ToGo / toAny

A shallow embedding of `jsvalue.go` (package `jsvalue`, built for `GOARCH=wasm`) together with
the part of the `syscall/js` host interface the three functions call, followed by theorems
about them.

Layout of the file:

* Go strings, JavaScript strings and the host conversion between them;
* the float64 numbers of the host;
* JavaScript values and the `syscall/js` accessors;
* Go types and Go values (the part of `reflect` the code consults);
* `ToJS`, `toAny`, `ToGo`;
* theorems.
-/

namespace Jsvalue

/-! ## Strings -/

/-- One byte of a Go string or of a `[]byte`. -/
abbrev Byte := Fin 256

/-- A Go `string`: an arbitrary byte sequence (Go does not require it to be UTF-8). -/
abbrev GoString := List Byte

/-- One UTF-16 code unit of a JavaScript string. -/
abbrev CodeUnit := Fin 65536

/-- A JavaScript string: an arbitrary sequence of UTF-16 code units. -/
abbrev JSString := List CodeUnit

/-- The replacement character U+FFFD. -/
def replacementChar : Nat := 0xFFFD

/-- State of the WHATWG UTF-8 decoder between two bytes: the code point collected so far,
how many continuation bytes are still needed, and the bounds the next byte must satisfy. -/
structure Utf8State where
  codePoint : Nat
  needed : Nat
  lower : Nat
  upper : Nat
deriving DecidableEq, Repr

/-- The decoder state in which no multi-byte sequence is open. -/
def Utf8State.start : Utf8State := ⟨0, 0, 0x80, 0xBF⟩

/-- The decoder reads byte `b` while no sequence is open. -/
def utf8Lead (b : Nat) : Utf8State × List Nat :=
  if b < 0x80 then (Utf8State.start, [b])
  else if 0xC2 ≤ b ∧ b ≤ 0xDF then (⟨b - 0xC0, 1, 0x80, 0xBF⟩, [])
  else if 0xE0 ≤ b ∧ b ≤ 0xEF then
    (⟨b - 0xE0, 2, if b = 0xE0 then 0xA0 else 0x80, if b = 0xED then 0x9F else 0xBF⟩, [])
  else if 0xF0 ≤ b ∧ b ≤ 0xF4 then
    (⟨b - 0xF0, 3, if b = 0xF0 then 0x90 else 0x80, if b = 0xF4 then 0x8F else 0xBF⟩, [])
  else (Utf8State.start, [replacementChar])

/-- The decoder reads byte `b` in state `s`: inside a sequence a byte out of bounds ends the
sequence with U+FFFD and is then read again as a lead byte. -/
def utf8Step (s : Utf8State) (b : Nat) : Utf8State × List Nat :=
  if s.needed = 0 then utf8Lead b
  else if b < s.lower ∨ s.upper < b then
    ((utf8Lead b).1, replacementChar :: (utf8Lead b).2)
  else if s.needed = 1 then (Utf8State.start, [s.codePoint * 64 + (b - 0x80)])
  else (⟨s.codePoint * 64 + (b - 0x80), s.needed - 1, 0x80, 0xBF⟩, [])

/-- The code points the decoder emits for the rest of the input; an input that ends inside a
sequence ends with U+FFFD. -/
def utf8DecodeFrom : Utf8State → List Byte → List Nat
  | s, [] => if s.needed = 0 then [] else [replacementChar]
  | s, b :: bs => (utf8Step s b.val).2 ++ utf8DecodeFrom (utf8Step s b.val).1 bs

/-- A leading byte order mark EF BB BF is dropped before decoding. -/
def stripBOM : List Byte → List Byte
  | 0xEF :: 0xBB :: 0xBF :: rest => rest
  | bs => bs

/-- WHATWG "UTF-8 decode", as performed by `new TextDecoder("utf-8").decode`. -/
def utf8Decode (bs : List Byte) : List Nat :=
  utf8DecodeFrom Utf8State.start (stripBOM bs)

/-- UTF-8 bytes of one scalar value. -/
def utf8EncodeOne (cp : Nat) : List Byte :=
  if cp < 0x80 then [Fin.ofNat cp]
  else if cp < 0x800 then [Fin.ofNat (0xC0 + cp / 64), Fin.ofNat (0x80 + cp % 64)]
  else if cp < 0x10000 then
    [Fin.ofNat (0xE0 + cp / 4096), Fin.ofNat (0x80 + cp / 64 % 64), Fin.ofNat (0x80 + cp % 64)]
  else
    [Fin.ofNat (0xF0 + cp / 262144 % 8), Fin.ofNat (0x80 + cp / 4096 % 64),
      Fin.ofNat (0x80 + cp / 64 % 64), Fin.ofNat (0x80 + cp % 64)]

/-- UTF-8 bytes of a sequence of scalar values. -/
def utf8Encode : List Nat → List Byte
  | [] => []
  | cp :: cps => utf8EncodeOne cp ++ utf8Encode cps

/-- UTF-16 code units of one code point. -/
def utf16EncodeOne (cp : Nat) : List CodeUnit :=
  if cp < 0x10000 then [Fin.ofNat cp]
  else [Fin.ofNat (0xD800 + (cp - 0x10000) / 0x400), Fin.ofNat (0xDC00 + (cp - 0x10000) % 0x400)]

/-- UTF-16 code units of a sequence of code points. -/
def utf16Encode : List Nat → List CodeUnit
  | [] => []
  | cp :: cps => utf16EncodeOne cp ++ utf16Encode cps

/-- Whether `u` is a high (leading) surrogate. -/
def isHighSurrogate (u : Nat) : Bool := decide (0xD800 ≤ u ∧ u < 0xDC00)

/-- Whether `u` is a low (trailing) surrogate. -/
def isLowSurrogate (u : Nat) : Bool := decide (0xDC00 ≤ u ∧ u < 0xE000)

/-- The scalar values of a JavaScript string as `TextEncoder` sees them: a surrogate pair is
one supplementary code point, a surrogate that is not part of a pair becomes U+FFFD. -/
def utf16Decode : List CodeUnit → List Nat
  | [] => []
  | [u] => [if isHighSurrogate u.val || isLowSurrogate u.val then replacementChar else u.val]
  | u :: l :: rest =>
    if isHighSurrogate u.val && isLowSurrogate l.val then
      (0x10000 + (u.val - 0xD800) * 0x400 + (l.val - 0xDC00)) :: utf16Decode rest
    else
      (if isHighSurrogate u.val || isLowSurrogate u.val then replacementChar else u.val)
        :: utf16Decode (l :: rest)

/-- A Go string crosses to the host (`js.ValueOf(s)`, the property name of `Get` and `Set`):
`wasm_exec.js` reads the bytes with `new TextDecoder("utf-8").decode`, so ill-formed bytes
become U+FFFD and a leading byte order mark is dropped. -/
def loadString (s : GoString) : JSString := utf16Encode (utf8Decode s)

/-- A JavaScript string crosses to Go (`Value.String()` on a string): `wasm_exec.js` writes
it with `new TextEncoder().encode`, so a lone surrogate becomes U+FFFD. -/
def jsString (s : JSString) : GoString := utf8Encode (utf16Decode s)

/-- The Go string literal with the given text: its UTF-8 encoding. -/
def lit (s : String) : GoString := utf8Encode (s.toList.map Char.toNat)


/-! ## Numbers -/

/-- A float64 as the host holds it: not-a-number, an infinity, or the finite value
`(-1)^neg * mant * 2^exp` (a zero has `mant = 0`). The code never computes with these values;
it converts integers to them, converts them back, and passes them on. -/
inductive Float64
  | nan
  | inf (neg : Bool)
  | fin (neg : Bool) (mant : Nat) (exp : Int)
deriving DecidableEq, Repr

/-- How many low bits of `a` do not fit in a 53-bit significand (at most `fuel`). -/
def excessBits : Nat → Nat → Nat
  | 0, _ => 0
  | fuel + 1, a => if a < 2 ^ 53 then 0 else excessBits fuel (a / 2) + 1

/-- Conversion `float64(n)` of a 64-bit integer: exact when `n` fits in 53 bits, otherwise
rounded to the nearest 53-bit significand, ties to even. -/
def Float64.ofInt (n : Int) : Float64 :=
  let a := n.natAbs
  let k := excessBits 64 a
  let q := a / 2 ^ k
  let r := a % 2 ^ k
  .fin (decide (n < 0)) (if 2 ^ k < 2 * r ∨ (2 * r = 2 ^ k ∧ q % 2 = 1) then q + 1 else q) k

/-- The integer part of a finite value (rounded toward zero); none for NaN and infinities. -/
def Float64.trunc : Float64 → Option Int
  | .nan => none
  | .inf _ => none
  | .fin neg mant exp =>
    let a : Nat := if 0 ≤ exp then mant * 2 ^ exp.toNat else mant / 2 ^ (-exp).toNat
    some (if neg then -(a : Int) else (a : Int))

/-- The bounds of the platform `int`, 64 bits wide on `GOARCH=wasm`. -/
def minInt : Int := -(2 ^ 63)

/-- The largest value of the platform `int`. -/
def maxInt : Int := 2 ^ 63 - 1

/-- Conversion `int(f)` of a float64. Go leaves the result for NaN and for values outside
the range of `int` to the implementation; the wasm target converts with the saturating
instruction `i64.trunc_sat_f64_s`: NaN gives 0, a value above the range the largest `int`, a
value below it the smallest. -/
def Float64.toInt (x : Float64) : Int :=
  match x with
  | .nan => 0
  | .inf neg => if neg then minInt else maxInt
  | .fin neg mant exp =>
    match (Float64.fin neg mant exp).trunc with
    | some n => if n < minInt then minInt else if maxInt < n then maxInt else n
    | none => 0

/-- Conversion `int(v)` of an integer of another type: values outside the range of `int`
(only possible for `uint` and `uint64`) wrap around modulo 2^64. -/
def toPlatformInt (n : Int) : Int := (n + 2 ^ 63) % 2 ^ 64 - 2 ^ 63

/-- Conversion `byte(n)` of an `int`: the low eight bits. -/
def toByte (n : Int) : Byte := Fin.ofNat (n % 256).toNat

/-! ## JavaScript values -/

/-- A value of the host, as `syscall/js` hands it to Go (`js.Value`). Arrays are the members
of the `Array` family; an object is a plain object, whose prototype is `Object.prototype`, and
lists its own enumerable string-keyed properties in the order `Object.keys` reports them,
each key once. Besides its own properties a plain object has the ones it inherits from
`Object.prototype` (`constructor`, `toString`, ..., `__proto__`), which `Get` finds too; see
`inherited`. `prototype false` is `Object.prototype` itself and `prototype true` is
`Array.prototype`, which the code can reach by reading `__proto__`. Functions and symbols
carry nothing the code reads. Not modelled: objects with another prototype (made by a class,
by `Object.create`, or by assigning an object to `__proto__`), and arrays with holes or extra
properties. -/
inductive JSValue
  | undefined
  | null
  | boolean (b : Bool)
  | number (x : Float64)
  | string (s : JSString)
  | array (items : List JSValue)
  | object (props : List (JSString × JSValue))
  | function
  | symbol
  | prototype (ofArray : Bool)

/-- The type tags of `js.Type`. -/
inductive JSType
  | TypeUndefined | TypeNull | TypeBoolean | TypeNumber | TypeString | TypeSymbol
  | TypeObject | TypeFunction
deriving DecidableEq, Repr

/-- Result of a call: it returned normally with a value, it returned a non-nil `error`, or it
panicked and did not return. -/
inductive Outcome (α : Type)
  | ok (a : α)
  | error (msg : GoString)
  | panic
deriving DecidableEq, Repr

/-- Sequencing of calls: the first `error` or `panic` ends the computation. -/
def Outcome.bind {α β : Type} (x : Outcome α) (f : α → Outcome β) : Outcome β :=
  match x with
  | .ok a => f a
  | .error msg => .error msg
  | .panic => .panic

instance : Monad Outcome where
  pure := Outcome.ok
  bind := Outcome.bind

/-- Behaviour of the host that the code depends on only in corner cases and that is
left open here: the text `String(x)` of a number, used by `Value.String()` on a number, the
integer `parseInt(x)` that `Value.Length()` reports for an object that is no array but has a
property named `length` with value `x`, and the `length` of a function, its number of
parameters, which `Value.Length()` reports for a function. -/
structure Host where
  numberText : Float64 → GoString
  lengthOf : JSValue → Int
  functionLength : Int

/-- Method `Value.Type()`: an array is an object. -/
def Value_Type : JSValue → JSType
  | .undefined => .TypeUndefined
  | .null => .TypeNull
  | .boolean _ => .TypeBoolean
  | .number _ => .TypeNumber
  | .string _ => .TypeString
  | .array _ => .TypeObject
  | .object _ => .TypeObject
  | .function => .TypeFunction
  | .symbol => .TypeSymbol
  | .prototype _ => .TypeObject

/-- Method `Value.IsUndefined()`. -/
def Value_IsUndefined : JSValue → Bool
  | .undefined => true
  | _ => false

/-- Method `Value.IsNull()`. -/
def Value_IsNull : JSValue → Bool
  | .null => true
  | _ => false

/-- Method `Value.InstanceOf(jsArray)`. -/
def Value_InstanceOfArray : JSValue → Bool
  | .array _ => true
  | _ => false

/-- Method `Value.Bool()`: panics unless the value is a boolean. -/
def Value_Bool : JSValue → Outcome Bool
  | .boolean b => .ok b
  | _ => .panic

/-- Method `Value.Float()`: panics unless the value is a number. -/
def Value_Float : JSValue → Outcome Float64
  | .number x => .ok x
  | _ => .panic

/-- Method `Value.Int()`: the number converted with `int(f)`; panics unless the value is a
number. -/
def Value_Int : JSValue → Outcome Int
  | .number x => .ok x.toInt
  | _ => .panic

/-- Method `Value.String()`: the text of a string; for any other value a description in
angle brackets. It never panics. -/
def Value_String (h : Host) : JSValue → GoString
  | .string s => jsString s
  | .undefined => lit "<undefined>"
  | .null => lit "<null>"
  | .boolean b => lit "<boolean: " ++ (if b then lit "true" else lit "false") ++ lit ">"
  | .number x => lit "<number: " ++ h.numberText x ++ lit ">"
  | .symbol => lit "<symbol>"
  | .array _ => lit "<object>"
  | .object _ => lit "<object>"
  | .function => lit "<function>"
  | .prototype _ => lit "<object>"

/-- The property key the host uses for array index `i`: its decimal digits. -/
def indexKey (i : Nat) : JSString := (Nat.repr i).toList.map (fun c => Fin.ofNat c.toNat)

/-- The value stored under `key` among the properties of an object. -/
def lookupProp (key : JSString) : List (JSString × JSValue) → Option JSValue
  | [] => none
  | (k, x) :: rest => if k = key then some x else lookupProp key rest

/-- The property name `__proto__`, through which an object reads and replaces its
prototype. -/
def protoKey : JSString := loadString (lit "__proto__")

/-- The names of the methods every plain object inherits from `Object.prototype`. -/
def objectMethodNames : List JSString :=
  [lit "constructor", lit "hasOwnProperty", lit "isPrototypeOf", lit "propertyIsEnumerable",
    lit "toLocaleString", lit "toString", lit "valueOf", lit "__defineGetter__",
    lit "__defineSetter__", lit "__lookupGetter__", lit "__lookupSetter__"].map loadString

/-- The names of the methods an array inherits from `Array.prototype` (ECMAScript 2023);
it inherits those of `Object.prototype` as well. -/
def arrayMethodNames : List JSString :=
  [lit "at", lit "concat", lit "copyWithin", lit "entries", lit "every", lit "fill",
    lit "filter", lit "find", lit "findIndex", lit "findLast", lit "findLastIndex", lit "flat",
    lit "flatMap", lit "forEach", lit "includes", lit "indexOf", lit "join", lit "keys",
    lit "lastIndexOf", lit "map", lit "pop", lit "push", lit "reduce", lit "reduceRight",
    lit "reverse", lit "shift", lit "slice", lit "some", lit "sort", lit "splice",
    lit "toReversed", lit "toSorted", lit "toSpliced", lit "unshift", lit "values",
    lit "with"].map loadString

/-- What `Reflect.get` reports for a name that is no own property of a plain object: the
prototype `Object.prototype` for `__proto__`, a function for the name of an inherited
method, and `undefined` for any other name. -/
def inherited (key : JSString) : JSValue :=
  if key = protoKey then .prototype false
  else if key ∈ objectMethodNames then .function
  else .undefined

/-- What `Reflect.get` reports for a name that is no own property of an array: the
prototype `Array.prototype` for `__proto__`, a function for the name of a method inherited
from it or from `Object.prototype`, and `undefined` for any other name. -/
def inheritedOfArray (key : JSString) : JSValue :=
  if key = protoKey then .prototype true
  else if key ∈ arrayMethodNames ∨ key ∈ objectMethodNames then .function
  else .undefined

/-- What `Reflect.get` reports for a property of a prototype itself: its methods are
functions; the prototype of `Array.prototype` is `Object.prototype`, that of
`Object.prototype` is `null`; `Array.prototype` is an empty array and has the `length` 0. -/
def prototypeProp (ofArray : Bool) (key : JSString) : JSValue :=
  if key = protoKey then (if ofArray then .prototype false else .null)
  else if key ∈ objectMethodNames then .function
  else if ofArray = true ∧ key ∈ arrayMethodNames then .function
  else if ofArray = true ∧ key = loadString (lit "length") then .number (.ofInt 0)
  else .undefined

/-- The property `key` of a plain object as `Reflect.get` reports it: the own property, or
else what the object inherits. -/
def getProp (props : List (JSString × JSValue)) (key : JSString) : JSValue :=
  (lookupProp key props).getD (inherited key)

/-- Method `Value.Length()`: the number of elements of an array; for another object what the
host makes of its `length` property, 0 when it has none; for a function its number of
parameters; panics unless the value is an object or a function. -/
def Value_Length (h : Host) : JSValue → Outcome Int
  | .array items => .ok items.length
  | .object props =>
    match lookupProp (loadString (lit "length")) props with
    | none => .ok 0
    | some x => .ok (h.lengthOf x)
  | .function => .ok h.functionLength
  | .prototype _ => .ok 0
  | _ => .panic

/-- Method `Value.Index(i)`: element `i` of an array, the property named by the digits of
`i` of another object, `undefined` where there is none (no object inherits a property with
such a name, and a function has none); panics unless the value is an object or a
function. -/
def Value_Index : JSValue → Nat → Outcome JSValue
  | .array items, i => .ok (items.getD i .undefined)
  | .object props, i => .ok ((lookupProp (indexKey i) props).getD .undefined)
  | .function, _ => .ok .undefined
  | .prototype _, _ => .ok .undefined
  | _, _ => .panic

/-- Method `Value.Get(key)`, the host call `Reflect.get`: the own property named `key` or
else the inherited one, `undefined` where there is none. The own properties of an array are
the indices and `length`. Panics unless the value is an object or a function; the properties
of a function are not modelled (the code never reads them). -/
def Value_Get (v : JSValue) (key : GoString) : Outcome JSValue :=
  match v with
  | .object props => .ok (getProp props (loadString key))
  | .array items =>
    if loadString key = loadString (lit "length") then .ok (.number (.ofInt items.length))
    else
      match (List.range items.length).find? (fun i => indexKey i = loadString key) with
      | some i => .ok (items.getD i .undefined)
      | none => .ok (inheritedOfArray (loadString key))
  | .prototype ofArray => .ok (prototypeProp ofArray (loadString key))
  | .function => .ok .undefined
  | _ => .panic

/-- The host call `Object.keys(v)` made through `jsObject.Call("keys", v)`: the keys of an
object, the indices of an array or of a string, nothing for other primitives; `null` and
`undefined` make the host throw, which the Go side turns into a panic. -/
def Object_keys : JSValue → Outcome (List JSString)
  | .undefined => .panic
  | .null => .panic
  | .object props => .ok (props.map Prod.fst)
  | .array items => .ok ((List.range items.length).map indexKey)
  | .string s => .ok ((List.range s.length).map indexKey)
  | _ => .ok []

/-- The array index a property name stands for: the name is the decimal numeral, without
leading zeros, of a number below 2^32 - 1. The host lists the properties with such names
first, in the order of their numbers. -/
def digitsValue : List CodeUnit → Nat → Option Nat
  | [], acc => some acc
  | c :: rest, acc =>
    if 0x30 ≤ c.val ∧ c.val ≤ 0x39 then digitsValue rest (acc * 10 + (c.val - 0x30)) else none

/-- The array index of a property name, none when the name is no array index. -/
def arrayIndex (key : JSString) : Option Nat :=
  match key with
  | [] => none
  | c :: rest =>
    if c.val = 0x30 ∧ rest ≠ [] then none
    else
      match digitsValue (c :: rest) 0 with
      | some n => if n < 2 ^ 32 - 1 then some n else none
      | none => none

/-- A new own property in its place in the order `Object.keys` reports: a name that is an
array index goes before the first property whose name is a greater index or no index, any
other name goes last. -/
def insertProp (key : JSString) (x : JSValue) (idx : Option Nat) :
    List (JSString × JSValue) → List (JSString × JSValue)
  | [] => [(key, x)]
  | (k, y) :: rest =>
    match idx with
    | none => (k, y) :: insertProp key x idx rest
    | some n =>
      match arrayIndex k with
      | some m =>
        if m < n then (k, y) :: insertProp key x idx rest else (key, x) :: (k, y) :: rest
      | none => (key, x) :: (k, y) :: rest

/-- A new value for the own property `key`, which keeps its place. -/
def replaceProp (key : JSString) (x : JSValue) :
    List (JSString × JSValue) → List (JSString × JSValue)
  | [] => []
  | (k, y) :: rest => if k = key then (k, x) :: rest else (k, y) :: replaceProp key x rest

/-- Property assignment on the property list of an object, for a name other than
`__proto__`: an existing own property keeps its place and gets the new value, a new one is
added in its place in the order of `Object.keys`. -/
def setProp (key : JSString) (x : JSValue) (props : List (JSString × JSValue)) :
    List (JSString × JSValue) :=
  if (lookupProp key props).isSome then replaceProp key x props
  else insertProp key x (arrayIndex key) props

/-- Method `Value.Set(key, x)`, the host call `Reflect.set`, on an object made by
`jsObject.New()`. Assigning to `__proto__` stores no own property: it runs the setter
inherited from `Object.prototype`, which ignores a value that is neither an object nor
`null` and otherwise replaces the prototype of the object; the replaced prototype is not
modelled. -/
def Value_Set (props : List (JSString × JSValue)) (key : GoString) (x : JSValue) :
    List (JSString × JSValue) :=
  if loadString key = protoKey then props else setProp (loadString key) x props

/-! ## Go types and values -/

/-- The integer types of Go. -/
inductive IntKind
  | int | int8 | int16 | int32 | int64 | uint | uint8 | uint16 | uint32 | uint64
deriving DecidableEq, Repr

/-- What the code reads of a `reflect.StructField`: the declared name, the value of the
`json` key of the tag (empty when the tag has none), and whether the field is exported. -/
structure StructField where
  Name : GoString
  Tag : GoString
  Exported : Bool
deriving DecidableEq, Repr

/-- The Go types the code can meet. `iface` is `any`; `array len elem` is `[len]elem`;
`map val` is `map[string]val`; `named` is a defined type such as `type CustomInt int`, which
no case of a type switch on the predeclared types matches. -/
inductive GoType
  | bool
  | integer (k : IntKind)
  | float32
  | float64
  | string
  | iface
  | slice (elem : GoType)
  | array (len : Nat) (elem : GoType)
  | map (val : GoType)
  | ptr (elem : GoType)
  | struct (fields : List (StructField × GoType))
  | chan
  | func
  | named (name : String) (underlying : GoType)

/-- A Go value together with its dynamic type, as an `any` holds it. `nil` is the nil
interface. A slice has its elements and its capacity; the elements of a `[]any` and the
fields of type `any` hold arbitrary values. An array has its elements, whose number is its
length. A map lists its entries, each key once, in one of the orders `range` may visit them.
A struct lists its fields in declaration order with their types. Channels and functions
carry nothing the code reads. -/
inductive GoValue
  | nil
  | bool (b : Bool)
  | integer (k : IntKind) (n : Int)
  | float32 (x : Float64)
  | float64 (x : Float64)
  | string (s : GoString)
  | slice (elem : GoType) (items : List GoValue) (cap : Nat)
  | nilSlice (elem : GoType)
  | array (elem : GoType) (items : List GoValue)
  | map (val : GoType) (entries : List (GoString × GoValue))
  | nilMap (val : GoType)
  | ptr (elem : GoType) (target : GoValue)
  | nilPtr (elem : GoType)
  | struct (fields : List (StructField × GoType × GoValue))
  | chan
  | func
  | named (name : String) (v : GoValue)

/-- The bytes of the elements of a `[]byte`. -/
def bytesOf : List GoValue → List Byte
  | [] => []
  | .integer _ n :: rest => toByte n :: bytesOf rest
  | .named _ (.integer _ n) :: rest => toByte n :: bytesOf rest
  | _ :: rest => bytesOf rest

/-- The elements of the `[]byte` with the given bytes. -/
def ofBytes (bs : List Byte) : List GoValue := bs.map (fun b => .integer .uint8 b.val)

/-- Function `js.ValueOf` on the values the code hands it directly: a string, a boolean, an
`int` or a `float64`. -/
def ValueOf : GoValue → JSValue
  | .string s => .string (loadString s)
  | .bool b => .boolean b
  | .integer _ n => .number (.ofInt n)
  | .float64 x => .number x
  | _ => .undefined

/-- Function `Index(s, substr)` of `tinywasm/fmt` from position `pos` on: the position of
the first occurrence of `substr` in `s`, or -1. -/
def indexFrom (substr : GoString) : GoString → Nat → Int
  | [], pos => if substr = [] then pos else -1
  | b :: rest, pos =>
    if substr.isPrefixOf (b :: rest) then pos else indexFrom substr rest (pos + 1)

/-- Function `Index(s, substr)` of `tinywasm/fmt`. -/
def Index (s substr : GoString) : Int := indexFrom substr s 0

/-! ## ToJS -/

/-- The key of a record field: the `json` annotation, or the declared name when there is
none, cut before the first comma; none when the annotation is exactly `-`. Written out in
`ToJS` and again in `ToGo`; see `ToJS_fields` and `ToGo_fields`. -/
def jsonKeyToJS (field : StructField) : Option GoString :=
  let jsonTag := field.Tag
  let jsonTag := if jsonTag = [] then field.Name else jsonTag
  if jsonTag = lit "-" then none
  else
    let idx := Index jsonTag (lit ",")
    some (if idx ≠ -1 then jsonTag.take idx.toNat else jsonTag)

mutual
/-- Function `ToJS`: converts Go values to JavaScript values recursively. `render` is
`Convert(v).String()` of `tinywasm/fmt`, the text of a value no other rule covers. The call
panics where `reflect` refuses to hand out the value of an unexported field. -/
def ToJS (render : GoValue → GoString) : GoValue → Outcome JSValue
  | .nil => .ok .null
  | .string s => .ok (.string (loadString s))
  | .bool b => .ok (.boolean b)
  | .integer .int n => .ok (.number (.ofInt n))
  | .integer _ n => .ok (.number (.ofInt (toPlatformInt n)))
  | .float32 x => .ok (.number x)
  | .float64 x => .ok (.number x)
  | .slice elem items _ =>
    match elem with
    | .integer .uint8 => .ok (.string (loadString (bytesOf items)))
    | .iface => (ToJS_items render items).bind fun arr => .ok (.array arr)
    | .string => .ok (.array (items.map ValueOf))
    | .integer .int => .ok (.array (items.map ValueOf))
    | _ => (ToJS_items render items).bind fun arr => .ok (.array arr)
  | .nilSlice elem =>
    match elem with
    | .integer .uint8 => .ok (.string (loadString []))
    | _ => .ok (.array [])
  | .array elem items => .ok (.string (loadString (render (.array elem items))))
  | .map val entries =>
    match val with
    | .iface => (ToJS_entries render entries []).bind fun obj => .ok (.object obj)
    | .string =>
      .ok (.object (entries.foldl (fun obj e => Value_Set obj e.1 (ValueOf e.2)) []))
    | .integer .int =>
      .ok (.object (entries.foldl (fun obj e => Value_Set obj e.1 (ValueOf e.2)) []))
    | _ => .ok (.string (loadString (render (.map val entries))))
  | .nilMap val =>
    match val with
    | .iface => .ok (.object [])
    | .string => .ok (.object [])
    | .integer .int => .ok (.object [])
    | _ => .ok (.string (loadString (render (.nilMap val))))
  | .ptr _ target => ToJS render target
  | .nilPtr _ => .ok .null
  | .struct fields => (ToJS_fields render fields []).bind fun obj => .ok (.object obj)
  | .chan => .ok (.string (loadString (render .chan)))
  | .func => .ok (.string (loadString (render .func)))
  | .named name v =>
    match v with
    | .ptr _ target => ToJS render target
    | .nilPtr _ => .ok .null
    | .slice _ items _ => (ToJS_items render items).bind fun arr => .ok (.array arr)
    | .nilSlice _ => .ok (.array [])
    | .struct fields => (ToJS_fields render fields []).bind fun obj => .ok (.object obj)
    | _ => .ok (.string (loadString (render (.named name v))))
/-- The loop `arr.SetIndex(i, ToJS(item))` over the elements of a slice. -/
def ToJS_items (render : GoValue → GoString) : List GoValue → Outcome (List JSValue)
  | [] => .ok []
  | item :: rest =>
    (ToJS render item).bind fun x => (ToJS_items render rest).bind fun xs => .ok (x :: xs)
/-- The loop `obj.Set(key, ToJS(val))` over the entries of a `map[string]any`. -/
def ToJS_entries (render : GoValue → GoString) :
    List (GoString × GoValue) → List (JSString × JSValue) → Outcome (List (JSString × JSValue))
  | [], obj => .ok obj
  | (key, val) :: rest, obj =>
    (ToJS render val).bind fun x => ToJS_entries render rest (Value_Set obj key x)
/-- The loop over the fields of a struct: a field annotated `-` is skipped, any other is
stored under its key; reading an unexported field through `Interface()` panics. -/
def ToJS_fields (render : GoValue → GoString) :
    List (StructField × GoType × GoValue) → List (JSString × JSValue) →
      Outcome (List (JSString × JSValue))
  | [], obj => .ok obj
  | (field, _, v) :: rest, obj =>
    match jsonKeyToJS field with
    | none => ToJS_fields render rest obj
    | some jsonTag =>
      if field.Exported then
        (ToJS render v).bind fun x => ToJS_fields render rest (Value_Set obj jsonTag x)
      else .panic
end

/-! ## toAny -/

/-- Assignment `m[key] = x` on the entries of a Go map: an existing key gets the new
value, a new key is added. -/
def mapSet (key : GoString) (x : GoValue) : List (GoString × GoValue) → List (GoString × GoValue)
  | [] => [(key, x)]
  | (k, y) :: rest => if k = key then (k, x) :: rest else (k, y) :: mapSet key x rest

/-- The value a Go map holds under `key`. -/
def mapGet (key : GoString) : List (GoString × GoValue) → Option GoValue
  | [] => none
  | (k, x) :: rest => if k = key then some x else mapGet key rest

/-- What `toAny` makes of the value `inherited` reports: the empty map for the prototype,
the text `<function>` for an inherited method, nil for `undefined`. -/
def inheritedAny (key : JSString) : GoValue :=
  if key = protoKey then .map .iface []
  else if key ∈ objectMethodNames then .string (lit "<function>")
  else .nil

/-- The loop of `toAny` over the keys of an object, given the converted properties
`conv`: each key is turned into a Go string with `String()`, looked up again with `Get`, and
the converted property, or what `toAny` makes of the inherited one, is stored under it. -/
def toAny_keys (conv : List (JSString × GoValue)) :
    List JSString → List (GoString × GoValue) → List (GoString × GoValue)
  | [], obj => obj
  | k :: rest, obj =>
    let key := jsString k
    toAny_keys conv rest
      (mapSet key (((conv.find? (fun p => p.1 = loadString key)).map Prod.snd).getD
        (inheritedAny (loadString key))) obj)

mutual
/-- Function `toAny`: recursively converts a `js.Value` to a Go `any`. The elements of an
array and the properties of an object are converted where they stand (`toAny_items`,
`toAny_props`), which keeps the recursion structural; `toAny_array_loop` and
`toAny_object_loop` below show that the loops of the source, through `Index` and `Get`,
compute the same. -/
def toAny (h : Host) : JSValue → GoValue
  | .null => .nil
  | .undefined => .nil
  | .boolean b => .bool b
  | .number x => .float64 x
  | .string s => .string (Value_String h (.string s))
  | .array items => .slice .iface (toAny_items h items) items.length
  | .object props =>
    .map .iface (toAny_keys (toAny_props h props) (props.map Prod.fst) [])
  | .function => .string (Value_String h .function)
  | .symbol => .string (Value_String h .symbol)
  | .prototype _ => .map .iface []
/-- The converted elements of an array. -/
def toAny_items (h : Host) : List JSValue → List GoValue
  | [] => []
  | x :: rest => toAny h x :: toAny_items h rest
/-- The converted properties of an object. -/
def toAny_props (h : Host) : List (JSString × JSValue) → List (JSString × GoValue)
  | [] => []
  | (k, x) :: rest => (k, toAny h x) :: toAny_props h rest
end

/-! ## ToGo -/

/-- The error `ToGo` returns for a destination that is no pointer or is a nil pointer. -/
def errDestination : GoString := lit "jsvalue: destination must be a non-nil pointer"

/-- The type behind a defined type. -/
def GoType.underlying : GoType → GoType
  | .named _ u => u
  | t => t

/-- Test `t.Kind() == reflect.Uint8`. -/
def isUint8Kind (t : GoType) : Bool :=
  match t.underlying with
  | .integer .uint8 => true
  | _ => false

/-- Test `t.Kind() == reflect.Slice && t.Elem().Kind() == reflect.Uint8`. -/
def isByteSliceKind (t : GoType) : Bool :=
  match t.underlying with
  | .slice e => isUint8Kind e
  | _ => false

/-- A value of the defined type `t` with the given underlying value; the value itself when
`t` is not a defined type. -/
def wrapNamed (t : GoType) (v : GoValue) : GoValue :=
  match t with
  | .named name _ => .named name v
  | _ => v

/-- Method `SetBytes` on a slice of type `t` whose elements have kind `uint8`. -/
def setBytes (t : GoType) (bs : List Byte) : GoValue :=
  match t.underlying with
  | .slice e => wrapNamed t (.slice e (bs.map fun b => wrapNamed e (.integer .uint8 b.val)) bs.length)
  | _ => .nil

mutual
/-- The zero value of a type, as `reflect.New` and a `var` declaration make it. -/
def zero : GoType → GoValue
  | .bool => .bool false
  | .integer k => .integer k 0
  | .float32 => .float32 (.fin false 0 0)
  | .float64 => .float64 (.fin false 0 0)
  | .string => .string []
  | .iface => .nil
  | .slice elem => .nilSlice elem
  | .array len elem => .array elem (List.replicate len (zero elem))
  | .map val => .nilMap val
  | .ptr elem => .nilPtr elem
  | .struct fields => .struct (zero_fields fields)
  | .chan => .chan
  | .func => .func
  | .named name u => .named name (zero u)
/-- The zero values of the fields of a struct. -/
def zero_fields : List (StructField × GoType) → List (StructField × GoType × GoValue)
  | [] => []
  | (field, t) :: rest => (field, t, zero t) :: zero_fields rest
end

/-- The entries of a map value; a nil map has none. -/
def mapEntries : GoValue → List (GoString × GoValue)
  | .map _ entries => entries
  | _ => []

/-- Builtin `cap` of a slice value; 0 for a nil slice. -/
def sliceCap : GoValue → Nat
  | .slice _ _ cap => cap
  | _ => 0

/-- The loop of the `*map[string]any` case: `(*ptr)[key] = toAny(jsVal.Get(key))` for each
key the host reported. -/
def ToGo_keys (h : Host) (jsVal : JSValue) :
    List JSString → List (GoString × GoValue) → Outcome (List (GoString × GoValue))
  | [], m => .ok m
  | k :: rest, m =>
    let key := Value_String h (.string k)
    (Value_Get jsVal key).bind fun x => ToGo_keys h jsVal rest (mapSet key (toAny h x) m)

/-- The loop of the `*[]any` case: `(*ptr)[i] = toAny(jsVal.Index(i))`. -/
def ToGo_anyItems (h : Host) (jsVal : JSValue) : List Nat → Outcome (List GoValue)
  | [] => .ok []
  | i :: rest =>
    (Value_Index jsVal i).bind fun x =>
      (ToGo_anyItems h jsVal rest).bind fun xs => .ok (toAny h x :: xs)

/-- The loop of the `*[]byte` case on an array: `(*ptr)[i] = byte(jsVal.Index(i).Int())`. -/
def ToGo_byteItems (jsVal : JSValue) : List Nat → Outcome (List Byte)
  | [] => .ok []
  | i :: rest =>
    (Value_Index jsVal i).bind fun x =>
      (Value_Int x).bind fun n =>
        (ToGo_byteItems jsVal rest).bind fun bs => .ok (toByte n :: bs)

/-- A write `*ptr = x` through the destination pointer: a nil pointer panics. -/
def store (ptr : Option GoValue) (x : GoValue) : Outcome (Option GoValue) :=
  match ptr with
  | none => .panic
  | some _ => .ok (some x)

/-- The slice the `*[]any` case leaves: a new one when the capacity of the old is too
small, otherwise the old one resliced to the new length, with the converted elements. -/
def resliceAny (cur : GoValue) (length : Nat) (items : List GoValue) : GoValue :=
  if sliceCap cur < length then .slice .iface items length
  else
    match cur with
    | .slice _ _ cap => .slice .iface items cap
    | _ => .nilSlice .iface

/-- The cases of the type switch of `ToGo` on a destination of type `*t`, `ptr` being what
the pointer points to (none for a nil pointer); none when no case matches and the `default`
branch runs. -/
def ToGo_switch (h : Host) (t : GoType) (jsVal : JSValue) (ptr : Option GoValue) :
    Option (Outcome (Option GoValue)) :=
  match t with
  | .iface => some (store ptr (toAny h jsVal))
  | .map .iface =>
    some (match ptr with
      | none => .panic
      | some cur =>
        (Object_keys jsVal).bind fun keys =>
          (ToGo_keys h jsVal keys (mapEntries cur)).bind fun m => .ok (some (.map .iface m)))
  | .slice .iface =>
    some ((Value_Length h jsVal).bind fun length =>
      match ptr with
      | none => .panic
      | some cur =>
        if length < 0 then .panic
        else
          (ToGo_anyItems h jsVal (List.range length.toNat)).bind fun items =>
            .ok (some (resliceAny cur length.toNat items)))
  | .string => some (store ptr (.string (Value_String h jsVal)))
  | .integer .int => some ((Value_Int jsVal).bind fun n => store ptr (.integer .int n))
  | .float64 => some ((Value_Float jsVal).bind fun x => store ptr (.float64 x))
  | .bool => some ((Value_Bool jsVal).bind fun b => store ptr (.bool b))
  | .integer .uint8 =>
    some ((Value_Int jsVal).bind fun n => store ptr (.integer .uint8 (toByte n).val))
  | .slice (.integer .uint8) =>
    some (
      if Value_Type jsVal = .TypeString then
        store ptr (.slice (.integer .uint8) (ofBytes (Value_String h jsVal))
          (Value_String h jsVal).length)
      else if Value_InstanceOfArray jsVal then
        (Value_Length h jsVal).bind fun length =>
          match ptr with
          | none => .panic
          | some _ =>
            (ToGo_byteItems jsVal (List.range length.toNat)).bind fun bs =>
              .ok (some (.slice (.integer .uint8) (ofBytes bs) length.toNat))
      else .ok ptr)
  | _ => none

/-- The key of a record field as `ToGo` computes it. -/
def jsonKeyToGo (field : StructField) : Option GoString :=
  let jsonTag := field.Tag
  let jsonTag := if jsonTag = [] then field.Name else jsonTag
  if jsonTag = lit "-" then none
  else
    let idx := Index jsonTag (lit ",")
    some (if idx ≠ -1 then jsonTag.take idx.toNat else jsonTag)

/-- The element loop of the slice branch: an element of byte-slice kind that arrives as a
string is set with `SetBytes`, any other is decoded into a new zero value with a recursive
`ToGo`, whose error ends the loop. -/
def ToGo_elems (h : Host) (elemType : GoType) (decodeElem : JSValue → Outcome (Option GoValue))
    (jsVal : JSValue) : List Nat → Outcome (List GoValue)
  | [] => .ok []
  | i :: rest =>
    (Value_Index jsVal i).bind fun jsItem =>
      (if isByteSliceKind elemType && Value_Type jsItem = .TypeString then
          .ok (setBytes elemType (Value_String h jsItem))
        else (decodeElem jsItem).bind fun r => .ok (r.getD (zero elemType))).bind fun x =>
        (ToGo_elems h elemType decodeElem jsVal rest).bind fun xs => .ok (x :: xs)

/-- The slice branch of the `default` case for a destination of slice type `t` with
element type `elemType` that now holds `cur`; `decodeElem` is the recursive `ToGo` into a
new element. -/
def ToGo_slice (h : Host) (t elemType : GoType)
    (decodeElem : JSValue → Outcome (Option GoValue)) (jsVal : JSValue) (cur : GoValue) :
    Outcome (Option GoValue) :=
  if isUint8Kind elemType && Value_Type jsVal = .TypeString then
    .ok (some (setBytes t (Value_String h jsVal)))
  else if !Value_InstanceOfArray jsVal then .ok (some cur)
  else
    (Value_Length h jsVal).bind fun length =>
      (ToGo_elems h elemType decodeElem jsVal (List.range length.toNat)).bind fun items =>
        .ok (some (wrapNamed t (.slice elemType items length.toNat)))

/-- The fields of a struct value; none for any other value. -/
def structFields : GoValue → Option (List (StructField × GoType × GoValue))
  | .struct vals => some vals
  | .named _ (.struct vals) => some vals
  | _ => none

mutual
/-- The `default` branch of `ToGo` for a destination of type `*t`: reflection on the
pointer. A nil pointer is refused; a slice is rebuilt from an array; the fields of a struct
are decoded from the properties of an object; anything else is left alone. -/
def ToGo_default (h : Host) : GoType → JSValue → Option GoValue → Outcome (Option GoValue)
  | _, _, none => .error errDestination
  | .slice elemType, jsVal, some cur =>
    ToGo_slice h (.slice elemType) elemType
      (fun jsItem =>
        match ToGo_switch h elemType jsItem (some (zero elemType)) with
        | some r => r
        | none => ToGo_default h elemType jsItem (some (zero elemType)))
      jsVal cur
  | .named name (.slice elemType), jsVal, some cur =>
    ToGo_slice h (.named name (.slice elemType)) elemType
      (fun jsItem =>
        match ToGo_switch h elemType jsItem (some (zero elemType)) with
        | some r => r
        | none => ToGo_default h elemType jsItem (some (zero elemType)))
      jsVal cur
  | .struct fields, jsVal, some cur =>
    if Value_Type jsVal ≠ .TypeObject then .ok (some cur)
    else
      match structFields cur with
      | none => .ok (some cur)
      | some vals =>
        (ToGo_fields h fields jsVal vals).bind fun vals => .ok (some (.struct vals))
  | .named name (.struct fields), jsVal, some cur =>
    if Value_Type jsVal ≠ .TypeObject then .ok (some cur)
    else
      match structFields cur with
      | none => .ok (some cur)
      | some vals =>
        (ToGo_fields h fields jsVal vals).bind fun vals =>
          .ok (some (.named name (.struct vals)))
  | _, _, some cur => .ok (some cur)
/-- The field loop of the struct branch, over the fields of the type and the values the
destination holds: a field annotated `-` is skipped; a field whose key is missing or null
in the source is skipped; any other is decoded with a recursive `ToGo` into its address,
whose error is dropped. Taking the address of an unexported field through `Interface()`
panics. -/
def ToGo_fields (h : Host) :
    List (StructField × GoType) → JSValue → List (StructField × GoType × GoValue) →
      Outcome (List (StructField × GoType × GoValue))
  | [], _, vals => .ok vals
  | _ :: _, _, [] => .ok []
  | (field, ft) :: rest, jsVal, (f, t, fv) :: vals =>
    match jsonKeyToGo field with
    | none => (ToGo_fields h rest jsVal vals).bind fun vs => .ok ((f, t, fv) :: vs)
    | some jsonTag =>
      (Value_Get jsVal jsonTag).bind fun jsField =>
        if !Value_IsUndefined jsField && !Value_IsNull jsField then
          if field.Exported then
            match (match ToGo_switch h ft jsField (some fv) with
                | some r => r
                | none => ToGo_default h ft jsField (some fv)) with
            | .panic => .panic
            | .ok (some x) =>
              (ToGo_fields h rest jsVal vals).bind fun vs => .ok ((f, t, x) :: vs)
            | _ => (ToGo_fields h rest jsVal vals).bind fun vs => .ok ((f, t, fv) :: vs)
          else .panic
        else (ToGo_fields h rest jsVal vals).bind fun vs => .ok ((f, t, fv) :: vs)
end

/-- Function `ToGo` on a destination of type `*t` pointing to `ptr` (none for a nil
pointer): the type switch, then the `default` branch. The result is what the pointer points
to afterwards. -/
def ToGoPtr (h : Host) (t : GoType) (jsVal : JSValue) (ptr : Option GoValue) :
    Outcome (Option GoValue) :=
  match ToGo_switch h t jsVal ptr with
  | some r => r
  | none => ToGo_default h t jsVal ptr

/-- Function `ToGo`: converts JavaScript values to Go values. `v` is the destination
argument; the result is that argument after the call, a pointer whose target was written.
A destination that is no pointer, the nil interface included, gets the error of the
`default` branch. -/
def ToGo (h : Host) (jsVal : JSValue) (v : GoValue) : Outcome GoValue :=
  match v with
  | .ptr t cur =>
    (ToGoPtr h t jsVal (some cur)).bind fun r => .ok (.ptr t (r.getD cur))
  | .nilPtr t => (ToGoPtr h t jsVal none).bind fun _ => .ok (.nilPtr t)
  | .named name (.ptr t cur) =>
    (ToGo_default h t jsVal (some cur)).bind fun r => .ok (.named name (.ptr t (r.getD cur)))
  | .named name (.nilPtr t) =>
    (ToGo_default h t jsVal none).bind fun _ => .ok (.named name (.nilPtr t))
  | _ => .error errDestination

/-! ## Vocabulary of the statements -/

/-- A Unicode scalar value: a code point that is no surrogate. -/
def IsScalar (c : Nat) : Prop := c < 0xD800 ∨ (0xE000 ≤ c ∧ c < 0x110000)

instance : DecidablePred IsScalar := fun c => by unfold IsScalar; infer_instance

/-- Text that is a sequence of Unicode scalar values not starting with the byte order mark
U+FEFF. -/
def IsText (cps : List Nat) : Prop := (∀ c ∈ cps, IsScalar c) ∧ cps.head? ≠ some 0xFEFF

/-- A Go string that is well-formed UTF-8 and does not begin with a byte order mark. -/
def WellFormedGo (s : GoString) : Prop := ∃ cps, IsText cps ∧ s = utf8Encode cps

/-- A JavaScript string that is well-formed UTF-16 (no surrogate outside a pair) and does
not begin with U+FEFF. -/
def WellFormedJS (s : JSString) : Prop := ∃ cps, IsText cps ∧ s = utf16Encode cps

/-- The dynamic type of a Go value (`iface` for the nil interface, which has none). -/
def GoValue.typeOf : GoValue → GoType
  | .nil => .iface
  | .bool _ => .bool
  | .integer k _ => .integer k
  | .float32 _ => .float32
  | .float64 _ => .float64
  | .string _ => .string
  | .slice elem _ _ => .slice elem
  | .nilSlice elem => .slice elem
  | .array elem items => .array items.length elem
  | .map val _ => .map val
  | .nilMap val => .map val
  | .ptr elem _ => .ptr elem
  | .nilPtr elem => .ptr elem
  | .struct fields => .struct (fields.map fun f => (f.1, f.2.1))
  | .chan => .chan
  | .func => .func
  | .named name v => .named name v.typeOf

/-- A host for the examples: it renders every number as `0` and reports length 0. -/
def exampleHost : Host := ⟨fun _ => lit "0", fun _ => 0, 0⟩

/-- A `Convert(v).String()` for the examples: every value is rendered as `?`. -/
def exampleRender : GoValue → GoString := fun _ => lit "?"

/-- Round trip of a value `x` through `ToJS` and `ToGo` into a zero-valued destination of
the type of `x`: both calls return, `ToGo` without error, and the destination holds `x`. -/
def RoundTrips (render : GoValue → GoString) (h : Host) (x : GoValue) : Prop :=
  ∃ js, ToJS render x = .ok js ∧
    ToGo h js (.ptr x.typeOf (zero x.typeOf)) = .ok (.ptr x.typeOf x)

/-- The scalars `ToGo` has a case for: booleans, `int` of magnitude at most 2^53, bytes,
`float64`, and strings that are well-formed text. -/
def DecodableScalar : GoValue → Prop
  | .bool _ => True
  | .integer .int n => -(2 ^ 53) ≤ n ∧ n ≤ 2 ^ 53
  | .integer .uint8 n => 0 ≤ n ∧ n < 256
  | .float64 _ => True
  | .string s => WellFormedGo s
  | _ => False

/-- Round trip of the byte sequence `b` through `ToJS` and `ToGo` into a `[]byte`
destination that holds `cur`: both calls return, `ToGo` without error, and the destination
is a slice with exactly the bytes of `b`. -/
def BytesRoundTrip (render : GoValue → GoString) (h : Host) (b : List Byte) (cur : GoValue) :
    Prop :=
  ∃ js, ToJS render (.slice (.integer .uint8) (ofBytes b) b.length) = .ok js ∧
    ∃ out cap, ToGo h js (.ptr (.slice (.integer .uint8)) cur)
        = .ok (.ptr (.slice (.integer .uint8)) (.slice (.integer .uint8) out cap)) ∧
      bytesOf out = b

mutual
/-- Structural equality of two JavaScript values up to the order of object keys: equal
leaves, arrays equal element by element, objects with as many properties and, under each
key of the first, values that are equal in this sense. -/
def SameUpToKeyOrder : JSValue → JSValue → Prop
  | .undefined, y => y = .undefined
  | .null, y => y = .null
  | .boolean b, y => y = .boolean b
  | .number x, y => y = .number x
  | .string s, y => y = .string s
  | .function, y => y = .function
  | .symbol, y => y = .symbol
  | .prototype a, y => y = .prototype a
  | .array xs, y =>
    match y with
    | .array ys => SameItems xs ys
    | _ => False
  | .object ps, y =>
    match y with
    | .object qs => ps.length = qs.length ∧ SameProps ps qs
    | _ => False
/-- Equality up to key order, element by element. -/
def SameItems : List JSValue → List JSValue → Prop
  | [], ys => ys = []
  | x :: xs, ys =>
    match ys with
    | y :: ys => SameUpToKeyOrder x y ∧ SameItems xs ys
    | [] => False
/-- Every property of the first list is found in the second with a value equal up to key
order. -/
def SameProps : List (JSString × JSValue) → List (JSString × JSValue) → Prop
  | [], _ => True
  | (k, x) :: ps, qs =>
    (match lookupProp k qs with
      | some y => SameUpToKeyOrder x y
      | none => False) ∧ SameProps ps qs
end

mutual
/-- A tree of the six variants null, boolean, number, string, array and object whose
strings and keys are well-formed UTF-16 without a leading U+FEFF, no key being `__proto__`,
each object naming a key once. -/
def WellFormedTree : JSValue → Prop
  | .null => True
  | .boolean _ => True
  | .number _ => True
  | .string s => WellFormedJS s
  | .array items => WellFormedItems items
  | .object props => (props.map Prod.fst).Nodup ∧ WellFormedProps props
  | .undefined => False
  | .function => False
  | .symbol => False
  | .prototype _ => False
/-- All elements are well-formed trees. -/
def WellFormedItems : List JSValue → Prop
  | [] => True
  | x :: xs => WellFormedTree x ∧ WellFormedItems xs
/-- All keys are well-formed strings other than `__proto__` and all values well-formed
trees. -/
def WellFormedProps : List (JSString × JSValue) → Prop
  | [] => True
  | (k, x) :: ps => (WellFormedJS k ∧ k ≠ protoKey) ∧ WellFormedTree x ∧ WellFormedProps ps
end


/-- The tree `{"a": [1, null, "x"], "b": true}` for the examples. -/
def exampleTree : JSValue :=
  .object [(utf16Encode [0x61], .array [.number (.ofInt 1), .null, .string (utf16Encode [0x78])]),
    (utf16Encode [0x62], .boolean true)]

/-- Map overlay for the object with properties `props` and a `map[string]any` destination
that holds `cur`: `ToGo` returns without error and leaves a map that holds under each key
of the object the untyped decoding of its value and under every other key what the
destination held before (nothing, for a nil map). -/
def MapOverlay (h : Host) (props : List (JSString × JSValue)) (cur : GoValue) : Prop :=
  ∃ m, ToGo h (.object props) (.ptr (.map .iface) cur)
      = .ok (.ptr (.map .iface) (.map .iface m)) ∧
    (∀ p ∈ props, mapGet (jsString p.1) m = some (toAny h p.2)) ∧
    (∀ key, (∀ p ∈ props, jsString p.1 ≠ key) → mapGet key m = mapGet key (mapEntries cur))

/-- The properties of the object `{"a": 1}` for the examples. -/
def exampleProps : List (JSString × JSValue) := [(utf16Encode [0x61], .number (.ofInt 1))]

/-- The Go map `{"b": 2}` for the examples. -/
def exampleMap : GoValue := .map .iface [(lit "b", .float64 (.ofInt 2))]

/-- The record type `struct { Length int "json:\"length\"" }` for the examples. -/
def LengthStruct : GoType := .struct [(⟨lit "Length", lit "length", true⟩, .integer .int)]

/-- The fields of `TagStruct` of the tests: `Ignored` annotated `-`, `Default` without
annotation, `Option` annotated `opt,omitempty`; all strings. -/
def TagStructFields : List (StructField × GoType) :=
  [(⟨lit "Ignored", lit "-", true⟩, .string), (⟨lit "Default", [], true⟩, .string),
    (⟨lit "Option", lit "opt,omitempty", true⟩, .string)]

/-- A `TagStruct` value with the given field values. -/
def tagStruct (ignored dflt option : GoString) : List (StructField × GoType × GoValue) :=
  [(⟨lit "Ignored", lit "-", true⟩, .string, .string ignored),
    (⟨lit "Default", [], true⟩, .string, .string dflt),
    (⟨lit "Option", lit "opt,omitempty", true⟩, .string, .string option)]

/-- The object `{"Ignored": "x", "-": "y", "Default": "visible", "opt": "value"}`. -/
def tagStructSource : JSValue :=
  .object [(loadString (lit "Ignored"), .string (loadString (lit "x"))),
    (loadString (lit "-"), .string (loadString (lit "y"))),
    (loadString (lit "Default"), .string (loadString (lit "visible"))),
    (loadString (lit "opt"), .string (loadString (lit "value")))]

/-- What the record claim says of one field, given the source `jsVal`, the field of the
type and the field of the destination: an excluded field, and a field whose key is absent
from the source or maps to null, keeps its value; any other field holds what a `ToGo` of
the property under its key into the field leaves there. -/
def fieldOverlay (h : Host) (jsVal : JSValue) (field : StructField × GoType)
    (cur : StructField × GoType × GoValue) : StructField × GoType × GoValue :=
  match jsonKeyToGo field.1 with
  | none => cur
  | some key =>
    match Value_Get jsVal key with
    | .ok jsField =>
      if Value_IsUndefined jsField || Value_IsNull jsField then cur
      else
        match ToGoPtr h field.2 jsField (some cur.2.2) with
        | .ok (some x) => (cur.1, cur.2.1, x)
        | _ => cur
    | _ => cur

/-- Record overlay for the object with properties `props` and a record destination with
the fields `fields` that holds `vals`: `ToGo` returns without error and leaves in each
field what `fieldOverlay` says. -/
def RecordOverlay (h : Host) (props : List (JSString × JSValue))
    (fields : List (StructField × GoType)) (vals : List (StructField × GoType × GoValue)) :
    Prop :=
  ToGo h (.object props) (.ptr (.struct fields) (.struct vals))
    = .ok (.ptr (.struct fields)
        (.struct (List.zipWith (fieldOverlay h (.object props)) fields vals)))

/-- The record type `struct { Age int "json:\"age\"" }` for the examples. -/
def AgeStructFields : List (StructField × GoType) :=
  [(⟨lit "Age", lit "age", true⟩, .integer .int)]

/-- The fields of `TestStruct` of the tests. -/
def TestStructFields : List (StructField × GoType) :=
  [(⟨lit "Name", lit "name", true⟩, .string), (⟨lit "Age", lit "age", true⟩, .integer .int),
    (⟨lit "Ignored", lit "-", true⟩, .string), (⟨lit "Default", [], true⟩, .string)]

/-- A `TestStruct` value with the given field values. -/
def testStruct (name : GoString) (age : Int) (ignored dflt : GoString) :
    List (StructField × GoType × GoValue) :=
  [(⟨lit "Name", lit "name", true⟩, .string, .string name),
    (⟨lit "Age", lit "age", true⟩, .integer .int, .integer .int age),
    (⟨lit "Ignored", lit "-", true⟩, .string, .string ignored),
    (⟨lit "Default", [], true⟩, .string, .string dflt)]

/-- The properties of the object `{"name": "Alice", "age": null}`. -/
def aliceProps : List (JSString × JSValue) :=
  [(loadString (lit "name"), .string (loadString (lit "Alice"))), (loadString (lit "age"), .null)]

/-- Whether the outcome is a panic. -/
def Outcome.isPanic {α : Type} : Outcome α → Bool
  | .panic => true
  | _ => false

/-- Whether decoding one field of a record from the source `jsVal` panics: the field is to
be decoded (not excluded, its key present and not null) and either is unexported, so that
`reflect` refuses its address, or the recursive `ToGo` into it panics. -/
def fieldPanics (h : Host) (jsVal : JSValue) (field : StructField × GoType)
    (cur : StructField × GoType × GoValue) : Bool :=
  match jsonKeyToGo field.1 with
  | none => false
  | some key =>
    match Value_Get jsVal key with
    | .ok jsField =>
      if Value_IsUndefined jsField || Value_IsNull jsField then false
      else if field.1.Exported then (ToGoPtr h field.2 jsField (some cur.2.2)).isPanic
      else true
    | .panic => true
    | .error _ => false

mutual
/-- Two Go values that are the same value, told apart at most by the order in which their
maps list their entries (the order in which `range` visits a map is not determined by the
map). -/
def SameGoValue : GoValue → GoValue → Prop
  | .nil, y => y = .nil
  | .bool b, y => y = .bool b
  | .integer k n, y => y = .integer k n
  | .float32 x, y => y = .float32 x
  | .float64 x, y => y = .float64 x
  | .string s, y => y = .string s
  | .nilSlice elem, y => y = .nilSlice elem
  | .nilMap val, y => y = .nilMap val
  | .nilPtr elem, y => y = .nilPtr elem
  | .chan, y => y = .chan
  | .func, y => y = .func
  | .slice elem xs cap, y =>
    match y with
    | .slice elem' ys cap' => elem' = elem ∧ cap' = cap ∧ SameGoItems xs ys
    | _ => False
  | .array elem xs, y =>
    match y with
    | .array elem' ys => elem' = elem ∧ SameGoItems xs ys
    | _ => False
  | .map val es, y =>
    match y with
    | .map val' es' =>
      val' = val ∧ es'.length = es.length ∧ (es'.map Prod.fst).Nodup ∧ SameGoEntries es es'
    | _ => False
  | .ptr elem x, y =>
    match y with
    | .ptr elem' x' => elem' = elem ∧ SameGoValue x x'
    | _ => False
  | .struct fs, y =>
    match y with
    | .struct fs' => SameGoFields fs fs'
    | _ => False
  | .named name x, y =>
    match y with
    | .named name' x' => name' = name ∧ SameGoValue x x'
    | _ => False
/-- The same values, element by element. -/
def SameGoItems : List GoValue → List GoValue → Prop
  | [], ys => ys = []
  | x :: xs, ys =>
    match ys with
    | y :: ys => SameGoValue x y ∧ SameGoItems xs ys
    | [] => False
/-- Every entry of the first map is found in the second with the same value. -/
def SameGoEntries : List (GoString × GoValue) → List (GoString × GoValue) → Prop
  | [], _ => True
  | (k, x) :: es, es' =>
    (match mapGet k es' with
      | some y => SameGoValue x y
      | none => False) ∧ SameGoEntries es es'
/-- The same fields with the same values, field by field. -/
def SameGoFields :
    List (StructField × GoType × GoValue) → List (StructField × GoType × GoValue) → Prop
  | [], fs' => fs' = []
  | (f, t, x) :: fs, fs' =>
    match fs' with
    | (f', t', y) :: fs' => f' = f ∧ t' = t ∧ SameGoValue x y ∧ SameGoFields fs fs'
    | [] => False
end

/-- Untyped decode fidelity for the tree `d`: `ToGo(d, &a)` into an `any` returns without
error, and `ToJS` of the value it leaves, whatever the order in which the maps of that value
are visited, returns a tree equal to `d` up to the order of object keys. -/
def UntypedFidelity (render : GoValue → GoString) (h : Host) (d : JSValue) : Prop :=
  ∃ a, ToGo h d (.ptr .iface .nil) = .ok (.ptr .iface a) ∧
    ∀ a', SameGoValue a a' → ∃ d', ToJS render a' = .ok d' ∧ SameUpToKeyOrder d d'

mutual
/-- A value in which every struct field that `ToJS` would store, at any depth, is
exported. -/
def AllExported : GoValue → Prop
  | .nil => True
  | .bool _ => True
  | .integer _ _ => True
  | .float32 _ => True
  | .float64 _ => True
  | .string _ => True
  | .slice _ items _ => AllExportedItems items
  | .nilSlice _ => True
  | .array _ _ => True
  | .map _ entries => AllExportedEntries entries
  | .nilMap _ => True
  | .ptr _ target => AllExported target
  | .nilPtr _ => True
  | .struct fields => AllExportedFields fields
  | .chan => True
  | .func => True
  | .named _ v => AllExported v
/-- All elements have only exported fields to store. -/
def AllExportedItems : List GoValue → Prop
  | [] => True
  | x :: xs => AllExported x ∧ AllExportedItems xs
/-- All values of the entries have only exported fields to store. -/
def AllExportedEntries : List (GoString × GoValue) → Prop
  | [] => True
  | (_, x) :: es => AllExported x ∧ AllExportedEntries es
/-- Every field is excluded by its annotation, or is exported and holds a value with only
exported fields to store. -/
def AllExportedFields : List (StructField × GoType × GoValue) → Prop
  | [] => True
  | (f, _, x) :: fs =>
    (jsonKeyToJS f = none ∨ (f.Exported = true ∧ AllExported x)) ∧ AllExportedFields fs
end

/-- Map encoding for a `map[string]val` with the given entries: `ToJS` returns an object
whose keys are exactly the keys of the map, each once (the host lists them in an order of
its own), and whose value under each key is `ToJS` of the value the map holds there. -/
def MapEncodes (render : GoValue → GoString) (val : GoType)
    (entries : List (GoString × GoValue)) : Prop :=
  ∃ props, ToJS render (.map val entries) = .ok (.object props) ∧
    (props.map Prod.fst).Perm (entries.map (fun e => loadString e.1)) ∧
    ∀ e ∈ entries, ∃ y, ToJS render e.2 = .ok y ∧ lookupProp (loadString e.1) props = some y

/-- The values of the maps `ToJS` has a case for: for `map[string]any` a value whose own
`ToJS` returns, for `map[string]string` a string, for `map[string]int` an `int`; no value
for any other value type. -/
def EntryEncodes (render : GoValue → GoString) : GoType → GoValue → Prop
  | .iface, v => ∃ y, ToJS render v = .ok y
  | .string, v => ∃ s, v = .string s
  | .integer .int, v => ∃ n, v = .integer .int n
  | _, _ => False

/-- The value types of the maps `ToJS` has a case for: `any`, `string` and `int`. -/
def HasMapCase : GoType → Prop
  | .iface => True
  | .string => True
  | .integer .int => True
  | _ => False

/-- The entries of the Go map `{"a": 1, "b": "z"}` for the examples. -/
def exampleEntries : List (GoString × GoValue) :=
  [(lit "a", .integer .int 1), (lit "b", .string (lit "z"))]

/-- Typed map decoding for the object with properties `props` and a `map[string]val`
destination that holds `cur`: `ToGo` returns without error and leaves a map in which
each key of the object is present with the value decoded from its property into a new
`val`, and in which every key of `cur` is still present. -/
def TypedMapDecodes (h : Host) (props : List (JSString × JSValue)) (val : GoType)
    (cur : GoValue) : Prop :=
  ∃ m, ToGo h (.object props) (.ptr (.map val) cur) = .ok (.ptr (.map val) (.map val m)) ∧
    (∀ p ∈ props, ∃ x, ToGoPtr h val p.2 (some (zero val)) = .ok (some x) ∧
      mapGet (jsString p.1) m = some x) ∧
    (∀ key x, mapGet key (mapEntries cur) = some x → (mapGet key m).isSome)

/-- The elements of a `[]string` are strings and those of a `[]int` are `int`s; the
elements of any other slice are not constrained here. -/
def ItemsTyped : GoType → List GoValue → Prop
  | .string, items => ∀ item ∈ items, ∃ s, item = .string s
  | .integer .int, items => ∀ item ∈ items, ∃ n, item = .integer .int n
  | _, _ => True

/-- The elements of a slice value; a nil slice has none. -/
def sliceItems : GoValue → List GoValue
  | .slice _ items _ => items
  | .named _ (.slice _ items _) => items
  | _ => []

/-- The result of decoding `item` into a new zero-valued slot of type `t`: the call
`ToGo(item, &slot)` followed by reading the slot. -/
def decodeFresh (h : Host) (t : GoType) (item : JSValue) : Outcome GoValue :=
  (ToGoPtr h t item (some (zero t))).bind fun r => .ok (r.getD (zero t))

/-- The results of decoding each element of an array into a new slot of its own, in order;
the first decoding that does not return ends the sequence. -/
def decodeEach (h : Host) (t : GoType) : List JSValue → Outcome (List GoValue)
  | [] => .ok []
  | item :: rest =>
    (decodeFresh h t item).bind fun x => (decodeEach h t rest).bind fun xs => .ok (x :: xs)

/-- The slice a destination of type `[]elemType` that held `cur` holds after an array of
length `n` was decoded to the elements `xs`: for `[]any` the old backing array is reused
when its capacity suffices, for any other type the slice is new. -/
def decodedSlice (elemType : GoType) (cur : GoValue) (n : Nat) (xs : List GoValue) : GoValue :=
  match elemType with
  | .iface => resliceAny cur n xs
  | _ => .slice elemType xs n

/-- Whether a call returned a non-nil `error`. -/
def Outcome.isError {α : Type} : Outcome α → Bool
  | .error _ => true
  | _ => false

/-- The elements are `int`s of magnitude at most 2^53. -/
def PlainInts (items : List GoValue) : Prop :=
  ∀ item ∈ items, ∃ n : Int, item = .integer .int n ∧ -(2 ^ 53) ≤ n ∧ n ≤ 2 ^ 53

/-- The keys under which the host holds the fields of a record that are not excluded. -/
def fieldKeys : List (StructField × GoType × GoValue) → List JSString
  | [] => []
  | (f, _, _) :: rest =>
    match jsonKeyToJS f with
    | none => fieldKeys rest
    | some key => loadString key :: fieldKeys rest

mutual
/-- The records that come back from the host: a value is plain when it is a string that
is well-formed UTF-8 without a leading byte order mark, an `int` of magnitude at most 2^53, a
`[]int` of such `int`s, or a record whose fields, as far as they are not excluded, are
exported, hold a plain value of their type, and have keys that stay distinct on the host
and are not `__proto__`. -/
def Plain : GoValue → Prop
  | .string s => WellFormedGo s
  | .integer .int n => -(2 ^ 53) ≤ n ∧ n ≤ 2 ^ 53
  | .slice (.integer .int) items _ => PlainInts items
  | .nilSlice (.integer .int) => True
  | .struct vals => ((fieldKeys vals).Nodup ∧ protoKey ∉ fieldKeys vals) ∧ PlainFields vals
  | _ => False
/-- The fields of a plain record. -/
def PlainFields : List (StructField × GoType × GoValue) → Prop
  | [] => True
  | (f, t, v) :: rest =>
    (jsonKeyToJS f = none ∨ (f.Exported = true ∧ t = v.typeOf ∧ Plain v)) ∧ PlainFields rest
end

mutual
/-- What a plain value is expected to come back as: the value itself, where an excluded
field of a record is at the zero value of its type and a slice has its elements in a new
backing array of exactly their number (an empty one for a nil slice). -/
def comesBack : GoValue → GoValue
  | .struct vals => .struct (comesBack_fields vals)
  | .slice elem items _ => .slice elem items items.length
  | .nilSlice elem => .slice elem [] 0
  | .array elem items => .array elem items
  | .nil => .nil
  | .bool b => .bool b
  | .integer k n => .integer k n
  | .float32 x => .float32 x
  | .float64 x => .float64 x
  | .string s => .string s
  | .map val entries => .map val entries
  | .nilMap val => .nilMap val
  | .ptr elem target => .ptr elem target
  | .nilPtr elem => .nilPtr elem
  | .chan => .chan
  | .func => .func
  | .named name v => .named name v
/-- The fields of the record that is expected to come back. -/
def comesBack_fields :
    List (StructField × GoType × GoValue) → List (StructField × GoType × GoValue)
  | [] => []
  | (f, t, v) :: rest =>
    (f, t, match jsonKeyToJS f with
      | none => zero t
      | some _ => comesBack v) :: comesBack_fields rest
end

/-- The value `ToJS` returns, `undefined` when it does not return. -/
def jsOf (render : GoValue → GoString) (v : GoValue) : JSValue :=
  match ToJS render v with
  | .ok js => js
  | _ => .undefined

/-- The assignments `ToJS` makes for the fields of a record, in the order of the fields:
none for an excluded field, and none that stores a property for a field keyed `__proto__`. -/
def encProps (render : GoValue → GoString) :
    List (StructField × GoType × GoValue) → List (JSString × JSValue)
  | [] => []
  | (f, _, v) :: rest =>
    match jsonKeyToJS f with
    | none => encProps render rest
    | some key =>
      if loadString key = protoKey then encProps render rest
      else (loadString key, jsOf render v) :: encProps render rest

/-- The property list after the assignments `kvs`, made in order with `setProp`. -/
def setAll (kvs acc : List (JSString × JSValue)) : List (JSString × JSValue) :=
  kvs.foldl (fun obj kv => setProp kv.1 kv.2 obj) acc

/-- The value `v` of type `t` comes back from the host: `ToJS` returns for it a value that
is neither `undefined` nor `null`, and `ToGo` of that value into a new zero-valued `t`
returns without error and leaves `comesBack v`. -/
def ComesBack (render : GoValue → GoString) (h : Host) (t : GoType) (v : GoValue) : Prop :=
  ToJS render v = .ok (jsOf render v) ∧ Value_IsUndefined (jsOf render v) = false ∧
    Value_IsNull (jsOf render v) = false ∧
    ToGoPtr h t (jsOf render v) (some (zero t)) = .ok (some (comesBack v))

/-- The types of the fields of a record value. -/
def fieldTypes (vals : List (StructField × GoType × GoValue)) : List (StructField × GoType) :=
  vals.map fun f => (f.1, f.2.1)

/-- The round trip of a record: `ToJS` returns, and `ToGo` of what it returns into a new
zero-valued record of the same type returns without error and leaves `comesBack` of the
record. -/
def RecordRoundTrip (render : GoValue → GoString) (h : Host)
    (vals : List (StructField × GoType × GoValue)) : Prop :=
  ∃ js, ToJS render (.struct vals) = .ok js ∧
    ToGo h js (.ptr (.struct (fieldTypes vals)) (zero (.struct (fieldTypes vals))))
      = .ok (.ptr (.struct (fieldTypes vals)) (comesBack (.struct vals)))

/-- The round trip of a record that claims every field that is not excluded to come back
as it was, and every excluded field at the zero value. -/
def RecordRoundTripExact (render : GoValue → GoString) (h : Host)
    (vals : List (StructField × GoType × GoValue)) : Prop :=
  ∃ js, ToJS render (.struct vals) = .ok js ∧
    ToGo h js (.ptr (.struct (fieldTypes vals)) (zero (.struct (fieldTypes vals))))
      = .ok (.ptr (.struct (fieldTypes vals))
          (.struct (vals.map fun f =>
            (f.1, f.2.1, match jsonKeyToJS f.1 with
              | none => zero f.2.1
              | some _ => f.2.2))))

/-- The `ComplexStruct` of the tests, `{Nested: {Name: "Diff", Age: 40}, List: {5, 6}}`. -/
def complexStruct : List (StructField × GoType × GoValue) :=
  [(⟨lit "Nested", lit "nested", true⟩, .struct TestStructFields,
      .struct (testStruct (lit "Diff") 40 [] [])),
    (⟨lit "List", lit "list", true⟩, .slice (.integer .int),
      .slice (.integer .int) [.integer .int 5, .integer .int 6] 2)]

/-- The comparison `x == y` of two float64 values: NaN equals nothing, the two zeros are
equal, and finite values are compared by the number they stand for. -/
def Float64.equal : Float64 → Float64 → Prop
  | .fin n1 m1 e1, .fin n2 m2 e2 =>
    m1 * 2 ^ (e1 - min e1 e2).toNat = m2 * 2 ^ (e2 - min e1 e2).toNat ∧ (m1 = 0 ∨ n1 = n2)
  | .inf n1, .inf n2 => n1 = n2
  | _, _ => False

mutual
/-- Deep equality of untyped trees, as `reflect.DeepEqual` decides it on the kinds such a
tree is built from: nil interfaces are equal; booleans and strings are equal when they are
the same; float64 values when `==` holds; slices when both are nil or both are not, have the
same length and deeply equal elements (the capacity does not count); maps when both are nil
or both are not, have the same length and deeply equal values under the same keys. Values of
other kinds are not related here. -/
def DeepEqual : GoValue → GoValue → Prop
  | .nil, y => y = .nil
  | .bool b, y => y = .bool b
  | .string s, y => y = .string s
  | .float64 x, y =>
    match y with
    | .float64 x' => Float64.equal x x'
    | _ => False
  | .slice elem xs _, y =>
    match y with
    | .slice elem' ys _ => elem' = elem ∧ DeepEqualItems xs ys
    | _ => False
  | .nilSlice elem, y => y = .nilSlice elem
  | .map val es, y =>
    match y with
    | .map val' es' => val' = val ∧ es'.length = es.length ∧ DeepEqualEntries es es'
    | _ => False
  | .nilMap val, y => y = .nilMap val
  | _, _ => False
/-- Deeply equal, element by element. -/
def DeepEqualItems : List GoValue → List GoValue → Prop
  | [], ys => ys = []
  | x :: xs, ys =>
    match ys with
    | y :: ys => DeepEqual x y ∧ DeepEqualItems xs ys
    | [] => False
/-- Every entry of the first map is found in the second with a deeply equal value. -/
def DeepEqualEntries : List (GoString × GoValue) → List (GoString × GoValue) → Prop
  | [], _ => True
  | (k, x) :: es, es' =>
    (match mapGet k es' with
      | some y => DeepEqual x y
      | none => False) ∧ DeepEqualEntries es es'
end

mutual
/-- The untyped trees that come back from the host: nil, booleans, float64 values other
than NaN, strings that are well-formed UTF-8 without a leading byte order mark, `[]any`
values that are not nil, and `map[string]any` values that are not nil and whose keys are
such strings other than `__proto__`, each key once. -/
def UntypedTree : GoValue → Prop
  | .nil => True
  | .bool _ => True
  | .float64 x => x ≠ .nan
  | .string s => WellFormedGo s
  | .slice .iface items _ => UntypedItems items
  | .map .iface entries => (entries.map Prod.fst).Nodup ∧ UntypedEntries entries
  | _ => False
/-- All elements are such trees. -/
def UntypedItems : List GoValue → Prop
  | [] => True
  | x :: xs => UntypedTree x ∧ UntypedItems xs
/-- All keys are such strings and all values such trees. -/
def UntypedEntries : List (GoString × GoValue) → Prop
  | [] => True
  | (k, x) :: es =>
    (WellFormedGo k ∧ loadString k ≠ protoKey) ∧ UntypedTree x ∧ UntypedEntries es
end

/-- The round trip of the `map[string]any` with the given entries: `ToJS` returns, and
`ToGo` of what it returns into a nil `map[string]any` returns without error and leaves a map
deeply equal to the first. -/
def TreeRoundTrip (render : GoValue → GoString) (h : Host)
    (entries : List (GoString × GoValue)) : Prop :=
  ∃ js, ToJS render (.map .iface entries) = .ok js ∧
    ∃ res, ToGo h js (.ptr (.map .iface) (.nilMap .iface)) = .ok (.ptr (.map .iface) res) ∧
      DeepEqual (.map .iface entries) res

/-- The tree `{"bool": true, "null": nil, "list": []any{false, 42.0}}` of the tests. -/
def coverageTree : List (GoString × GoValue) :=
  [(lit "bool", .bool true), (lit "null", .nil),
    (lit "list", .slice .iface [.bool false, .float64 (.ofInt 42)] 2)]

/-- Every field of the record that is not excluded is exported and holds a value that
`ToJS` encodes. -/
def FieldsEncode (render : GoValue → GoString)
    (vals : List (StructField × GoType × GoValue)) : Prop :=
  ∀ e ∈ vals, jsonKeyToJS e.1 = none ∨ (e.1.Exported = true ∧ ∃ y, ToJS render e.2.2 = .ok y)

/-- The object `ToJS` returns for the record `vals` holds under `key`, as a property of its
own, the encoded value of `v`. -/
def FieldStored (render : GoValue → GoString) (vals : List (StructField × GoType × GoValue))
    (key : GoString) (v : GoValue) : Prop :=
  ∃ props js, ToJS render (.struct vals) = .ok (.object props) ∧ ToJS render v = .ok js ∧
    lookupProp (loadString key) props = some js

/-- What decoding the property `jsField` leaves of a field of type `t` that holds `cur`:
the field as it was when the property is `undefined` or `null`, otherwise the field with
what `ToGo(jsField, &field)` leaves in it. -/
def decodedField (h : Host) (t : GoType) (jsField : JSValue)
    (cur : StructField × GoType × GoValue) : StructField × GoType × GoValue :=
  if Value_IsUndefined jsField || Value_IsNull jsField then cur
  else
    match ToGoPtr h t jsField (some cur.2.2) with
    | .ok (some x) => (cur.1, cur.2.1, x)
    | _ => cur

/-- `ToGo` of the object with the properties `props` into a record that holds `vals`
returns without error and leaves in field number `i` what decoding the property that `Get`
reports under `key` leaves there. -/
def FieldRead (h : Host) (props : List (JSString × JSValue))
    (vals : List (StructField × GoType × GoValue)) (i : Nat) (key : GoString) : Prop :=
  ∃ res, ToGo h (.object props) (.ptr (.struct (fieldTypes vals)) (.struct vals))
      = .ok (.ptr (.struct (fieldTypes vals)) (.struct res)) ∧
    ∃ cur, vals[i]? = some cur ∧
      res[i]? = some (decodedField h cur.2.1 (getProp props (loadString key)) cur)

/-- The record `struct { P string "json:\"__proto__,omitempty\"" }{"x"}`. -/
def protoRecord : List (StructField × GoType × GoValue) :=
  [(⟨lit "P", lit "__proto__,omitempty", true⟩, .string, .string (lit "x"))]

/-- The record `struct { A string "json:\"k,omitempty\""; B string "json:\"k\"" }{"a", "b"}`,
whose two fields resolve to one key. -/
def sharedKeyRecord : List (StructField × GoType × GoValue) :=
  [(⟨lit "A", lit "k,omitempty", true⟩, .string, .string (lit "a")),
    (⟨lit "B", lit "k", true⟩, .string, .string (lit "b"))]

/-- What the claim on absent keys says of one field when "absent from the source" is read
as "no property of the source's own": an excluded field, and a field whose key is no own
property of the source, keeps its value; any other field holds what decoding the own
property under its key leaves. -/
def fieldOverlayOwn (h : Host) (props : List (JSString × JSValue))
    (field : StructField × GoType) (cur : StructField × GoType × GoValue) :
    StructField × GoType × GoValue :=
  match jsonKeyToGo field.1 with
  | none => cur
  | some key =>
    match lookupProp (loadString key) props with
    | none => cur
    | some jsField => decodedField h field.2 jsField cur

/-- Record overlay with absence read as absence among the own properties of the source:
`ToGo` returns without error and leaves in each field what `fieldOverlayOwn` says. -/
def RecordOverlayOwn (h : Host) (props : List (JSString × JSValue))
    (fields : List (StructField × GoType)) (vals : List (StructField × GoType × GoValue)) :
    Prop :=
  ToGo h (.object props) (.ptr (.struct fields) (.struct vals))
    = .ok (.ptr (.struct fields)
        (.struct (List.zipWith (fieldOverlayOwn h props) fields vals)))

/-- The record type `struct { Maker string "json:\"constructor\"" }`. -/
def MakerStructFields : List (StructField × GoType) :=
  [(⟨lit "Maker", lit "constructor", true⟩, .string)]

/-- Sequence encoding of the value `s` with the elements `items`: `ToJS` returns an array
of as many elements whose element at each index is `ToJS` of the element of `s` there. -/
def SequenceEncodes (render : GoValue → GoString) (s : GoValue) (items : List GoValue) :
    Prop :=
  ∃ arr, ToJS render s = .ok (.array arr) ∧ arr.length = items.length ∧
    ∀ i (hi : i < items.length) (hj : i < arr.length), ToJS render items[i] = .ok arr[i]

/-- Sequence decoding of the array with the elements `items` into a destination of type
`[]elemType` that holds `cur`: `ToGo` returns without error and leaves a slice of as many
elements whose element at each index is the result of decoding the element of the array
there into a new zero-valued slot. -/
def SequenceDecodes (h : Host) (items : List JSValue) (elemType : GoType) (cur : GoValue) :
    Prop :=
  ∃ res, ToGo h (.array items) (.ptr (.slice elemType) cur) = .ok (.ptr (.slice elemType) res) ∧
    (sliceItems res).length = items.length ∧
    ∀ i (hi : i < items.length) (hj : i < (sliceItems res).length),
      decodeFresh h elemType items[i] = .ok (sliceItems res)[i]

/-! # Theorems -/

/-! ## Sequencing -/

theorem ok_bind {α β : Type} (a : α) (f : α → Outcome β) : (Outcome.ok a).bind f = f a := rfl

/-! ## The property list of an object -/

theorem lookupProp_none_iff (k : JSString) (props : List (JSString × JSValue)) :
    lookupProp k props = none ↔ k ∉ props.map Prod.fst := by
  induction props with
  | nil => simp [lookupProp]
  | cons e rest ih =>
    obtain ⟨k', y⟩ := e
    by_cases hk : k' = k
    · simp [lookupProp, hk]
    · have hk' : ¬ k = k' := fun hc => hk hc.symm
      simp [lookupProp, hk, hk', ih]

theorem lookupProp_some_mem (k : JSString) (v : JSValue) (props : List (JSString × JSValue))
    (hl : lookupProp k props = some v) : (k, v) ∈ props := by
  induction props with
  | nil => simp [lookupProp] at hl
  | cons e rest ih =>
    obtain ⟨k', y⟩ := e
    by_cases hk : k' = k
    · simp only [lookupProp, hk, if_true, Option.some.injEq] at hl
      simp [hk, hl]
    · simp only [lookupProp, hk, if_false] at hl
      exact List.mem_cons_of_mem _ (ih hl)

theorem lookupProp_replaceProp (key k : JSString) (x : JSValue)
    (props : List (JSString × JSValue)) :
    lookupProp k (replaceProp key x props)
      = if k = key ∧ (lookupProp key props).isSome then some x else lookupProp k props := by
  induction props with
  | nil => simp [replaceProp, lookupProp]
  | cons e rest ih =>
    obtain ⟨k', y⟩ := e
    by_cases hk : k' = key
    · subst hk
      by_cases hkk : k' = k
      · simp [replaceProp, lookupProp, hkk]
      · have hkk' : ¬ k = k' := fun hc => hkk hc.symm
        simp [replaceProp, lookupProp, hkk, hkk']
    · by_cases hkk : k' = k
      · subst hkk
        simp [replaceProp, lookupProp, hk]
      · simp only [replaceProp, hk, if_false, lookupProp, hkk, ih]

theorem keys_replaceProp (key : JSString) (x : JSValue) (props : List (JSString × JSValue)) :
    (replaceProp key x props).map Prod.fst = props.map Prod.fst := by
  induction props with
  | nil => rfl
  | cons e rest ih =>
    obtain ⟨k', y⟩ := e
    by_cases hk : k' = key
    · simp [replaceProp, hk]
    · simp [replaceProp, hk, ih]

theorem lookupProp_insertProp (key k : JSString) (x : JSValue) (idx : Option Nat)
    (props : List (JSString × JSValue)) (hnew : lookupProp key props = none) :
    lookupProp k (insertProp key x idx props)
      = if k = key then some x else lookupProp k props := by
  induction props with
  | nil =>
    by_cases hk : key = k
    · simp [insertProp, lookupProp, hk]
    · have hk' : ¬ k = key := fun hc => hk hc.symm
      simp [insertProp, lookupProp, hk, hk']
  | cons e rest ih =>
    obtain ⟨k', y⟩ := e
    have hne : ¬ k' = key := by
      intro hc
      simp [lookupProp, hc] at hnew
    have hrest : lookupProp key rest = none := by
      simpa [lookupProp, hne] using hnew
    have hfront : lookupProp k ((key, x) :: (k', y) :: rest)
        = if k = key then some x else lookupProp k ((k', y) :: rest) := by
      by_cases hk : key = k
      · simp [lookupProp, hk]
      · have hk' : ¬ k = key := fun hc => hk hc.symm
        simp [lookupProp, hk, hk']
    have hback : lookupProp k ((k', y) :: insertProp key x idx rest)
        = if k = key then some x else lookupProp k ((k', y) :: rest) := by
      by_cases hkk : k' = k
      · have hk' : ¬ k = key := fun hc => hne (hkk.trans hc)
        simp [lookupProp, hkk, hk']
      · simp only [lookupProp, hkk, if_false, ih hrest]
    cases idx with
    | none => simpa only [insertProp] using hback
    | some n =>
      simp only [insertProp]
      split
      · split
        · exact hback
        · exact hfront
      · exact hfront

theorem keys_insertProp (key : JSString) (x : JSValue) (idx : Option Nat)
    (props : List (JSString × JSValue)) :
    ((insertProp key x idx props).map Prod.fst).Perm (key :: props.map Prod.fst) := by
  induction props with
  | nil => simp [insertProp]
  | cons e rest ih =>
    obtain ⟨k', y⟩ := e
    have hback : (((k', y) :: insertProp key x idx rest).map Prod.fst).Perm
        (key :: ((k', y) :: rest).map Prod.fst) := by
      simp only [List.map_cons]
      exact (List.Perm.cons k' ih).trans (List.Perm.swap key k' _)
    cases idx with
    | none => simpa only [insertProp] using hback
    | some n =>
      simp only [insertProp]
      split
      · split
        · exact hback
        · simp
      · simp

/-- After `setProp key x` the property `key` is `x`. -/
theorem lookupProp_setProp (key : JSString) (x : JSValue) (props : List (JSString × JSValue)) :
    lookupProp key (setProp key x props) = some x := by
  unfold setProp
  split
  · next hs => simp [lookupProp_replaceProp, hs]
  · next hs =>
    have hnone : lookupProp key props = none := by
      cases hl : lookupProp key props with
      | none => rfl
      | some v => simp [hl] at hs
    simp [lookupProp_insertProp _ _ _ _ _ hnone]

/-- After `setProp key x` every other property is what it was. -/
theorem lookupProp_setProp_ne (key k : JSString) (x : JSValue)
    (props : List (JSString × JSValue)) (hk : k ≠ key) :
    lookupProp k (setProp key x props) = lookupProp k props := by
  unfold setProp
  split
  · simp [lookupProp_replaceProp, hk]
  · next hs =>
    have hnone : lookupProp key props = none := by
      cases hl : lookupProp key props with
      | none => rfl
      | some v => simp [hl] at hs
    simp [lookupProp_insertProp _ _ _ _ _ hnone, hk]

/-- The keys after `setProp`: the same keys for a key that was there, one more otherwise. -/
theorem keys_setProp (key : JSString) (x : JSValue) (props : List (JSString × JSValue)) :
    ((setProp key x props).map Prod.fst).Perm
      (if key ∈ props.map Prod.fst then props.map Prod.fst else key :: props.map Prod.fst) := by
  unfold setProp
  by_cases hs : (lookupProp key props).isSome = true
  · have hm : key ∈ props.map Prod.fst := by
      by_contra hc
      rw [(lookupProp_none_iff key props).mpr hc] at hs
      simp at hs
    simp only [hs, if_true, hm, keys_replaceProp]
    exact List.Perm.refl _
  · have hnone : lookupProp key props = none := by
      cases hl : lookupProp key props with
      | none => rfl
      | some v => simp [hl] at hs
    have hm : key ∉ props.map Prod.fst := (lookupProp_none_iff key props).mp hnone
    simp only [hs, Bool.false_eq_true, if_false, hm]
    exact keys_insertProp key x _ props

theorem mem_keys_setProp (key k : JSString) (x : JSValue) (props : List (JSString × JSValue)) :
    k ∈ (setProp key x props).map Prod.fst ↔ k = key ∨ k ∈ props.map Prod.fst := by
  rw [(keys_setProp key x props).mem_iff]
  by_cases hm : key ∈ props.map Prod.fst
  · simp only [hm, if_true]
    constructor
    · exact Or.inr
    · rintro (rfl | hk)
      · exact hm
      · exact hk
  · simp only [hm, if_false, List.mem_cons]

theorem nodup_keys_setProp (key : JSString) (x : JSValue) (props : List (JSString × JSValue))
    (hn : (props.map Prod.fst).Nodup) : ((setProp key x props).map Prod.fst).Nodup := by
  rw [(keys_setProp key x props).nodup_iff]
  by_cases hm : key ∈ props.map Prod.fst
  · simpa only [hm, if_true] using hn
  · rw [if_neg hm]
    exact List.nodup_cons.mpr ⟨hm, hn⟩

theorem lookupProp_setAll_not_mem (kvs acc : List (JSString × JSValue)) (k : JSString)
    (hk : k ∉ kvs.map Prod.fst) : lookupProp k (setAll kvs acc) = lookupProp k acc := by
  induction kvs generalizing acc with
  | nil => rfl
  | cons kv rest ih =>
    simp only [List.map_cons, List.mem_cons, not_or] at hk
    simp only [setAll, List.foldl_cons] at ih ⊢
    rw [ih _ hk.2, lookupProp_setProp_ne _ _ _ _ hk.1]

/-- After assignments to distinct keys each assigned key holds the value assigned. -/
theorem lookupProp_setAll_mem (kvs acc : List (JSString × JSValue))
    (hn : (kvs.map Prod.fst).Nodup) (kv : JSString × JSValue) (hkv : kv ∈ kvs) :
    lookupProp kv.1 (setAll kvs acc) = some kv.2 := by
  induction kvs generalizing acc with
  | nil => simp at hkv
  | cons e rest ih =>
    simp only [List.map_cons, List.nodup_cons] at hn
    simp only [setAll, List.foldl_cons] at ih ⊢
    rcases List.mem_cons.mp hkv with rfl | hr
    · have := lookupProp_setAll_not_mem rest (setProp kv.1 kv.2 acc) kv.1 hn.1
      simp only [setAll] at this
      rw [this, lookupProp_setProp]
    · exact ih _ hn.2 hr

theorem mem_keys_setAll (kvs acc : List (JSString × JSValue)) (k : JSString) :
    k ∈ (setAll kvs acc).map Prod.fst ↔ k ∈ acc.map Prod.fst ∨ k ∈ kvs.map Prod.fst := by
  induction kvs generalizing acc with
  | nil => simp [setAll]
  | cons e rest ih =>
    simp only [setAll, List.foldl_cons] at ih ⊢
    rw [ih, mem_keys_setProp]
    simp only [List.map_cons, List.mem_cons]
    tauto

theorem nodup_keys_setAll (kvs acc : List (JSString × JSValue))
    (hn : (acc.map Prod.fst).Nodup) : ((setAll kvs acc).map Prod.fst).Nodup := by
  induction kvs generalizing acc with
  | nil => simpa [setAll] using hn
  | cons e rest ih =>
    simp only [setAll, List.foldl_cons] at ih ⊢
    exact ih _ (nodup_keys_setProp _ _ _ hn)

/-- The keys after assignments to distinct keys on an empty object are the assigned keys. -/
theorem keys_setAll_perm (kvs : List (JSString × JSValue)) (hn : (kvs.map Prod.fst).Nodup) :
    ((setAll kvs []).map Prod.fst).Perm (kvs.map Prod.fst) := by
  rw [List.perm_ext_iff_of_nodup (nodup_keys_setAll kvs [] (by simp)) hn]
  intro k
  rw [mem_keys_setAll]
  simp

theorem setAll_append (xs ys acc : List (JSString × JSValue)) :
    setAll (xs ++ ys) acc = setAll ys (setAll xs acc) := by
  simp [setAll, List.foldl_append]

theorem Value_Set_eq (props : List (JSString × JSValue)) (key : GoString) (x : JSValue)
    (hk : loadString key ≠ protoKey) : Value_Set props key x = setProp (loadString key) x props := by
  simp [Value_Set, hk]

theorem Value_Set_proto (props : List (JSString × JSValue)) (key : GoString) (x : JSValue)
    (hk : loadString key = protoKey) : Value_Set props key x = props := by
  simp [Value_Set, hk]

/-! ## The loops of toAny in the shape of the source -/

theorem toAny_items_eq_map (h : Host) (items : List JSValue) :
    toAny_items h items = items.map (toAny h) := by
  induction items with
  | nil => rfl
  | cons x rest ih => simp only [toAny_items, List.map_cons, ih]

theorem ToGo_anyItems_eq (h : Host) (items : List JSValue) (idxs : List Nat) :
    ToGo_anyItems h (.array items) idxs
      = .ok (idxs.map (fun i => toAny h (items.getD i .undefined))) := by
  induction idxs with
  | nil => rfl
  | cons i rest ih => simp only [ToGo_anyItems, Value_Index, Outcome.bind, ih, List.map_cons]

/-- The array branch of `toAny` as the source writes it: the loop
`arr[i] = toAny(jsVal.Index(i))` over the indices below `jsVal.Length()` yields the
elements `toAny` has by definition. -/
theorem toAny_array_loop (h : Host) (items : List JSValue) :
    ToGo_anyItems h (.array items) (List.range items.length) = .ok (toAny_items h items) := by
  rw [ToGo_anyItems_eq, toAny_items_eq_map]
  congr 1
  apply List.ext_getElem
  · simp
  · intro i h1 h2
    simp only [List.length_map, List.length_range] at h1
    simp [List.getD_eq_getElem?_getD, List.getElem?_eq_getElem h1]

theorem inheritedAny_eq (h : Host) (key : JSString) :
    inheritedAny key = toAny h (inherited key) := by
  unfold inheritedAny inherited
  split
  · simp [toAny, toAny_props, toAny_keys]
  · split
    · simp [toAny, Value_String]
    · simp [toAny]

theorem find_toAny_props (h : Host) (props : List (JSString × JSValue)) (key : JSString) :
    (((toAny_props h props).find? (fun p => p.1 = key)).map Prod.snd).getD (inheritedAny key)
      = toAny h (getProp props key) := by
  induction props with
  | nil => simp [toAny_props, lookupProp, getProp, inheritedAny_eq h]
  | cons e rest ih =>
    obtain ⟨k, x⟩ := e
    by_cases hk : k = key
    · simp [toAny_props, lookupProp, getProp, hk]
    · simp only [toAny_props, List.find?_cons, hk, decide_False, lookupProp, getProp, if_false]
      exact ih

theorem toAny_keys_loop (h : Host) (props : List (JSString × JSValue)) (ks : List JSString)
    (m : List (GoString × GoValue)) :
    ToGo_keys h (.object props) ks m = .ok (toAny_keys (toAny_props h props) ks m) := by
  induction ks generalizing m with
  | nil => rfl
  | cons k rest ih =>
    simp only [ToGo_keys, Value_String, Value_Get, Outcome.bind, toAny_keys, find_toAny_props, ih]

/-- The object branch of `toAny` as the source writes it: the loop
`obj[key] = toAny(jsVal.Get(key))` over `Object.keys(jsVal)` yields the entries `toAny` has
by definition. -/
theorem toAny_object_loop (h : Host) (props : List (JSString × JSValue)) :
    ToGo_keys h (.object props) (props.map Prod.fst) []
      = .ok (toAny_keys (toAny_props h props) (props.map Prod.fst) []) :=
  toAny_keys_loop h props _ []

/-! ## The host conversion of strings -/

theorem byte_val (n : Nat) (h : n < 256) : ((Fin.ofNat n : Byte)).val = n := by
  simp [Fin.ofNat, Nat.mod_eq_of_lt h]

theorem utf8Step_start (b : Nat) : utf8Step Utf8State.start b = utf8Lead b := by
  simp [utf8Step, Utf8State.start]

theorem utf8Step_last (c lo up b : Nat) (h1 : lo ≤ b) (h2 : b ≤ up) :
    utf8Step ⟨c, 1, lo, up⟩ b = (Utf8State.start, [c * 64 + (b - 0x80)]) := by
  have : ¬ (b < lo ∨ up < b) := by omega
  simp [utf8Step, this]

theorem utf8Step_more (c n lo up b : Nat) (hn : 2 ≤ n) (h1 : lo ≤ b) (h2 : b ≤ up) :
    utf8Step ⟨c, n, lo, up⟩ b = (⟨c * 64 + (b - 0x80), n - 1, 0x80, 0xBF⟩, []) := by
  have : ¬ (b < lo ∨ up < b) := by omega
  have h0 : n ≠ 0 := by omega
  have h1 : n ≠ 1 := by omega
  simp [utf8Step, this, h0, h1]

theorem utf8Lead_two (b : Nat) (h1 : 0xC2 ≤ b) (h2 : b ≤ 0xDF) :
    utf8Lead b = (⟨b - 0xC0, 1, 0x80, 0xBF⟩, []) := by
  have : ¬ b < 0x80 := by omega
  simp [utf8Lead, this, h1, h2]

theorem utf8Lead_three (b : Nat) (h1 : 0xE0 ≤ b) (h2 : b ≤ 0xEF) :
    utf8Lead b = (⟨b - 0xE0, 2, if b = 0xE0 then 0xA0 else 0x80,
      if b = 0xED then 0x9F else 0xBF⟩, []) := by
  have a : ¬ b < 0x80 := by omega
  have c : ¬ (0xC2 ≤ b ∧ b ≤ 0xDF) := by omega
  simp [utf8Lead, a, c, h1, h2]

theorem utf8Lead_four (b : Nat) (h1 : 0xF0 ≤ b) (h2 : b ≤ 0xF4) :
    utf8Lead b = (⟨b - 0xF0, 3, if b = 0xF0 then 0x90 else 0x80,
      if b = 0xF4 then 0x8F else 0xBF⟩, []) := by
  have a : ¬ b < 0x80 := by omega
  have c : ¬ (0xC2 ≤ b ∧ b ≤ 0xDF) := by omega
  have d : ¬ (0xE0 ≤ b ∧ b ≤ 0xEF) := by omega
  simp [utf8Lead, a, c, d, h1, h2]

theorem utf8DecodeFrom_encodeOne (cp : Nat) (hs : IsScalar cp) (rest : List Byte) :
    utf8DecodeFrom Utf8State.start (utf8EncodeOne cp ++ rest)
      = cp :: utf8DecodeFrom Utf8State.start rest := by
  unfold IsScalar at hs
  unfold utf8EncodeOne
  split_ifs with h1 h2 h3
  · have e1 : ((Fin.ofNat cp : Byte)).val = cp := byte_val _ (by omega)
    simp [utf8DecodeFrom, utf8Step, utf8Lead, Utf8State.start, e1, h1]
  · have e1 : ((Fin.ofNat (0xC0 + cp / 64) : Byte)).val = 0xC0 + cp / 64 := byte_val _ (by omega)
    have e2 : ((Fin.ofNat (0x80 + cp % 64) : Byte)).val = 0x80 + cp % 64 := byte_val _ (by omega)
    simp only [List.cons_append, List.nil_append, utf8DecodeFrom, e1, e2, utf8Step_start]
    rw [utf8Lead_two _ (by omega) (by omega), utf8Step_last _ _ _ _ (by omega) (by omega)]
    simp only [List.nil_append, List.singleton_append, List.cons.injEq]
    exact ⟨by omega, rfl⟩
  · have e1 : ((Fin.ofNat (0xE0 + cp / 4096) : Byte)).val = 0xE0 + cp / 4096 :=
      byte_val _ (by omega)
    have e2 : ((Fin.ofNat (0x80 + cp / 64 % 64) : Byte)).val = 0x80 + cp / 64 % 64 :=
      byte_val _ (by omega)
    have e3 : ((Fin.ofNat (0x80 + cp % 64) : Byte)).val = 0x80 + cp % 64 := byte_val _ (by omega)
    simp only [List.cons_append, List.nil_append, utf8DecodeFrom, e1, e2, e3, utf8Step_start]
    rw [utf8Lead_three _ (by omega) (by omega),
      utf8Step_more _ _ _ _ _ (by omega) (by split_ifs <;> omega) (by split_ifs <;> omega),
      utf8Step_last _ _ _ _ (by omega) (by omega)]
    simp only [List.nil_append, List.singleton_append, List.cons.injEq]
    exact ⟨by omega, rfl⟩
  · have e1 : ((Fin.ofNat (0xF0 + cp / 262144 % 8) : Byte)).val = 0xF0 + cp / 262144 % 8 :=
      byte_val _ (by omega)
    have e2 : ((Fin.ofNat (0x80 + cp / 4096 % 64) : Byte)).val = 0x80 + cp / 4096 % 64 :=
      byte_val _ (by omega)
    have e3 : ((Fin.ofNat (0x80 + cp / 64 % 64) : Byte)).val = 0x80 + cp / 64 % 64 :=
      byte_val _ (by omega)
    have e4 : ((Fin.ofNat (0x80 + cp % 64) : Byte)).val = 0x80 + cp % 64 := byte_val _ (by omega)
    simp only [List.cons_append, List.nil_append, utf8DecodeFrom, e1, e2, e3, e4, utf8Step_start]
    rw [utf8Lead_four _ (by omega) (by omega),
      utf8Step_more _ _ _ _ _ (by omega) (by split_ifs <;> omega) (by split_ifs <;> omega),
      utf8Step_more _ _ _ _ _ (by omega) (by omega) (by omega),
      utf8Step_last _ _ _ _ (by omega) (by omega)]
    simp only [List.nil_append, List.singleton_append, List.cons.injEq]
    exact ⟨by omega, rfl⟩

theorem utf8DecodeFrom_encode (cps : List Nat) (hs : ∀ c ∈ cps, IsScalar c) :
    utf8DecodeFrom Utf8State.start (utf8Encode cps) = cps := by
  induction cps with
  | nil => simp [utf8Encode, utf8DecodeFrom, Utf8State.start]
  | cons c cs ih =>
    rw [utf8Encode, utf8DecodeFrom_encodeOne c (hs c (by simp)), ih (fun x hx => hs x (by simp [hx]))]

theorem stripBOM_eq (l : List Byte) (h : ∀ rest, l ≠ 0xEF :: 0xBB :: 0xBF :: rest) :
    stripBOM l = l := by
  unfold stripBOM
  split
  · exact absurd rfl (h _)
  · rfl

theorem stripBOM_encode (cps : List Nat) (hb : cps.head? ≠ some 0xFEFF) :
    stripBOM (utf8Encode cps) = utf8Encode cps := by
  apply stripBOM_eq
  intro rest h
  cases cps with
  | nil => simp [utf8Encode] at h
  | cons c cs =>
    have hc : c ≠ 0xFEFF := by simpa using hb
    unfold utf8Encode utf8EncodeOne at h
    split_ifs at h with h1 h2 h3
    · simp only [List.cons_append, List.nil_append, List.cons.injEq] at h
      have := congrArg Fin.val h.1
      rw [byte_val _ (by omega)] at this
      simp at this
      omega
    · simp only [List.cons_append, List.nil_append, List.cons.injEq] at h
      have := congrArg Fin.val h.1
      rw [byte_val _ (by omega)] at this
      simp at this
      omega
    · simp only [List.cons_append, List.nil_append, List.cons.injEq] at h
      have t1 := congrArg Fin.val h.1
      have t2 := congrArg Fin.val h.2.1
      have t3 := congrArg Fin.val h.2.2.1
      rw [byte_val _ (by omega)] at t1 t2 t3
      simp at t1 t2 t3
      omega
    · simp only [List.cons_append, List.nil_append, List.cons.injEq] at h
      have := congrArg Fin.val h.1
      rw [byte_val _ (by omega)] at this
      simp at this
      omega

theorem cu_val (n : Nat) (h : n < 65536) : ((Fin.ofNat n : CodeUnit)).val = n := by
  simp [Fin.ofNat, Nat.mod_eq_of_lt h]

theorem utf16Decode_encodeOne (cp : Nat) (hs : IsScalar cp) (rest : List CodeUnit) :
    utf16Decode (utf16EncodeOne cp ++ rest) = cp :: utf16Decode rest := by
  unfold IsScalar at hs
  unfold utf16EncodeOne
  split_ifs with h1
  · have e1 : ((Fin.ofNat cp : CodeUnit)).val = cp := cu_val _ (by omega)
    have nh : isHighSurrogate cp = false := by simp [isHighSurrogate]; omega
    have nl : isLowSurrogate cp = false := by simp [isLowSurrogate]; omega
    cases rest with
    | nil => simp [utf16Decode, e1, nh, nl]
    | cons l rest => simp [utf16Decode, e1, nh, nl]
  · have e1 : ((Fin.ofNat (0xD800 + (cp - 0x10000) / 0x400) : CodeUnit)).val
        = 0xD800 + (cp - 0x10000) / 0x400 := cu_val _ (by omega)
    have e2 : ((Fin.ofNat (0xDC00 + (cp - 0x10000) % 0x400) : CodeUnit)).val
        = 0xDC00 + (cp - 0x10000) % 0x400 := cu_val _ (by omega)
    have nh : isHighSurrogate (0xD800 + (cp - 0x10000) / 0x400) = true := by
      simp [isHighSurrogate]; omega
    have nl : isLowSurrogate (0xDC00 + (cp - 0x10000) % 0x400) = true := by
      simp [isLowSurrogate]; omega
    simp only [List.cons_append, List.nil_append, utf16Decode, e1, e2, nh, nl, Bool.and_self,
      if_true, List.cons.injEq]
    exact ⟨by omega, rfl⟩

theorem utf16Decode_encode (cps : List Nat) (hs : ∀ c ∈ cps, IsScalar c) :
    utf16Decode (utf16Encode cps) = cps := by
  induction cps with
  | nil => simp [utf16Encode, utf16Decode]
  | cons c cs ih =>
    rw [utf16Encode, utf16Decode_encodeOne c (hs c (by simp)), ih (fun x hx => hs x (by simp [hx]))]

theorem jsString_loadString (s : GoString) (hs : WellFormedGo s) : jsString (loadString s) = s := by
  obtain ⟨cps, ⟨hsc, hb⟩, rfl⟩ := hs
  simp only [jsString, loadString, utf8Decode, stripBOM_encode cps hb,
    utf8DecodeFrom_encode cps hsc, utf16Decode_encode cps hsc]

theorem loadString_jsString (s : JSString) (hs : WellFormedJS s) : loadString (jsString s) = s := by
  obtain ⟨cps, ⟨hsc, hb⟩, rfl⟩ := hs
  simp only [jsString, loadString, utf8Decode, stripBOM_encode cps hb,
    utf8DecodeFrom_encode cps hsc, utf16Decode_encode cps hsc]

theorem excessBits_small (fuel a : Nat) (h : a < 2 ^ 53) : excessBits fuel a = 0 := by
  cases fuel with
  | zero => rfl
  | succ n => simp only [excessBits, if_pos h]

theorem ofInt_small (n : Int) (h : n.natAbs < 2 ^ 53) :
    Float64.ofInt n = .fin (decide (n < 0)) n.natAbs 0 := by
  simp [Float64.ofInt, excessBits_small 64 _ h, Nat.mod_one]

theorem toInt_ofInt (n : Int) (h1 : -(2 ^ 53) ≤ n) (h2 : n ≤ 2 ^ 53) :
    (Float64.ofInt n).toInt = n := by
  by_cases hlt : n.natAbs < 2 ^ 53
  · rw [ofInt_small n hlt]
    simp only [Float64.toInt, Float64.trunc, minInt, maxInt, le_refl, if_true, Int.toNat_zero,
      pow_zero, mul_one]
    by_cases hn : n < 0
    · simp only [hn, decide_True, if_true]
      rw [if_neg (by omega), if_neg (by omega)]
      omega
    · simp only [hn, decide_False, Bool.false_eq_true, if_false]
      rw [if_neg (by omega), if_neg (by omega)]
      omega
  · have : n = 2 ^ 53 ∨ n = -(2 ^ 53) := by omega
    rcases this with rfl | rfl
    · decide
    · decide

/-! ## C1: round trip of plain scalars -/

theorem toByte_ofNat (n : Int) (h0 : 0 ≤ n) (h1 : n < 256) : ((toByte n).val : Int) = n := by
  unfold toByte
  rw [byte_val _ (by omega)]
  omega

theorem toPlatformInt_small (n : Int) (h0 : -(2 ^ 63) ≤ n) (h1 : n < 2 ^ 63) :
    toPlatformInt n = n := by
  unfold toPlatformInt
  omega

/-- C1, counterexample: the `int8` 5 encoded by `ToJS` and decoded by `ToGo` into a zero
`int8` does not come back: `ToGo` has no case for `*int8` and leaves the destination 0. -/
theorem scalar_roundTrip_int8_fails :
    ¬ RoundTrips exampleRender exampleHost (.integer .int8 5) := by
  rintro ⟨js, h1, h2⟩
  simp only [ToJS, Outcome.ok.injEq] at h1
  subst h1
  simp [ToGo, ToGoPtr, ToGo_switch, ToGo_default, zero, GoValue.typeOf, Outcome.bind] at h2

/-- C1, amended: every boolean, every `int` of magnitude at most 2^53, every byte, every
`float64` and every string that is well-formed UTF-8 without a leading byte order mark comes
back from `ToGo(ToJS(x), &y)` into a zero-valued `y` of its type: both calls return, `ToGo`
without error, and `y` holds `x`. -/
theorem scalar_roundTrip (render : GoValue → GoString) (h : Host) (x : GoValue)
    (hx : DecodableScalar x) : RoundTrips render h x := by
  cases x with
  | bool b =>
    exact ⟨.boolean b, rfl, rfl⟩
  | float64 f =>
    exact ⟨.number f, rfl, rfl⟩
  | string s =>
    refine ⟨.string (loadString s), rfl, ?_⟩
    have hs : jsString (loadString s) = s := jsString_loadString s hx
    simp [ToGo, ToGoPtr, ToGo_switch, GoValue.typeOf, zero, store, Outcome.bind, Value_String, hs]
  | integer k n =>
    cases k with
    | int =>
      obtain ⟨h1, h2⟩ := hx
      refine ⟨.number (.ofInt n), rfl, ?_⟩
      simp [ToGo, ToGoPtr, ToGo_switch, GoValue.typeOf, zero, store, Outcome.bind, Value_Int,
        toInt_ofInt n h1 h2]
    | uint8 =>
      obtain ⟨h1, h2⟩ := hx
      refine ⟨.number (.ofInt (toPlatformInt n)), rfl, ?_⟩
      have e1 : toPlatformInt n = n := toPlatformInt_small n (by omega) (by omega)
      have e2 : (Float64.ofInt n).toInt = n := toInt_ofInt n (by omega) (by omega)
      simp [ToGo, ToGoPtr, ToGo_switch, GoValue.typeOf, zero, store, Outcome.bind, Value_Int,
        e1, e2, toByte_ofNat n h1 h2]
    | _ => exact hx.elim
  | _ => exact hx.elim

/-- C1, witness: the string `hello` is well-formed and makes the round trip. -/
theorem scalar_roundTrip_witness :
    DecodableScalar (.string (lit "hello")) ∧
      RoundTrips exampleRender exampleHost (.string (lit "hello")) :=
  ⟨⟨_, ⟨by decide, by decide⟩, rfl⟩,
    scalar_roundTrip exampleRender exampleHost (.string (lit "hello"))
      ⟨_, ⟨by decide, by decide⟩, rfl⟩⟩

/-! ## C2: round trip of byte sequences -/

theorem toByte_val (b : Byte) : toByte (b.val : Int) = b := by
  apply Fin.ext
  have := toByte_ofNat (b.val : Int) (by omega) (by omega)
  omega

theorem bytesOf_ofBytes (b : List Byte) : bytesOf (ofBytes b) = b := by
  induction b with
  | nil => rfl
  | cons x xs ih =>
    simp only [ofBytes, List.map_cons, bytesOf, toByte_val] at ih ⊢
    rw [ih]

/-- C2, counterexample: the one-byte sequence FF, which is not valid UTF-8, does not come
back: the host turns it into U+FFFD and `ToGo` yields the three bytes EF BF BD. -/
theorem bytes_roundTrip_invalid_utf8_fails :
    ¬ BytesRoundTrip exampleRender exampleHost [0xFF] (.nilSlice (.integer .uint8)) := by
  rintro ⟨js, h1, out, cap, h2, h3⟩
  simp only [ToJS, Outcome.ok.injEq] at h1
  subst h1
  have e : jsString (loadString (bytesOf (ofBytes [(0xFF : Byte)]))) = [0xEF, 0xBF, 0xBD] := by
    decide
  simp only [ToGo, ToGoPtr, ToGo_switch, Value_Type, if_true, store, Outcome.bind,
    Value_String, e, Option.getD_some, Outcome.ok.injEq, GoValue.ptr.injEq, true_and,
    GoValue.slice.injEq] at h2
  obtain ⟨h4, -⟩ := h2
  subst h4
  revert h3
  decide

/-- C2, amended: every byte sequence that is well-formed UTF-8 without a leading byte order
mark, the empty one included, comes back byte for byte from `ToGo(ToJS(b), &out)`, whatever
the `[]byte` destination held: both calls return, `ToGo` without error. -/
theorem bytes_roundTrip (render : GoValue → GoString) (h : Host) (b : List Byte)
    (cur : GoValue) (hb : WellFormedGo b) : BytesRoundTrip render h b cur := by
  refine ⟨.string (loadString (bytesOf (ofBytes b))), rfl, ofBytes b, b.length, ?_, bytesOf_ofBytes b⟩
  simp [ToGo, ToGoPtr, ToGo_switch, Value_Type, store, Outcome.bind, Value_String,
    bytesOf_ofBytes, jsString_loadString b hb]

/-- C2, witness: the bytes of `binary data` are well-formed and come back. -/
theorem bytes_roundTrip_witness :
    WellFormedGo (lit "binary data") ∧
      BytesRoundTrip exampleRender exampleHost (lit "binary data") (.nilSlice (.integer .uint8)) :=
  ⟨⟨_, ⟨by decide, by decide⟩, rfl⟩,
    bytes_roundTrip exampleRender exampleHost (lit "binary data") (.nilSlice (.integer .uint8))
      ⟨_, ⟨by decide, by decide⟩, rfl⟩⟩

/-! ## C3: untyped decode fidelity -/

theorem jsString_injective (a b : JSString) (ha : WellFormedJS a) (hb : WellFormedJS b)
    (h : jsString a = jsString b) : a = b := by
  rw [← loadString_jsString a ha, ← loadString_jsString b hb, h]

theorem mapSet_new (key : GoString) (x : GoValue) (m : List (GoString × GoValue))
    (hm : ∀ e ∈ m, e.1 ≠ key) : mapSet key x m = m ++ [(key, x)] := by
  induction m with
  | nil => rfl
  | cons e rest ih =>
    obtain ⟨k, y⟩ := e
    have hk : k ≠ key := hm (k, y) (by simp)
    simp only [mapSet, if_neg hk, List.cons_append]
    rw [ih (fun e he => hm e (by simp [he]))]

theorem lookupProp_mem (ps : List (JSString × JSValue)) (hn : (ps.map Prod.fst).Nodup)
    (p : JSString × JSValue) (hp : p ∈ ps) : lookupProp p.1 ps = some p.2 := by
  induction ps with
  | nil => simp at hp
  | cons e rest ih =>
    obtain ⟨k, y⟩ := e
    simp only [List.map_cons, List.nodup_cons] at hn
    rcases List.mem_cons.mp hp with rfl | hr
    · simp [lookupProp]
    · have hk : k ≠ p.1 := by
        intro hk
        exact hn.1 (hk ▸ List.mem_map_of_mem Prod.fst hr)
      simp only [lookupProp, if_neg hk]
      exact ih hn.2 hr

theorem WellFormedProps_mem (ps : List (JSString × JSValue)) (hw : WellFormedProps ps)
    (p : JSString × JSValue) (hp : p ∈ ps) :
    (WellFormedJS p.1 ∧ p.1 ≠ protoKey) ∧ WellFormedTree p.2 := by
  induction ps with
  | nil => simp at hp
  | cons e rest ih =>
    obtain ⟨k, y⟩ := e
    simp only [WellFormedProps] at hw
    rcases List.mem_cons.mp hp with rfl | hr
    · exact ⟨hw.1, hw.2.1⟩
    · exact ih hw.2.2 hr

theorem toAny_props_eq (h : Host) (ps : List (JSString × JSValue)) :
    toAny_props h ps = ps.map (fun p => (p.1, toAny h p.2)) := by
  induction ps with
  | nil => rfl
  | cons e rest ih =>
    obtain ⟨k, y⟩ := e
    simp only [toAny_props, List.map_cons, ih]

theorem find_converted (h : Host) (ps : List (JSString × JSValue))
    (hn : (ps.map Prod.fst).Nodup) (p : JSString × JSValue) (hp : p ∈ ps) (dflt : GoValue) :
    (((ps.map (fun p => (p.1, toAny h p.2))).find? (fun q => q.1 = p.1)).map Prod.snd).getD dflt
      = toAny h p.2 := by
  induction ps with
  | nil => simp at hp
  | cons e rest ih =>
    obtain ⟨k, y⟩ := e
    simp only [List.map_cons, List.nodup_cons] at hn
    rcases List.mem_cons.mp hp with rfl | hr
    · simp
    · have hk : k ≠ p.1 := by
        intro hk
        exact hn.1 (hk ▸ List.mem_map_of_mem Prod.fst hr)
      simp only [List.map_cons, List.find?_cons, hk, decide_False]
      exact ih hn.2 hr

/-- The key loop of `toAny` adds, for keys that are well-formed, distinct and new to the
map, one entry per key in order. -/
theorem toAny_keys_eq (conv : List (JSString × GoValue)) (ks : List JSString)
    (acc : List (GoString × GoValue)) (hw : ∀ k ∈ ks, WellFormedJS k) (hn : ks.Nodup)
    (hacc : ∀ k ∈ ks, ∀ e ∈ acc, e.1 ≠ jsString k) :
    toAny_keys conv ks acc
      = acc ++ ks.map (fun k =>
          (jsString k, ((conv.find? (fun q => q.1 = k)).map Prod.snd).getD (inheritedAny k))) := by
  induction ks generalizing acc with
  | nil => simp [toAny_keys]
  | cons k rest ih =>
    have hk : WellFormedJS k := hw k (by simp)
    simp only [List.nodup_cons] at hn
    simp only [toAny_keys, loadString_jsString k hk, List.map_cons]
    rw [mapSet_new _ _ _ (hacc k (by simp))]
    rw [ih _ (fun k' hk' => hw k' (by simp [hk'])) hn.2]
    · simp
    · intro k' hk' e he
      rcases List.mem_append.mp he with he | he
      · exact hacc k' (by simp [hk']) e he
      · simp only [List.mem_singleton] at he
        subst he
        intro heq
        have := jsString_injective k k' hk (hw k' (by simp [hk'])) heq
        exact hn.1 (this ▸ hk')

theorem toAny_object (h : Host) (props : List (JSString × JSValue))
    (hn : (props.map Prod.fst).Nodup) (hw : WellFormedProps props) :
    toAny h (.object props)
      = .map .iface (props.map (fun p => (jsString p.1, toAny h p.2))) := by
  simp only [toAny, toAny_props_eq]
  rw [toAny_keys_eq _ _ [] (fun k hk => by
      obtain ⟨p, hp, rfl⟩ := List.mem_map.mp hk
      exact (WellFormedProps_mem props hw p hp).1.1) hn (by simp)]
  simp only [List.nil_append, List.map_map, GoValue.map.injEq, true_and]
  apply List.map_congr_left
  intro p hp
  simp only [Function.comp_apply, Prod.mk.injEq, true_and]
  exact find_converted h props hn p hp _

mutual
/-- A well-formed tree equals itself up to key order. -/
theorem sameUpToKeyOrder_refl : ∀ d, WellFormedTree d → SameUpToKeyOrder d d
  | .null, _ => by simp [SameUpToKeyOrder]
  | .boolean _, _ => by simp [SameUpToKeyOrder]
  | .number _, _ => by simp [SameUpToKeyOrder]
  | .string _, _ => by simp [SameUpToKeyOrder]
  | .array items, hw => by
    simp only [WellFormedTree] at hw
    simp only [SameUpToKeyOrder]
    exact sameItems_refl items hw
  | .object props, hw => by
    simp only [WellFormedTree] at hw
    simp only [SameUpToKeyOrder, true_and]
    exact sameProps_of_lookup props props hw.2 (fun p hp => lookupProp_mem props hw.1 p hp)
  | .undefined, hw => by simp [WellFormedTree] at hw
  | .function, hw => by simp [WellFormedTree] at hw
  | .symbol, hw => by simp [WellFormedTree] at hw
  | .prototype _, hw => by simp [WellFormedTree] at hw
/-- The same for the elements of an array. -/
theorem sameItems_refl : ∀ items, WellFormedItems items → SameItems items items
  | [], _ => by simp [SameItems]
  | x :: xs, hw => by
    simp only [WellFormedItems] at hw
    simp only [SameItems]
    exact ⟨sameUpToKeyOrder_refl x hw.1, sameItems_refl xs hw.2⟩
/-- Properties found in a second list with their own values are matched by it. -/
theorem sameProps_of_lookup : ∀ (ps qs : List (JSString × JSValue)), WellFormedProps ps →
    (∀ p ∈ ps, lookupProp p.1 qs = some p.2) → SameProps ps qs
  | [], _, _, _ => by simp [SameProps]
  | (k, x) :: ps, qs, hw, hl => by
    simp only [WellFormedProps] at hw
    simp only [SameProps, hl (k, x) (by simp)]
    exact ⟨sameUpToKeyOrder_refl x hw.2.1,
      sameProps_of_lookup ps qs hw.2.2 (fun p hp => hl p (by simp [hp]))⟩
end

/-! ## C3 continued: any order of map entries -/

theorem sameGoEntries_iff (es es' : List (GoString × GoValue)) :
    SameGoEntries es es' ↔
      ∀ e ∈ es, ∃ y, mapGet e.1 es' = some y ∧ SameGoValue e.2 y := by
  induction es with
  | nil => simp [SameGoEntries]
  | cons e rest ih =>
    obtain ⟨k, x⟩ := e
    simp only [SameGoEntries, ih, List.mem_cons, forall_eq_or_imp]
    constructor
    · rintro ⟨h1, h2⟩
      refine ⟨?_, h2⟩
      cases hm : mapGet k es' with
      | none => simp [hm] at h1
      | some y => exact ⟨y, rfl, by simpa [hm] using h1⟩
    · rintro ⟨⟨y, hy, hs⟩, h2⟩
      exact ⟨by simpa [hy] using hs, h2⟩

theorem sameProps_iff (ps qs : List (JSString × JSValue)) :
    SameProps ps qs ↔
      ∀ p ∈ ps, ∃ y, lookupProp p.1 qs = some y ∧ SameUpToKeyOrder p.2 y := by
  induction ps with
  | nil => simp [SameProps]
  | cons e rest ih =>
    obtain ⟨k, x⟩ := e
    simp only [SameProps, ih, List.mem_cons, forall_eq_or_imp]
    constructor
    · rintro ⟨h1, h2⟩
      refine ⟨?_, h2⟩
      cases hm : lookupProp k qs with
      | none => simp [hm] at h1
      | some y => exact ⟨y, rfl, by simpa [hm] using h1⟩
    · rintro ⟨⟨y, hy, hs⟩, h2⟩
      exact ⟨by simpa [hy] using hs, h2⟩

theorem mapGet_mem (es : List (GoString × GoValue)) (hn : (es.map Prod.fst).Nodup)
    (e : GoString × GoValue) (he : e ∈ es) : mapGet e.1 es = some e.2 := by
  induction es with
  | nil => simp at he
  | cons e0 rest ih =>
    obtain ⟨k, y⟩ := e0
    simp only [List.map_cons, List.nodup_cons] at hn
    rcases List.mem_cons.mp he with rfl | hr
    · simp [mapGet]
    · have hk : k ≠ e.1 := by
        intro hk
        exact hn.1 (hk ▸ List.mem_map_of_mem Prod.fst hr)
      simp only [mapGet, if_neg hk]
      exact ih hn.2 hr

theorem mapGet_some_mem (es : List (GoString × GoValue)) (k : GoString) (y : GoValue)
    (hg : mapGet k es = some y) : (k, y) ∈ es := by
  induction es with
  | nil => simp [mapGet] at hg
  | cons e0 rest ih =>
    obtain ⟨k0, y0⟩ := e0
    simp only [mapGet] at hg
    split_ifs at hg with hk
    · simp only [Option.some.injEq] at hg
      subst hk hg
      simp
    · exact List.mem_cons_of_mem _ (ih hg)

/-- The entry loop of `ToJS` over a map whose values all encode and none of whose keys is
`__proto__` makes one assignment per entry, in order. -/
theorem ToJS_entries_ok (render : GoValue → GoString) (es : List (GoString × GoValue))
    (acc : List (JSString × JSValue))
    (hv : ∀ e ∈ es, ∃ y, ToJS render e.2 = .ok y)
    (hp : ∀ e ∈ es, loadString e.1 ≠ protoKey) :
    ToJS_entries render es acc
      = .ok (setAll (es.map fun e => (loadString e.1, jsOf render e.2)) acc) := by
  induction es generalizing acc with
  | nil => rfl
  | cons e rest ih =>
    obtain ⟨k, x⟩ := e
    obtain ⟨y, hy⟩ := hv (k, x) (by simp)
    have hj : jsOf render x = y := by simp only [jsOf, hy]
    have hk : loadString k ≠ protoKey := hp (k, x) (by simp)
    simp only [ToJS_entries, hy, ok_bind, Value_Set_eq _ _ _ hk, List.map_cons, hj]
    rw [ih _ (fun e he => hv e (by simp [he])) (fun e he => hp e (by simp [he]))]
    rfl

/-- Encoding a map that holds, in any order, the entries `toAny` made of the properties
`props`, of which every value encodes to the same tree, gives back an object equal to
`props` up to key order. -/
theorem ToJS_same_object (render : GoValue → GoString) (h : Host)
    (props : List (JSString × JSValue)) (hn : (props.map Prod.fst).Nodup)
    (hw : WellFormedProps props)
    (ih : ∀ p ∈ props, ∀ v', SameGoValue (toAny h p.2) v' →
      ∃ y, ToJS render v' = .ok y ∧ SameUpToKeyOrder p.2 y)
    (es' : List (GoString × GoValue)) (hlen : es'.length = props.length)
    (hn' : (es'.map Prod.fst).Nodup)
    (hs : SameGoEntries (props.map (fun p => (jsString p.1, toAny h p.2))) es') :
    ∃ d', ToJS render (.map .iface es') = .ok d' ∧ SameUpToKeyOrder (.object props) d' := by
  have hwk : ∀ p ∈ props, WellFormedJS p.1 :=
    fun p hp => (WellFormedProps_mem props hw p hp).1.1
  -- every property is found in the map
  have F1 : ∀ p ∈ props, ∃ v', mapGet (jsString p.1) es' = some v' ∧
      SameGoValue (toAny h p.2) v' := by
    intro p hp
    exact (sameGoEntries_iff _ _).mp hs (jsString p.1, toAny h p.2)
      (List.mem_map.mpr ⟨p, hp, rfl⟩)
  have hnk : (props.map (fun p => jsString p.1)).Nodup :=
    List.Nodup.map_on (fun p hp q hq heq => List.inj_on_of_nodup_map hn hp hq
      (jsString_injective _ _ (hwk p hp) (hwk q hq) heq)) (List.Nodup.of_map _ hn)
  -- the keys of the map are those of the properties
  have hsub : props.map (fun p => jsString p.1) ⊆ es'.map Prod.fst := by
    intro k hk
    obtain ⟨p, hp, rfl⟩ := List.mem_map.mp hk
    obtain ⟨v', hv', -⟩ := F1 p hp
    exact List.mem_map.mpr ⟨(jsString p.1, v'), mapGet_some_mem es' _ _ hv', rfl⟩
  have hperm : (props.map (fun p => jsString p.1)).Perm (es'.map Prod.fst) :=
    (List.subperm_of_subset hnk hsub).perm_of_length_le (by simp [hlen])
  have F3 : ∀ e ∈ es', ∃ p ∈ props, e.1 = jsString p.1 ∧ SameGoValue (toAny h p.2) e.2 := by
    intro e he
    have hk : e.1 ∈ props.map (fun p => jsString p.1) :=
      hperm.mem_iff.mpr (List.mem_map_of_mem Prod.fst he)
    obtain ⟨p, hp, hpe⟩ := List.mem_map.mp hk
    obtain ⟨v', hv', hs'⟩ := F1 p hp
    have hge := mapGet_mem es' hn' e he
    rw [← hpe, hv'] at hge
    simp only [Option.some.injEq] at hge
    subst hge
    exact ⟨p, hp, hpe.symm, hs'⟩
  have F4 : ∀ e ∈ es', ∃ y, ToJS render e.2 = .ok y := by
    intro e he
    obtain ⟨p, hp, -, hs'⟩ := F3 e he
    obtain ⟨y, hy, -⟩ := ih p hp e.2 hs'
    exact ⟨y, hy⟩
  have F5 : (es'.map (fun e => loadString e.1)).Nodup := by
    have hp2 := hperm.map loadString
    simp only [List.map_map] at hp2
    have he1 : props.map (loadString ∘ fun p => jsString p.1) = props.map Prod.fst :=
      List.map_congr_left (fun p hp => loadString_jsString p.1 (hwk p hp))
    rw [he1] at hp2
    exact hp2.nodup_iff.mp hn
  have F6 : ∀ e ∈ es', loadString e.1 ≠ protoKey := by
    intro e he
    obtain ⟨p, hp, hpe, -⟩ := F3 e he
    rw [hpe, loadString_jsString p.1 (hwk p hp)]
    exact (WellFormedProps_mem props hw p hp).1.2
  have ho := ToJS_entries_ok render es' [] F4 F6
  have hkeys : (es'.map fun e => (loadString e.1, jsOf render e.2)).map Prod.fst
      = es'.map (fun e => loadString e.1) := by
    simp [List.map_map, Function.comp_def]
  have hkn : ((es'.map fun e => (loadString e.1, jsOf render e.2)).map Prod.fst).Nodup :=
    hkeys ▸ F5
  refine ⟨.object (setAll (es'.map fun e => (loadString e.1, jsOf render e.2)) []), ?_, ?_⟩
  · simp only [ToJS, ho, ok_bind]
  · simp only [SameUpToKeyOrder]
    constructor
    · have hl := (keys_setAll_perm _ hkn).length_eq
      simp only [List.length_map] at hl
      omega
    · rw [sameProps_iff]
      intro p hp
      obtain ⟨v', hv', hs'⟩ := F1 p hp
      obtain ⟨y, hy, hsy⟩ := ih p hp v' hs'
      have hj : jsOf render v' = y := by simp only [jsOf, hy]
      have hmem : (loadString (jsString p.1), jsOf render v')
          ∈ es'.map fun e => (loadString e.1, jsOf render e.2) :=
        List.mem_map.mpr ⟨(jsString p.1, v'), mapGet_some_mem es' _ _ hv', rfl⟩
      have hl := lookupProp_setAll_mem _ [] hkn _ hmem
      simp only [loadString_jsString p.1 (hwk p hp), hj] at hl
      exact ⟨y, hl, hsy⟩

mutual
/-- Encoding any Go value that is the untyped decoding of a well-formed tree, its maps
listed in any order, returns a tree equal to the first up to key order. -/
theorem toJS_same (render : GoValue → GoString) (h : Host) :
    ∀ d, WellFormedTree d → ∀ a', SameGoValue (toAny h d) a' →
      ∃ d', ToJS render a' = .ok d' ∧ SameUpToKeyOrder d d'
  | .null, _, a', hs => by
    simp only [toAny, SameGoValue] at hs
    subst hs
    exact ⟨.null, rfl, by simp [SameUpToKeyOrder]⟩
  | .boolean b, _, a', hs => by
    simp only [toAny, SameGoValue] at hs
    subst hs
    exact ⟨.boolean b, rfl, by simp [SameUpToKeyOrder]⟩
  | .number x, _, a', hs => by
    simp only [toAny, SameGoValue] at hs
    subst hs
    exact ⟨.number x, rfl, by simp [SameUpToKeyOrder]⟩
  | .string s, hw, a', hs => by
    simp only [WellFormedTree] at hw
    simp only [toAny, SameGoValue] at hs
    subst hs
    exact ⟨.string s, by simp only [Value_String, ToJS, loadString_jsString s hw],
      by simp [SameUpToKeyOrder]⟩
  | .array items, hw, a', hs => by
    simp only [WellFormedTree] at hw
    simp only [toAny] at hs
    cases a' with
    | slice elem ys cap =>
      simp only [SameGoValue] at hs
      obtain ⟨rfl, -, hs⟩ := hs
      obtain ⟨ds, hd, hsi⟩ := toJS_same_items render h items hw ys hs
      exact ⟨.array ds, by simp only [ToJS, hd, Outcome.bind], by simpa [SameUpToKeyOrder] using hsi⟩
    | _ => simp [SameGoValue] at hs
  | .object props, hw, a', hs => by
    simp only [WellFormedTree] at hw
    rw [toAny_object h props hw.1 hw.2] at hs
    cases a' with
    | map val es' =>
      simp only [SameGoValue, List.length_map] at hs
      obtain ⟨rfl, hlen, hn', hs⟩ := hs
      exact ToJS_same_object render h props hw.1 hw.2 (toJS_same_props render h props hw.2)
        es' hlen hn' hs
    | _ => simp [SameGoValue] at hs
  | .undefined, hw, _, _ => by simp [WellFormedTree] at hw
  | .function, hw, _, _ => by simp [WellFormedTree] at hw
  | .symbol, hw, _, _ => by simp [WellFormedTree] at hw
  | .prototype _, hw, _, _ => by simp [WellFormedTree] at hw
/-- The same for the elements of an array. -/
theorem toJS_same_items (render : GoValue → GoString) (h : Host) :
    ∀ items, WellFormedItems items → ∀ ys, SameGoItems (toAny_items h items) ys →
      ∃ ds, ToJS_items render ys = .ok ds ∧ SameItems items ds
  | [], _, ys, hs => by
    simp only [toAny_items, SameGoItems] at hs
    subst hs
    exact ⟨[], rfl, by simp [SameItems]⟩
  | x :: xs, hw, ys, hs => by
    simp only [WellFormedItems] at hw
    simp only [toAny_items] at hs
    cases ys with
    | nil => simp [SameGoItems] at hs
    | cons y ys =>
      simp only [SameGoItems] at hs
      obtain ⟨d', hd, hsd⟩ := toJS_same render h x hw.1 y hs.1
      obtain ⟨ds, hds, hsds⟩ := toJS_same_items render h xs hw.2 ys hs.2
      exact ⟨d' :: ds, by simp only [ToJS_items, hd, hds, Outcome.bind],
        by simp only [SameItems]; exact ⟨hsd, hsds⟩⟩
/-- The same for the values of the properties of an object. -/
theorem toJS_same_props (render : GoValue → GoString) (h : Host) :
    ∀ props, WellFormedProps props → ∀ p ∈ props, ∀ v', SameGoValue (toAny h p.2) v' →
      ∃ y, ToJS render v' = .ok y ∧ SameUpToKeyOrder p.2 y
  | [], _ => by simp
  | (k, x) :: ps, hw => by
    simp only [WellFormedProps] at hw
    intro p hp
    rcases List.mem_cons.mp hp with rfl | hr
    · exact toJS_same render h x hw.2.1
    · exact toJS_same_props render h ps hw.2.2 p hr
end

/-- C3, counterexample: the string made of the lone surrogate D800 is not reproduced:
`toAny` reads it as U+FFFD, and `ToJS` gives the string FFFD. And the object with the own
property `__proto__`, as `JSON.parse` makes it of `{"__proto__": 1}`, is not reproduced:
`toAny` gives the map `{"__proto__": 1}`, of which `ToJS` makes the empty object. -/
theorem untyped_fidelity_fails :
    ¬ UntypedFidelity exampleRender exampleHost (.string [0xD800]) ∧
      ¬ UntypedFidelity exampleRender exampleHost (.object [(protoKey, .number (.ofInt 1))]) := by
  constructor
  · rintro ⟨a, h1, h4⟩
    simp only [ToGo, ToGoPtr, ToGo_switch, store, Outcome.bind, Option.getD_some,
      Outcome.ok.injEq, GoValue.ptr.injEq, true_and] at h1
    subst h1
    obtain ⟨d', h2, h3⟩ := h4 (toAny exampleHost (.string [0xD800]))
      (by simp only [toAny, SameGoValue])
    simp only [toAny, Value_String, ToJS, Outcome.ok.injEq] at h2
    subst h2
    simp only [SameUpToKeyOrder, JSValue.string.injEq] at h3
    revert h3
    decide
  · rintro ⟨a, h1, h4⟩
    have e1 : ToGo exampleHost (.object [(protoKey, .number (.ofInt 1))]) (.ptr .iface .nil)
        = .ok (.ptr .iface (.map .iface [(lit "__proto__", .float64 (.ofInt 1))])) := rfl
    rw [e1] at h1
    cases h1
    obtain ⟨d', h2, h3⟩ := h4 (.map .iface [(lit "__proto__", .float64 (.ofInt 1))])
      (by simp [SameGoValue, SameGoEntries, mapGet])
    have e2 : ToJS exampleRender (.map .iface [(lit "__proto__", .float64 (.ofInt 1))])
        = .ok (.object []) := rfl
    rw [e2] at h2
    cases h2
    simp [SameUpToKeyOrder] at h3

/-- C3, amended: for every tree of null, boolean, number, string, array and object nodes
whose strings and keys are well-formed UTF-16 without a leading U+FEFF and none of whose
keys is `__proto__`, `ToGo(d, &a)` into an `any` returns without error and `ToJS(a)`, in
whatever order it visits the maps of `a`, returns a value equal to `d` up to the order of
object keys. -/
theorem untyped_fidelity (render : GoValue → GoString) (h : Host) (d : JSValue)
    (hd : WellFormedTree d) : UntypedFidelity render h d :=
  ⟨toAny h d, by simp [ToGo, ToGoPtr, ToGo_switch, store, Outcome.bind],
    toJS_same render h d hd⟩

theorem wellFormedJS_of_text (cps : List Nat) (h : IsText cps) : WellFormedJS (utf16Encode cps) :=
  ⟨cps, h, rfl⟩

theorem wellFormedTree_exampleTree : WellFormedTree exampleTree := by
  simp only [exampleTree, WellFormedTree, WellFormedProps, WellFormedItems, and_true, true_and]
  exact ⟨by decide, ⟨wellFormedJS_of_text _ ⟨by decide, by decide⟩, by decide⟩,
    wellFormedJS_of_text _ ⟨by decide, by decide⟩,
    wellFormedJS_of_text _ ⟨by decide, by decide⟩, by decide⟩

/-- C3, witness: the tree `{"a": [1, null, "x"], "b": true}` is well-formed and is
reproduced. -/
theorem untyped_fidelity_witness :
    WellFormedTree exampleTree ∧ UntypedFidelity exampleRender exampleHost exampleTree :=
  ⟨wellFormedTree_exampleTree,
    untyped_fidelity exampleRender exampleHost exampleTree wellFormedTree_exampleTree⟩

/-! ## C4: map overlay -/

theorem mapGet_mapSet (key key' : GoString) (x : GoValue) (m : List (GoString × GoValue)) :
    mapGet key (mapSet key' x m) = if key' = key then some x else mapGet key m := by
  induction m with
  | nil => simp [mapSet, mapGet]
  | cons e rest ih =>
    obtain ⟨k, y⟩ := e
    by_cases hk : k = key'
    · subst hk
      simp only [mapSet, if_true, mapGet]
      split_ifs <;> rfl
    · simp only [mapSet, if_neg hk, mapGet, ih]
      by_cases hk2 : k = key
      · subst hk2
        simp [Ne.symm hk]
      · simp [hk2]

theorem ToGo_keys_eq (h : Host) (props : List (JSString × JSValue)) (ks : List JSString)
    (m : List (GoString × GoValue)) :
    ToGo_keys h (.object props) ks m
      = .ok (ks.foldl (fun m k => mapSet (jsString k)
          (toAny h (getProp props (loadString (jsString k)))) m) m) := by
  induction ks generalizing m with
  | nil => rfl
  | cons k rest ih =>
    simp only [ToGo_keys, Value_String, Value_Get, Outcome.bind, ih, List.foldl_cons]

theorem mapGet_foldl_other (f : JSString → GoValue) (ks : List JSString)
    (m : List (GoString × GoValue)) (key : GoString) (hk : ∀ k ∈ ks, jsString k ≠ key) :
    mapGet key (ks.foldl (fun m k => mapSet (jsString k) (f k) m) m) = mapGet key m := by
  induction ks generalizing m with
  | nil => rfl
  | cons k rest ih =>
    simp only [List.foldl_cons]
    rw [ih _ (fun k' hk' => hk k' (by simp [hk'])), mapGet_mapSet, if_neg (hk k (by simp))]

theorem mapGet_foldl_mem (f : JSString → GoValue) (ks : List JSString)
    (m : List (GoString × GoValue)) (hw : ∀ k ∈ ks, WellFormedJS k) (hn : ks.Nodup)
    (k : JSString) (hk : k ∈ ks) :
    mapGet (jsString k) (ks.foldl (fun m k => mapSet (jsString k) (f k) m) m) = some (f k) := by
  induction ks generalizing m with
  | nil => simp at hk
  | cons k' rest ih =>
    simp only [List.nodup_cons] at hn
    simp only [List.foldl_cons]
    rcases List.mem_cons.mp hk with rfl | hr
    · rw [mapGet_foldl_other f rest _ _ (fun k' hk' heq => by
        have := jsString_injective k' k (hw k' (by simp [hk'])) (hw k (by simp)) heq
        exact hn.1 (this ▸ hk'))]
      simp [mapGet_mapSet]
    · exact ih _ (fun k hk => hw k (by simp [hk])) hn.2 hr

/-- C4, counterexample: decoding the object with the single key D800, a lone surrogate,
and value 1 into an empty map does not store the decoding of 1 under that key: the key is
read as U+FFFD, looked up again under that name, not found, and nil is stored. -/
theorem map_overlay_lone_surrogate_key_fails :
    ¬ MapOverlay exampleHost [([0xD800], .number (.ofInt 1))] (.map .iface []) := by
  rintro ⟨m, h1, h2, -⟩
  have e1 : jsString [(0xD800 : CodeUnit)] = [0xEF, 0xBF, 0xBD] := by decide
  have e2 : loadString [(0xEF : Byte), 0xBF, 0xBD] = [0xFFFD] := by decide
  have e3 : ([(0xD800 : CodeUnit)] = [0xFFFD]) = False := by decide
  have e4 : inherited [(0xFFFD : CodeUnit)] = .undefined := by rfl
  simp only [ToGo, ToGoPtr, ToGo_switch, Object_keys, List.map_cons, List.map_nil, ToGo_keys,
    Value_String, Value_Get, getProp, lookupProp, e1, e2, e3, e4, if_false, Option.getD_none,
    toAny, mapEntries,
    mapSet, Outcome.bind, Option.getD_some, Outcome.ok.injEq, GoValue.ptr.injEq,
    GoValue.map.injEq, true_and] at h1
  subst h1
  have := h2 ([0xD800], .number (.ofInt 1)) (by simp)
  simp [e1, mapGet, toAny] at this

/-- C4, amended: for every object whose keys are well-formed UTF-16 without a leading
U+FEFF and every `map[string]any` destination, `ToGo` returns without error and leaves a
map that holds under each key of the object the untyped decoding of its value and under
every other key what the destination held before; a nil destination map thus ends up
with exactly the keys of the object. -/
theorem map_overlay (h : Host) (props : List (JSString × JSValue)) (cur : GoValue)
    (hn : (props.map Prod.fst).Nodup) (hw : ∀ p ∈ props, WellFormedJS p.1) :
    MapOverlay h props cur := by
  have hwk : ∀ k ∈ props.map Prod.fst, WellFormedJS k := by
    intro k hk
    obtain ⟨p, hp, rfl⟩ := List.mem_map.mp hk
    exact hw p hp
  refine ⟨(props.map Prod.fst).foldl (fun m k => mapSet (jsString k)
    (toAny h (getProp props (loadString (jsString k)))) m)
    (mapEntries cur), ?_, ?_, ?_⟩
  · simp only [ToGo, ToGoPtr, ToGo_switch, Object_keys, ToGo_keys_eq, Outcome.bind,
      Option.getD_some]
  · intro p hp
    rw [mapGet_foldl_mem (fun k => toAny h (getProp props (loadString (jsString k))))
      _ _ hwk hn p.1 (List.mem_map_of_mem Prod.fst hp)]
    rw [loadString_jsString p.1 (hw p hp), getProp, lookupProp_mem props hn p hp]
    rfl
  · intro key hkey
    apply mapGet_foldl_other
    intro k hk
    obtain ⟨p, hp, rfl⟩ := List.mem_map.mp hk
    exact hkey p hp

/-- Decoding `{"a": 1}` into the map `{"b": 2}` gives `{"b": 2, "a": 1}`. -/
theorem map_overlay_example :
    ToGo exampleHost (.object exampleProps) (.ptr (.map .iface) exampleMap)
      = .ok (.ptr (.map .iface)
          (.map .iface [(lit "b", .float64 (.ofInt 2)), (lit "a", .float64 (.ofInt 1))])) := by
  rfl

/-- C4, witness: the object `{"a": 1}` has one well-formed key and overlays the map
`{"b": 2}`. -/
theorem map_overlay_witness :
    (exampleProps.map Prod.fst).Nodup ∧ (∀ p ∈ exampleProps, WellFormedJS p.1) ∧
      MapOverlay exampleHost exampleProps exampleMap :=
  ⟨by decide,
    fun p hp => by
      simp only [exampleProps, List.mem_singleton] at hp
      subst hp
      exact wellFormedJS_of_text _ ⟨by decide, by decide⟩,
    map_overlay exampleHost exampleProps exampleMap (by decide)
      (fun p hp => by
        simp only [exampleProps, List.mem_singleton] at hp
        subst hp
        exact wellFormedJS_of_text _ ⟨by decide, by decide⟩)⟩

/-! ## C5: invalid destinations -/

/-- A destination that is the nil interface, a plain value that is no pointer, or a nil
pointer to a type the type switch has no case for gets the error of the `default` branch. -/
theorem invalid_destination_error (h : Host) (jsVal : JSValue) (k : IntKind) (n : Int)
    (fields : List (StructField × GoType)) :
    ToGo h jsVal .nil = .error errDestination ∧
    ToGo h jsVal (.integer k n) = .error errDestination ∧
    ToGo h jsVal (.nilPtr (.struct fields)) = .error errDestination := by
  refine ⟨rfl, rfl, ?_⟩
  simp [ToGo, ToGoPtr, ToGo_switch, ToGo_default, Outcome.bind]

/-- C5, failing input: `ToGo(js.Null(), (*string)(nil))` panics: the `*string` case of the
type switch assigns through the nil pointer before any check of the destination. The same
holds for a nil `*any`, `*map[string]any`, `*int`, `*float64`, `*bool` and `*byte`. -/
theorem nil_typed_pointer_panics :
    ToGo exampleHost .null (.nilPtr .string) = .panic ∧
    ToGo exampleHost .null (.nilPtr .iface) = .panic ∧
    ToGo exampleHost .null (.nilPtr (.map .iface)) = .panic ∧
    ToGo exampleHost .null (.nilPtr (.integer .int)) = .panic ∧
    ToGo exampleHost .null (.nilPtr .float64) = .panic ∧
    ToGo exampleHost .null (.nilPtr .bool) = .panic ∧
    ToGo exampleHost .null (.nilPtr (.integer .uint8)) = .panic :=
  ⟨rfl, rfl, rfl, rfl, rfl, rfl, rfl⟩

/-- A nil `*[]byte` with a source that is neither a string nor an array is not refused
either: no case writes, and `ToGo` returns nil. -/
theorem nil_bytes_pointer_returns_nil (h : Host) (x : Float64) :
    ToGo h (.number x) (.nilPtr (.slice (.integer .uint8)))
      = .ok (.nilPtr (.slice (.integer .uint8))) := rfl

/-! ## C6: a source that is no array, into a sequence -/

/-- In the `default` branch a slice destination whose elements are not of kind `uint8` is
left as it was by every source that is no array. -/
theorem slice_mismatch_noop (h : Host) (jsVal : JSValue) (elemType : GoType) (cur : GoValue)
    (hi : elemType ≠ .iface) (hk : isUint8Kind elemType = false)
    (ha : Value_InstanceOfArray jsVal = false) :
    ToGo h jsVal (.ptr (.slice elemType) cur) = .ok (.ptr (.slice elemType) cur) := by
  have hsw : ToGo_switch h (.slice elemType) jsVal (some cur) = none := by
    cases elemType with
    | iface => exact absurd rfl hi
    | integer k => cases k <;> first | rfl | simp [isUint8Kind, GoType.underlying] at hk
    | _ => rfl
  simp [ToGo, ToGoPtr, hsw, ToGo_default, ToGo_slice, hk, ha, Outcome.bind]

/-- C6, failing input: `ToGo(js.ValueOf("x"), &s)` with `s = []any{1}` panics, because the
`*[]any` case calls `jsVal.Length()` on a value that is no object; and with the empty
object as source the same destination is cut to length 0. -/
theorem any_slice_mismatch_fails :
    ToGo exampleHost (.string (loadString (lit "x")))
        (.ptr (.slice .iface) (.slice .iface [.integer .int 1] 1)) = .panic ∧
    ToGo exampleHost (.object [])
        (.ptr (.slice .iface) (.slice .iface [.integer .int 1] 1))
      = .ok (.ptr (.slice .iface) (.slice .iface [] 1)) :=
  ⟨rfl, rfl⟩

/-! ## C7: a source that is no object, into a record -/

/-- A record destination is left as it was by every source whose host type is not
`object`: null, undefined, booleans, numbers, strings, symbols and functions. -/
theorem struct_mismatch_noop (h : Host) (jsVal : JSValue) (fields : List (StructField × GoType))
    (cur : GoValue) (ht : Value_Type jsVal ≠ .TypeObject) :
    ToGo h jsVal (.ptr (.struct fields) cur) = .ok (.ptr (.struct fields) cur) := by
  simp [ToGo, ToGoPtr, ToGo_switch, ToGo_default, ht, Outcome.bind]

/-- C7, failing input: the array `[1, 2]` decoded into a zero
`struct { Length int "json:\"length\"" }` sets `Length` to 2: an array has host type
`object`, passes the guard, and its `length` property is read as the field. -/
theorem array_into_struct_fails :
    ToGo exampleHost (.array [.number (.ofInt 1), .number (.ofInt 2)])
        (.ptr LengthStruct (zero LengthStruct))
      = .ok (.ptr LengthStruct
          (.struct [(⟨lit "Length", lit "length", true⟩, .integer .int, .integer .int 2)])) := by
  rfl

/-! ## C8: excluded record fields -/

theorem jsonKeyToJS_excluded (f : StructField) (hf : f.Tag = lit "-") : jsonKeyToJS f = none := by
  have hne : ¬ (lit "-" = ([] : GoString)) := by decide
  simp [jsonKeyToJS, hf, hne]

theorem jsonKeyToGo_excluded (f : StructField) (hf : f.Tag = lit "-") : jsonKeyToGo f = none := by
  have hne : ¬ (lit "-" = ([] : GoString)) := by decide
  simp [jsonKeyToGo, hf, hne]

theorem ToJS_fields_skip (render : GoValue → GoString) (f : StructField) (hf : f.Tag = lit "-")
    (t : GoType) (v : GoValue) (pre post : List (StructField × GoType × GoValue))
    (obj : List (JSString × JSValue)) :
    ToJS_fields render (pre ++ (f, t, v) :: post) obj = ToJS_fields render (pre ++ post) obj := by
  induction pre generalizing obj with
  | nil => simp [ToJS_fields, jsonKeyToJS_excluded f hf]
  | cons e rest ih =>
    obtain ⟨g, gt, gv⟩ := e
    simp only [List.cons_append, ToJS_fields, List.append_eq, ih]

theorem ToGo_fields_cons_ok (h : Host) (g : StructField × GoType) (rest : List (StructField × GoType))
    (jsVal : JSValue) (e : StructField × GoType × GoValue)
    (vals vals' : List (StructField × GoType × GoValue))
    (hok : ToGo_fields h (g :: rest) jsVal (e :: vals) = .ok vals') :
    ∃ x vs, vals' = x :: vs ∧ ToGo_fields h rest jsVal vals = .ok vs ∧
      (jsonKeyToGo g.1 = none → x = e) := by
  obtain ⟨g, gt⟩ := g
  obtain ⟨f, t, fv⟩ := e
  simp only [ToGo_fields] at hok
  cases hr : ToGo_fields h rest jsVal vals with
  | ok vs =>
    rw [hr] at hok
    cases hkey : jsonKeyToGo g with
    | none =>
      simp only [hkey, Outcome.bind, Outcome.ok.injEq] at hok
      exact ⟨_, vs, hok.symm, rfl, fun _ => rfl⟩
    | some jsonTag =>
      simp only [hkey] at hok
      cases hget : Value_Get jsVal jsonTag with
      | ok jsField =>
        simp only [hget, Outcome.bind] at hok
        split at hok
        · split at hok
          · split at hok
            · exact absurd hok (by simp)
            · simp only [Outcome.ok.injEq] at hok
              exact ⟨_, vs, hok.symm, rfl, fun hc => by simp at hc⟩
            · simp only [Outcome.ok.injEq] at hok
              exact ⟨_, vs, hok.symm, rfl, fun hc => by simp at hc⟩
          · exact absurd hok (by simp)
        · simp only [Outcome.ok.injEq] at hok
          exact ⟨_, vs, hok.symm, rfl, fun hc => by simp at hc⟩
      | error msg => simp [hget, Outcome.bind] at hok
      | panic => simp [hget, Outcome.bind] at hok
  | error msg =>
    rw [hr] at hok
    exfalso
    revert hok
    cases jsonKeyToGo g with
    | none => simp [Outcome.bind]
    | some jsonTag =>
      simp only
      cases Value_Get jsVal jsonTag with
      | ok jsField =>
        simp only [Outcome.bind]
        intro hok
        split at hok
        · split at hok
          · split at hok <;> simp at hok
          · simp at hok
        · simp at hok
      | error msg => simp [Outcome.bind]
      | panic => simp [Outcome.bind]
  | panic =>
    rw [hr] at hok
    exfalso
    revert hok
    cases jsonKeyToGo g with
    | none => simp [Outcome.bind]
    | some jsonTag =>
      simp only
      cases Value_Get jsVal jsonTag with
      | ok jsField =>
        simp only [Outcome.bind]
        intro hok
        split at hok
        · split at hok
          · split at hok <;> simp at hok
          · simp at hok
        · simp at hok
      | error msg => simp [Outcome.bind]
      | panic => simp [Outcome.bind]

theorem ToGo_fields_excluded (h : Host) (jsVal : JSValue) (f : StructField)
    (hf : f.Tag = lit "-") (ft : GoType) (e : StructField × GoType × GoValue) :
    ∀ (fields : List (StructField × GoType)) (vals vals' : List (StructField × GoType × GoValue))
      (i : Nat), fields[i]? = some (f, ft) → vals[i]? = some e →
      ToGo_fields h fields jsVal vals = .ok vals' → vals'[i]? = some e := by
  intro fields
  induction fields with
  | nil => intro vals vals' i hfi; simp at hfi
  | cons g rest ih =>
    intro vals vals' i hfi hvi hok
    cases vals with
    | nil => simp at hvi
    | cons e0 vrest =>
      obtain ⟨x, vs, rfl, hrest, hx⟩ := ToGo_fields_cons_ok h g rest jsVal e0 vrest vals' hok
      cases i with
      | zero =>
        simp only [List.getElem?_cons_zero, Option.some.injEq] at hfi hvi ⊢
        subst hfi hvi
        exact hx (jsonKeyToGo_excluded f hf)
      | succ j =>
        simp only [List.getElem?_cons_succ] at hfi hvi ⊢
        exact ih vrest vs j hfi hvi hrest

/-- C8: a record field annotated exactly `-` contributes no key to the object `ToJS`
makes (the result is that of the record without the field), and whenever `ToGo` into
the record returns, from any source, the field holds the value it held before. -/
theorem excluded_field (render : GoValue → GoString) (h : Host) (f : StructField)
    (hf : f.Tag = lit "-") (t : GoType) (v : GoValue)
    (pre post : List (StructField × GoType × GoValue)) (jsVal : JSValue)
    (fields : List (StructField × GoType)) (vals : List (StructField × GoType × GoValue))
    (i : Nat) (e : StructField × GoType × GoValue) (res : GoValue)
    (hfi : fields[i]? = some (f, t)) (hvi : vals[i]? = some e)
    (hres : ToGo h jsVal (.ptr (.struct fields) (.struct vals)) = .ok res) :
    ToJS render (.struct (pre ++ (f, t, v) :: post)) = ToJS render (.struct (pre ++ post)) ∧
    ∃ vals', res = .ptr (.struct fields) (.struct vals') ∧ vals'[i]? = some e := by
  constructor
  · simp only [ToJS, ToJS_fields_skip render f hf]
  · simp only [ToGo, ToGoPtr, ToGo_switch, ToGo_default, structFields] at hres
    by_cases ht : Value_Type jsVal = .TypeObject
    · simp only [ht, ne_eq, not_true_eq_false, if_false] at hres
      cases hr : ToGo_fields h fields jsVal vals with
      | ok vals' =>
        simp only [hr, Outcome.bind, Option.getD_some, Outcome.ok.injEq] at hres
        exact ⟨vals', hres.symm, ToGo_fields_excluded h jsVal f hf t e fields vals vals' i hfi hvi hr⟩
      | error msg => simp [hr, Outcome.bind] at hres
      | panic => simp [hr, Outcome.bind] at hres
    · simp only [ne_eq, ht, not_false_eq_true, if_true, Outcome.bind, Option.getD_some,
        Outcome.ok.injEq] at hres
      exact ⟨vals, hres.symm, hvi⟩

/-- `ToJS` of the `TagStruct` of the tests: no key for `Ignored`. -/
theorem tagStruct_ToJS :
    ToJS exampleRender (.struct (tagStruct (lit "secret") (lit "visible") (lit "value")))
      = .ok (.object [(loadString (lit "Default"), .string (loadString (lit "visible"))),
          (loadString (lit "opt"), .string (loadString (lit "value")))]) := by
  rfl

/-- `ToGo` into a `TagStruct` from an object that has the keys `Ignored` and `-`: the
field `Ignored` keeps its value. -/
theorem tagStruct_ToGo :
    ToGo exampleHost tagStructSource
        (.ptr (.struct TagStructFields) (.struct (tagStruct (lit "secret") [] [])))
      = .ok (.ptr (.struct TagStructFields)
          (.struct (tagStruct (lit "secret") (lit "visible") (lit "value")))) := by
  rfl

/-- C8, witness: the field `Ignored` of `TagStruct`, decoded from an object that has the
keys `Ignored` and `-`. -/
theorem excluded_field_witness :
    (⟨lit "Ignored", lit "-", true⟩ : StructField).Tag = lit "-" ∧
    (ToJS exampleRender (.struct ([] ++ (⟨lit "Ignored", lit "-", true⟩, .string,
          .string (lit "secret")) :: (tagStruct [] (lit "visible") (lit "value")).tail))
        = ToJS exampleRender (.struct ([] ++ (tagStruct [] (lit "visible") (lit "value")).tail)) ∧
      ∃ vals', GoValue.ptr (.struct TagStructFields)
            (.struct (tagStruct (lit "secret") (lit "visible") (lit "value")))
          = .ptr (.struct TagStructFields) (.struct vals') ∧
        vals'[0]? = some (⟨lit "Ignored", lit "-", true⟩, .string, .string (lit "secret"))) :=
  ⟨rfl, excluded_field exampleRender exampleHost ⟨lit "Ignored", lit "-", true⟩ rfl .string
    (.string (lit "secret")) [] (tagStruct [] (lit "visible") (lit "value")).tail tagStructSource
    TagStructFields (tagStruct (lit "secret") [] []) 0
    (⟨lit "Ignored", lit "-", true⟩, .string, .string (lit "secret")) _ rfl rfl tagStruct_ToGo⟩

/-! ## The field loops of ToJS and ToGo -/

theorem getElem?_append_length {α : Type} (xs ys : List α) (y : α) :
    (xs ++ y :: ys)[xs.length]? = some y := by
  induction xs with
  | nil => simp
  | cons x rest ih => simpa using ih

theorem fieldTypes_getElem? (pre post : List (StructField × GoType × GoValue))
    (f : StructField) (t : GoType) (v : GoValue) :
    (fieldTypes (pre ++ (f, t, v) :: post))[pre.length]? = some (f, t) := by
  have hx := getElem?_append_length (fieldTypes pre) (fieldTypes post) (f, t)
  have hl : (fieldTypes pre).length = pre.length := by simp [fieldTypes]
  have he : fieldTypes (pre ++ (f, t, v) :: post)
      = fieldTypes pre ++ (f, t) :: fieldTypes post := by simp [fieldTypes]
  rw [hl] at hx
  rw [he]
  exact hx

theorem lookupProp_setAll_last (pre post acc : List (JSString × JSValue)) (k : JSString)
    (x : JSValue) (hk : k ∉ post.map Prod.fst) :
    lookupProp k (setAll (pre ++ (k, x) :: post) acc) = some x := by
  rw [setAll_append]
  have hs : setAll ((k, x) :: post) (setAll pre acc)
      = setAll post (setProp k x (setAll pre acc)) := rfl
  rw [hs, lookupProp_setAll_not_mem _ _ _ hk, lookupProp_setProp]

theorem encProps_append (render : GoValue → GoString)
    (xs ys : List (StructField × GoType × GoValue)) :
    encProps render (xs ++ ys) = encProps render xs ++ encProps render ys := by
  induction xs with
  | nil => rfl
  | cons e rest ih =>
    obtain ⟨f, t, v⟩ := e
    cases hj : jsonKeyToJS f with
    | none =>
      simp only [List.cons_append, encProps, hj]
      exact ih
    | some key =>
      by_cases hp : loadString key = protoKey
      · simp only [List.cons_append, encProps, hj, hp, if_true]
        exact ih
      · simp only [List.cons_append, encProps, hj, hp, if_false]
        exact congrArg _ ih

theorem mem_encProps_keys (render : GoValue → GoString)
    (vals : List (StructField × GoType × GoValue)) (k : JSString)
    (hk : k ∈ (encProps render vals).map Prod.fst) : k ∈ fieldKeys vals := by
  induction vals with
  | nil => simp [encProps] at hk
  | cons e rest ih =>
    obtain ⟨f, t, v⟩ := e
    cases hj : jsonKeyToJS f with
    | none =>
      simp only [encProps, fieldKeys, hj] at hk ⊢
      exact ih hk
    | some key =>
      by_cases hp : loadString key = protoKey
      · simp only [encProps, fieldKeys, hj, hp, if_true] at hk ⊢
        exact List.mem_cons_of_mem _ (ih hk)
      · simp only [encProps, fieldKeys, hj, hp, if_false, List.map_cons, List.mem_cons] at hk ⊢
        exact hk.imp id ih

theorem encProps_keys (render : GoValue → GoString)
    (vals : List (StructField × GoType × GoValue)) (hp : protoKey ∉ fieldKeys vals) :
    (encProps render vals).map Prod.fst = fieldKeys vals := by
  induction vals with
  | nil => rfl
  | cons e rest ih =>
    obtain ⟨f, t, v⟩ := e
    cases hj : jsonKeyToJS f with
    | none =>
      simp only [encProps, fieldKeys, hj] at hp ⊢
      exact ih hp
    | some key =>
      simp only [fieldKeys, hj, List.mem_cons, not_or] at hp
      have hk : ¬ loadString key = protoKey := fun hc => hp.1 hc.symm
      simp only [encProps, fieldKeys, hj, hk, if_false, List.map_cons, ih hp.2]

theorem encProps_mem (render : GoValue → GoString)
    (vals : List (StructField × GoType × GoValue)) (e : StructField × GoType × GoValue)
    (he : e ∈ vals) (key : GoString) (hk : jsonKeyToJS e.1 = some key)
    (hp : loadString key ≠ protoKey) :
    (loadString key, jsOf render e.2.2) ∈ encProps render vals := by
  induction vals with
  | nil => simp at he
  | cons x rest ih =>
    obtain ⟨f, t, v⟩ := x
    rcases List.mem_cons.mp he with rfl | hr
    · simp only at hk
      simp [encProps, hk, hp]
    · simp only [encProps]
      split
      · exact ih hr
      · split
        · exact ih hr
        · exact List.mem_cons_of_mem _ (ih hr)

/-- The field loop of `ToJS` makes one assignment per field that is not excluded, in the
order of the fields; the assignment to `__proto__` stores nothing. -/
theorem ToJS_fields_eq (render : GoValue → GoString)
    (vals : List (StructField × GoType × GoValue)) (acc : List (JSString × JSValue))
    (henc : ∀ e ∈ vals, jsonKeyToJS e.1 = none ∨
      (e.1.Exported = true ∧ ToJS render e.2.2 = .ok (jsOf render e.2.2))) :
    ToJS_fields render vals acc = .ok (setAll (encProps render vals) acc) := by
  induction vals generalizing acc with
  | nil => rfl
  | cons x rest ih =>
    obtain ⟨f, t, v⟩ := x
    have hx := henc (f, t, v) (by simp)
    have hrest : ∀ e ∈ rest, jsonKeyToJS e.1 = none ∨
        (e.1.Exported = true ∧ ToJS render e.2.2 = .ok (jsOf render e.2.2)) :=
      fun e he => henc e (by simp [he])
    cases hk : jsonKeyToJS f with
    | none =>
      simp only [ToJS_fields, encProps, hk]
      exact ih acc hrest
    | some key =>
      rcases hx with hx | ⟨hex, hjs⟩
      · rw [hk] at hx
        cases hx
      · simp only at hex hjs
        by_cases hp : loadString key = protoKey
        · simp only [ToJS_fields, encProps, hk, hex, if_true, hjs, ok_bind,
            Value_Set_proto _ _ _ hp, hp]
          exact ih acc hrest
        · simp only [ToJS_fields, encProps, hk, hex, if_true, hjs, ok_bind,
            Value_Set_eq _ _ _ hp, hp, if_false]
          rw [ih _ hrest]
          rfl

theorem jsonKeyToGo_eq (f : StructField) : jsonKeyToGo f = jsonKeyToJS f := rfl

/-- For a field with a key, what the record claim says of the field is what decoding the
property that `Get` reports under the key leaves of it. -/
theorem fieldOverlay_object (h : Host) (props : List (JSString × JSValue)) (f : StructField)
    (t : GoType) (cur : StructField × GoType × GoValue) (key : GoString)
    (hk : jsonKeyToGo f = some key) :
    fieldOverlay h (.object props) (f, t) cur
      = decodedField h t (getProp props (loadString key)) cur := by
  simp only [fieldOverlay, hk, Value_Get, decodedField]

/-- One round of the field loop of `ToGo`, with the recursive call written as `ToGoPtr`. -/
theorem ToGo_fields_cons (h : Host) (field : StructField) (ft : GoType)
    (rest : List (StructField × GoType)) (jsVal : JSValue) (f : StructField) (t : GoType)
    (fv : GoValue) (vals : List (StructField × GoType × GoValue)) :
    ToGo_fields h ((field, ft) :: rest) jsVal ((f, t, fv) :: vals)
      = match jsonKeyToGo field with
        | none => (ToGo_fields h rest jsVal vals).bind fun vs => .ok ((f, t, fv) :: vs)
        | some jsonTag =>
          (Value_Get jsVal jsonTag).bind fun jsField =>
            if !Value_IsUndefined jsField && !Value_IsNull jsField then
              if field.Exported then
                match ToGoPtr h ft jsField (some fv) with
                | .panic => .panic
                | .ok (some x) =>
                  (ToGo_fields h rest jsVal vals).bind fun vs => .ok ((f, t, x) :: vs)
                | _ => (ToGo_fields h rest jsVal vals).bind fun vs => .ok ((f, t, fv) :: vs)
              else .panic
            else (ToGo_fields h rest jsVal vals).bind fun vs => .ok ((f, t, fv) :: vs) := by
  rw [ToGo_fields]
  rfl

theorem ToGo_fields_overlay (h : Host) (props : List (JSString × JSValue)) :
    ∀ (fields : List (StructField × GoType)) (vals : List (StructField × GoType × GoValue)),
      fields.length = vals.length →
      ToGo_fields h fields (.object props) vals ≠ .panic →
      ToGo_fields h fields (.object props) vals
        = .ok (List.zipWith (fieldOverlay h (.object props)) fields vals) := by
  intro fields
  induction fields with
  | nil =>
    intro vals hlen _
    cases vals with
    | nil => rfl
    | cons _ _ => simp at hlen
  | cons g rest ih =>
    intro vals hlen hnp
    cases vals with
    | nil => simp at hlen
    | cons e vrest =>
      obtain ⟨g, gt⟩ := g
      obtain ⟨f, t, fv⟩ := e
      simp only [List.length_cons, add_left_inj] at hlen
      rw [ToGo_fields_cons] at hnp ⊢
      simp only [ne_eq] at hnp
      simp only [List.zipWith_cons_cons, fieldOverlay]
      cases hkey : jsonKeyToGo g with
      | none =>
        simp only [hkey] at hnp ⊢
        have hr : ToGo_fields h rest (.object props) vrest ≠ .panic := by
          intro hp
          simp [hp, Outcome.bind] at hnp
        simp only [ih vrest hlen hr, Outcome.bind]
      | some key =>
        simp only [hkey, Value_Get, Outcome.bind] at hnp ⊢
        by_cases hpres : (!Value_IsUndefined (getProp props (loadString key))
            && !Value_IsNull (getProp props (loadString key))) = true
        · have hpres' : (Value_IsUndefined (getProp props (loadString key))
              || Value_IsNull (getProp props (loadString key))) = false := by
            revert hpres
            cases Value_IsUndefined (getProp props (loadString key)) <;>
              cases Value_IsNull (getProp props (loadString key)) <;> simp
          simp only [hpres, hpres', if_true, Bool.false_eq_true, if_false] at hnp ⊢
          by_cases hex : g.Exported = true
          · simp only [hex, if_true] at hnp ⊢
            generalize ToGoPtr h gt (getProp props (loadString key)) (some fv) = out at hnp ⊢
            have hr : ToGo_fields h rest (.object props) vrest ≠ .panic := by
              intro hp
              rw [hp] at hnp
              cases out with
              | ok o => cases o <;> simp at hnp
              | error _ => simp at hnp
              | panic => simp at hnp
            rw [ih vrest hlen hr] at hnp ⊢
            cases out with
            | ok o => cases o <;> rfl
            | error _ => rfl
            | panic => simp at hnp
          · simp [hex] at hnp
        · have hpres' : (Value_IsUndefined (getProp props (loadString key))
              || Value_IsNull (getProp props (loadString key))) = true := by
            revert hpres
            cases Value_IsUndefined (getProp props (loadString key)) <;>
              cases Value_IsNull (getProp props (loadString key)) <;> simp
          simp only [hpres, hpres', if_true, Bool.false_eq_true, if_false] at hnp ⊢
          have hr : ToGo_fields h rest (.object props) vrest ≠ .panic := by
            intro hp
            simp [hp] at hnp
          simp only [ih vrest hlen hr]


theorem ToGo_fields_safe (h : Host) (props : List (JSString × JSValue)) :
    ∀ (fields : List (StructField × GoType)) (vals : List (StructField × GoType × GoValue)),
      (∀ p ∈ List.zip fields vals, fieldPanics h (.object props) p.1 p.2 = false) →
      ToGo_fields h fields (.object props) vals ≠ .panic := by
  intro fields
  induction fields with
  | nil => intro vals _; simp [ToGo_fields]
  | cons g rest ih =>
    intro vals hsafe
    cases vals with
    | nil => simp [ToGo_fields]
    | cons e vrest =>
      obtain ⟨g, gt⟩ := g
      obtain ⟨f, t, fv⟩ := e
      have h1 := hsafe ((g, gt), (f, t, fv)) (by simp)
      have hr := ih vrest (fun p hp => hsafe p (by simp [hp]))
      simp only [fieldPanics, Value_Get] at h1
      rw [ToGo_fields_cons]
      simp only [Value_Get, Outcome.bind, ne_eq]
      cases hkey : jsonKeyToGo g with
      | none =>
        simp only
        cases hrest : ToGo_fields h rest (.object props) vrest with
        | ok vs => simp
        | error msg => simp
        | panic => exact absurd hrest hr
      | some key =>
        simp only [hkey] at h1 ⊢
        cases hu : Value_IsUndefined (getProp props (loadString key)) <;>
          cases hnl : Value_IsNull (getProp props (loadString key)) <;>
          simp only [hu, hnl, Bool.or_self, Bool.or_true, Bool.or_false, Bool.true_or,
            Bool.false_eq_true, if_false, if_true, Bool.not_false, Bool.not_true, Bool.and_self,
            Bool.and_false, Bool.false_and] at h1 ⊢
        · cases hex : g.Exported with
          | false => simp [hex] at h1
          | true =>
            simp only [hex, if_true] at h1 ⊢
            generalize ToGoPtr h gt (getProp props (loadString key)) (some fv) = out at h1 ⊢
            cases hrest : ToGo_fields h rest (.object props) vrest with
            | panic => exact absurd hrest hr
            | ok vs =>
              cases out with
              | ok o => cases o <;> simp
              | error _ => simp
              | panic => simp [Outcome.isPanic] at h1
            | error msg =>
              cases out with
              | ok o => cases o <;> simp
              | error _ => simp
              | panic => simp [Outcome.isPanic] at h1
        all_goals
          cases hrest : ToGo_fields h rest (.object props) vrest with
          | ok vs => simp
          | error msg => simp
          | panic => exact absurd hrest hr

/-! ## C9: renamed record fields -/

theorem lit_comma : lit "," = [(0x2C : Byte)] := by decide

theorem lit_dash : lit "-" = [(0x2D : Byte)] := by decide

theorem indexFrom_found (name mods : GoString) (pos : Nat) (hn : (0x2C : Byte) ∉ name) :
    indexFrom [0x2C] (name ++ 0x2C :: mods) pos = ((pos + name.length : Nat) : Int) := by
  induction name generalizing pos with
  | nil => simp [indexFrom, List.isPrefixOf]
  | cons b rest ih =>
    have hb : ¬ ((0x2C : Byte) = b) := fun hb => hn (by simp [hb])
    have hr : (0x2C : Byte) ∉ rest := fun hr => hn (by simp [hr])
    simp only [List.cons_append, indexFrom, List.isPrefixOf, beq_iff_eq, hb, Bool.and_true,
      Bool.false_eq_true, if_false, decide_False, List.append_eq, ih (pos + 1) hr,
      List.length_cons]
    congr 1
    omega

theorem indexFrom_absent (name : GoString) (pos : Nat) (hn : (0x2C : Byte) ∉ name) :
    indexFrom [0x2C] name pos = -1 := by
  induction name generalizing pos with
  | nil => simp [indexFrom]
  | cons b rest ih =>
    have hb : ¬ ((0x2C : Byte) = b) := fun hb => hn (by simp [hb])
    have hr : (0x2C : Byte) ∉ rest := fun hr => hn (by simp [hr])
    simp only [indexFrom, List.isPrefixOf, beq_iff_eq, hb, Bool.and_true, Bool.false_eq_true,
      if_false, decide_False, ih (pos + 1) hr]

theorem jsonKey_renamed (f : StructField) (name mods : GoString)
    (hf : f.Tag = name ++ 0x2C :: mods) (hn : (0x2C : Byte) ∉ name) :
    jsonKeyToJS f = some name ∧ jsonKeyToGo f = some name := by
  have h1 : ¬ (name ++ (0x2C : Byte) :: mods = []) := by simp
  have h2 : ¬ (name ++ (0x2C : Byte) :: mods = [0x2D]) := by
    intro heq
    have hm : (0x2C : Byte) ∈ name ++ 0x2C :: mods := by simp
    rw [heq] at hm
    revert hm
    decide
  have h3 : ¬ (((0 + name.length : Nat) : Int) = -1) := by omega
  simp [jsonKeyToJS, jsonKeyToGo, hf, h1, h2, lit_comma, lit_dash, Index, indexFrom_found _ _ _ hn,
    h3]

theorem jsonKey_plain (g : StructField) (hg : g.Tag = []) (hn : (0x2C : Byte) ∉ g.Name)
    (hd : g.Name ≠ lit "-") : jsonKeyToJS g = some g.Name ∧ jsonKeyToGo g = some g.Name := by
  simp [jsonKeyToJS, jsonKeyToGo, hg, hd, lit_comma, Index, indexFrom_absent _ _ hn]

/-- The record with the single field `P`, annotated `__proto__,omitempty` and holding `"x"`,
is encoded as the empty object: the assignment to `__proto__` stores no property. -/
theorem protoRecord_encoding : ToJS exampleRender (.struct protoRecord) = .ok (.object []) := by
  rfl

/-- The record with the fields `A`, annotated `k,omitempty`, and `B`, annotated `k`, is
encoded as an object with the one key `k`, which holds the value of `B`. -/
theorem sharedKeyRecord_encoding :
    ToJS exampleRender (.struct sharedKeyRecord)
      = .ok (.object [(loadString (lit "k"), .string (loadString (lit "b")))]) := by
  rfl

/-- C9, counterexample: for the field annotated `__proto__,omitempty` that holds `"x"` the
object `ToJS` returns has no property `__proto__` at all, and of two fields that resolve to
the key `k` the object holds the value of the later one, not that of the field annotated
`k,omitempty`. -/
theorem renamed_field_not_stored :
    ¬ FieldStored exampleRender protoRecord (lit "__proto__") (.string (lit "x")) ∧
      ¬ FieldStored exampleRender sharedKeyRecord (lit "k") (.string (lit "a")) := by
  constructor
  · rintro ⟨props, js, h1, -, h3⟩
    rw [protoRecord_encoding] at h1
    cases h1
    simp [lookupProp] at h3
  · rintro ⟨props, js, h1, h2, h3⟩
    rw [sharedKeyRecord_encoding] at h1
    cases h1
    have e2 : ToJS exampleRender (.string (lit "a")) = .ok (.string (loadString (lit "a"))) := rfl
    rw [e2] at h2
    cases h2
    simp only [lookupProp, if_true, Option.some.injEq, JSValue.string.injEq] at h3
    revert h3
    decide

/-- C9, amended: for a record field annotated with a name, a comma and modifiers, whatever
the modifiers, and for a field without annotation under its declared name, the key computed
by `ToJS` and by `ToGo` is that name and the field is included. When every field of the
record can be encoded, the key is not `__proto__` and no later field resolves to the same
key, the object `ToJS` returns holds the encoded value of the field as its own property
under the key. When the decoding of no field panics, `ToGo` returns without error and leaves
in the field what decoding the property that the source has under the key, own or inherited,
leaves there (the field as it was for `undefined` and `null`). -/
theorem renamed_field (render : GoValue → GoString) (h : Host) (f : StructField)
    (name mods : GoString) (t : GoType) (v : GoValue)
    (pre post : List (StructField × GoType × GoValue))
    (hkey : f.Tag = name ++ 0x2C :: mods ∨ (f.Tag = [] ∧ f.Name = name ∧ name ≠ lit "-"))
    (hn : (0x2C : Byte) ∉ name) :
    (jsonKeyToJS f = some name ∧ jsonKeyToGo f = some name) ∧
    (FieldsEncode render (pre ++ (f, t, v) :: post) → loadString name ≠ protoKey →
      loadString name ∉ fieldKeys post →
      FieldStored render (pre ++ (f, t, v) :: post) name v) ∧
    (∀ props : List (JSString × JSValue),
      (∀ p ∈ List.zip (fieldTypes (pre ++ (f, t, v) :: post)) (pre ++ (f, t, v) :: post),
        fieldPanics h (.object props) p.1 p.2 = false) →
      FieldRead h props (pre ++ (f, t, v) :: post) pre.length name) := by
  have hk : jsonKeyToJS f = some name ∧ jsonKeyToGo f = some name := by
    rcases hkey with hf | ⟨hg, hname, hd⟩
    · exact jsonKey_renamed f name mods hf hn
    · subst hname
      exact jsonKey_plain f hg hn hd
  refine ⟨hk, ?_, ?_⟩
  · intro henc hp hlast
    rcases henc (f, t, v) (by simp) with hx | ⟨-, y, hy⟩
    · rw [hk.1] at hx
      cases hx
    · have henc2 : ∀ e ∈ pre ++ (f, t, v) :: post, jsonKeyToJS e.1 = none ∨
          (e.1.Exported = true ∧ ToJS render e.2.2 = .ok (jsOf render e.2.2)) := by
        intro e he
        rcases henc e he with hx | ⟨hex, z, hz⟩
        · exact Or.inl hx
        · exact Or.inr ⟨hex, by simp only [jsOf, hz]⟩
      have hjs := ToJS_fields_eq render _ [] henc2
      simp only at hy
      refine ⟨setAll (encProps render (pre ++ (f, t, v) :: post)) [], y,
        by simp only [ToJS, hjs, ok_bind], hy, ?_⟩
      have hc : encProps render ((f, t, v) :: post)
          = (loadString name, y) :: encProps render post := by
        simp only [encProps, hk.1, hp, if_false, jsOf, hy]
      rw [encProps_append, hc]
      exact lookupProp_setAll_last _ _ _ _ _ (fun hm => hlast (mem_encProps_keys _ _ _ hm))
  · intro props hsafe
    have hlen : (fieldTypes (pre ++ (f, t, v) :: post)).length
        = (pre ++ (f, t, v) :: post).length := by simp [fieldTypes]
    have ho := ToGo_fields_overlay h props _ _ hlen (ToGo_fields_safe h props _ _ hsafe)
    refine ⟨List.zipWith (fieldOverlay h (.object props))
      (fieldTypes (pre ++ (f, t, v) :: post)) (pre ++ (f, t, v) :: post), ?_, (f, t, v), ?_, ?_⟩
    · simp only [ToGo, ToGoPtr, ToGo_switch, ToGo_default, Value_Type, structFields, ho,
        ok_bind, ne_eq, not_true_eq_false, if_false, Option.getD_some]
    · exact getElem?_append_length pre post (f, t, v)
    · have h1 := fieldTypes_getElem? pre post f t v
      have h2 := getElem?_append_length pre post (f, t, v)
      rw [List.getElem?_zipWith, h1, h2]
      simp only [fieldOverlay_object h props f t _ name hk.2]

/-- C9, witness: the field `Option` of `TagStruct`, annotated `opt,omitempty`: the object
made of `{Ignored: "x", Default: "visible", Option: "value"}` holds `"value"` under `opt`,
and decoding `{"opt": "new"}` into that record leaves in `Option` what decoding `"new"`
leaves. -/
theorem renamed_field_witness :
    ((⟨lit "Option", lit "opt,omitempty", true⟩ : StructField).Tag
        = lit "opt" ++ 0x2C :: lit "omitempty") ∧ (0x2C : Byte) ∉ lit "opt" ∧
      FieldStored exampleRender (tagStruct (lit "x") (lit "visible") (lit "value")) (lit "opt")
        (.string (lit "value")) ∧
      FieldRead exampleHost [(loadString (lit "opt"), .string (loadString (lit "new")))]
        (tagStruct (lit "x") (lit "visible") (lit "value")) 2 (lit "opt") :=
  have hw := renamed_field exampleRender exampleHost ⟨lit "Option", lit "opt,omitempty", true⟩
    (lit "opt") (lit "omitempty") .string (.string (lit "value"))
    [(⟨lit "Ignored", lit "-", true⟩, .string, .string (lit "x")),
      (⟨lit "Default", [], true⟩, .string, .string (lit "visible"))] []
    (Or.inl (by decide)) (by decide)
  ⟨by decide, by decide,
    hw.2.1
      (fun e he => by
        simp only [List.cons_append, List.nil_append, List.mem_cons, List.mem_singleton,
          List.not_mem_nil, or_false] at he
        rcases he with rfl | rfl | rfl
        · exact Or.inl rfl
        · exact Or.inr ⟨rfl, _, rfl⟩
        · exact Or.inr ⟨rfl, _, rfl⟩)
      (by decide) (by simp [fieldKeys]),
    hw.2.2 _
      (fun p hp => by
        simp only [fieldTypes, List.cons_append, List.nil_append, List.map_cons, List.map_nil,
          List.zip_cons_cons, List.zip_nil_right, List.mem_cons, List.mem_singleton,
          List.not_mem_nil, or_false] at hp
        rcases hp with rfl | rfl | rfl <;> rfl)⟩

/-! ## C10: absent and null keys of a record -/

/-- Decoding the empty object into a `struct { Maker string "json:\"constructor\"" }` that
holds `"keep"` overwrites the field: `Get` finds the method `constructor` that every object
inherits, and the `*string` case stores its description. -/
theorem record_overlay_inherited_example :
    ToGo exampleHost (.object [])
        (.ptr (.struct MakerStructFields)
          (.struct [(⟨lit "Maker", lit "constructor", true⟩, .string, .string (lit "keep"))]))
      = .ok (.ptr (.struct MakerStructFields)
          (.struct [(⟨lit "Maker", lit "constructor", true⟩, .string,
            .string (lit "<function>"))])) := by
  rfl

/-- C10, counterexample: decoding `{"age": "x"}` into a zero
`struct { Age int "json:\"age\"" }` does not return: the `*int` case calls `jsVal.Int()` on
a string, which panics. And decoding the empty object into a field keyed `constructor` does
not keep the field, although the key is no property of the source's own. -/
theorem record_overlay_fails :
    ¬ RecordOverlayOwn exampleHost [(loadString (lit "age"), .string (loadString (lit "x")))]
        AgeStructFields (zero_fields AgeStructFields) ∧
      ¬ RecordOverlay exampleHost [(loadString (lit "age"), .string (loadString (lit "x")))]
        AgeStructFields (zero_fields AgeStructFields) ∧
      ¬ RecordOverlayOwn exampleHost [] MakerStructFields
        [(⟨lit "Maker", lit "constructor", true⟩, .string, .string (lit "keep"))] := by
  have hp : ToGo exampleHost
      (.object [(loadString (lit "age"), .string (loadString (lit "x")))])
      (.ptr (.struct AgeStructFields) (.struct (zero_fields AgeStructFields))) = .panic := rfl
  refine ⟨?_, ?_, ?_⟩
  · intro hc
    rw [RecordOverlayOwn, hp] at hc
    cases hc
  · intro hc
    rw [RecordOverlay, hp] at hc
    cases hc
  · intro hc
    have hz : List.zipWith (fieldOverlayOwn exampleHost []) MakerStructFields
        [(⟨lit "Maker", lit "constructor", true⟩, .string, .string (lit "keep"))]
        = [(⟨lit "Maker", lit "constructor", true⟩, .string, .string (lit "keep"))] := rfl
    rw [RecordOverlayOwn, record_overlay_inherited_example, hz] at hc
    simp only [Outcome.ok.injEq, GoValue.ptr.injEq, GoValue.struct.injEq, List.cons.injEq,
      Prod.mk.injEq, GoValue.string.injEq, true_and, and_true] at hc
    revert hc
    decide

/-- C10, amended: for every object source and every record destination in which no field
that is to be decoded is unexported or makes its recursive `ToGo` panic, `ToGo` returns
without error; each field that is excluded, or under whose key `Get` finds no property of
the source, neither its own nor an inherited one such as `constructor` or `__proto__`, or
finds null, keeps the value it had; and every other field holds what the recursive `ToGo`
of the property under its own key leaves in it. -/
theorem record_overlay (h : Host) (props : List (JSString × JSValue))
    (fields : List (StructField × GoType)) (vals : List (StructField × GoType × GoValue))
    (hlen : fields.length = vals.length)
    (hsafe : ∀ p ∈ List.zip fields vals, fieldPanics h (.object props) p.1 p.2 = false) :
    RecordOverlay h props fields vals := by
  have hf : ToGo_fields h fields (.object props) vals ≠ .panic :=
    ToGo_fields_safe h props fields vals hsafe
  simp [RecordOverlay, ToGo, ToGoPtr, ToGo_switch, ToGo_default, Value_Type, structFields,
    ToGo_fields_overlay h props fields vals hlen hf, Outcome.bind]

/-- Decoding `{"name": "Alice", "age": null}` into the `TestStruct`
`{Name: "", Age: 7, Ignored: "keep", Default: "d"}` sets `Name` and leaves the rest. -/
theorem record_overlay_example :
    ToGo exampleHost (.object aliceProps)
        (.ptr (.struct TestStructFields) (.struct (testStruct [] 7 (lit "keep") (lit "d"))))
      = .ok (.ptr (.struct TestStructFields)
          (.struct (testStruct (lit "Alice") 7 (lit "keep") (lit "d")))) := by
  rfl

/-- C10, witness: the object `{"name": "Alice", "age": null}` decoded into a
`TestStruct`. -/
theorem record_overlay_witness :
    TestStructFields.length = (testStruct [] 7 (lit "keep") (lit "d")).length ∧
      (∀ p ∈ List.zip TestStructFields (testStruct [] 7 (lit "keep") (lit "d")),
        fieldPanics exampleHost (.object aliceProps) p.1 p.2 = false) ∧
      RecordOverlay exampleHost aliceProps TestStructFields
        (testStruct [] 7 (lit "keep") (lit "d")) :=
  ⟨rfl, by simp [TestStructFields, testStruct]; exact ⟨rfl, rfl, rfl, rfl⟩,
    record_overlay exampleHost aliceProps TestStructFields
      (testStruct [] 7 (lit "keep") (lit "d")) rfl
      (by simp [TestStructFields, testStruct]; exact ⟨rfl, rfl, rfl, rfl⟩)⟩

/-- The converse of `ToGo_fields_safe`: when decoding some field panics, so does the field
loop, and with it the call. -/
theorem ToGo_fields_panics (h : Host) (props : List (JSString × JSValue)) :
    ∀ (fields : List (StructField × GoType)) (vals : List (StructField × GoType × GoValue)),
      (∃ p ∈ List.zip fields vals, fieldPanics h (.object props) p.1 p.2 = true) →
      ToGo_fields h fields (.object props) vals = .panic := by
  intro fields
  induction fields with
  | nil => intro vals hp; simp at hp
  | cons g rest ih =>
    intro vals hp
    cases vals with
    | nil => simp at hp
    | cons e vrest =>
      obtain ⟨g, gt⟩ := g
      obtain ⟨f, t, fv⟩ := e
      have hcase : fieldPanics h (.object props) (g, gt) (f, t, fv) = true ∨
          ToGo_fields h rest (.object props) vrest = .panic := by
        obtain ⟨p, hp, hpp⟩ := hp
        simp only [List.zip_cons_cons, List.mem_cons] at hp
        rcases hp with rfl | hp
        · exact Or.inl hpp
        · exact Or.inr (ih vrest ⟨p, hp, hpp⟩)
      simp only [fieldPanics, Value_Get] at hcase
      rw [ToGo_fields_cons]
      simp only [Value_Get, Outcome.bind]
      cases hkey : jsonKeyToGo g with
      | none =>
        simp only [hkey] at hcase ⊢
        rcases hcase with hc | hc
        · simp at hc
        · simp [hc]
      | some key =>
        simp only [hkey] at hcase ⊢
        cases hu : Value_IsUndefined (getProp props (loadString key)) <;>
          cases hnl : Value_IsNull (getProp props (loadString key)) <;>
          simp only [hu, hnl, Bool.or_self, Bool.or_true, Bool.or_false, Bool.true_or,
            Bool.false_eq_true, if_false, if_true, Bool.not_false, Bool.not_true, Bool.and_self,
            Bool.and_false, Bool.false_and] at hcase ⊢
        · cases hex : g.Exported with
          | false => simp
          | true =>
            simp only [hex, if_true] at hcase ⊢
            generalize ToGoPtr h gt (getProp props (loadString key)) (some fv) = out at hcase ⊢
            rcases hcase with hc | hc
            · cases out with
              | ok o => simp [Outcome.isPanic] at hc
              | error _ => simp [Outcome.isPanic] at hc
              | panic => rfl
            · rw [hc]
              cases out with
              | ok o => cases o <;> rfl
              | error _ => rfl
              | panic => rfl
        all_goals
          rcases hcase with hc | hc
          · simp at hc
          · simp [hc]

/-! ## C11: totality of ToJS -/

mutual
/-- `ToJS` returns for every value in which the struct fields to store are exported. -/
theorem ToJS_total (render : GoValue → GoString) :
    ∀ v, AllExported v → ∃ js, ToJS render v = .ok js
  | .nil, _ => ⟨_, rfl⟩
  | .bool _, _ => ⟨_, rfl⟩
  | .integer k _, _ => by cases k <;> exact ⟨_, rfl⟩
  | .float32 _, _ => ⟨_, rfl⟩
  | .float64 _, _ => ⟨_, rfl⟩
  | .string _, _ => ⟨_, rfl⟩
  | .slice elem items cap, hx => by
    simp only [AllExported] at hx
    obtain ⟨arr, harr⟩ := ToJS_total_items render items hx
    simp only [ToJS]
    split <;> simp [harr, Outcome.bind]
  | .nilSlice elem, _ => by
    simp only [ToJS]
    split <;> simp
  | .array _ _, _ => ⟨_, rfl⟩
  | .map val entries, hx => by
    simp only [AllExported] at hx
    obtain ⟨obj, hobj⟩ := ToJS_total_entries render entries hx []
    simp only [ToJS]
    split <;> simp [hobj, Outcome.bind]
  | .nilMap val, _ => by
    simp only [ToJS]
    split <;> simp
  | .ptr _ target, hx => by
    simp only [AllExported] at hx
    simpa only [ToJS] using ToJS_total render target hx
  | .nilPtr _, _ => ⟨_, rfl⟩
  | .struct fields, hx => by
    simp only [AllExported] at hx
    obtain ⟨obj, hobj⟩ := ToJS_total_fields render fields hx []
    exact ⟨.object obj, by simp only [ToJS, hobj, Outcome.bind]⟩
  | .chan, _ => ⟨_, rfl⟩
  | .func, _ => ⟨_, rfl⟩
  | .named name (.ptr _ target), hx => by
    simp only [AllExported] at hx
    simpa only [ToJS] using ToJS_total render target hx
  | .named name (.slice _ items _), hx => by
    simp only [AllExported] at hx
    obtain ⟨arr, harr⟩ := ToJS_total_items render items hx
    exact ⟨.array arr, by simp only [ToJS, harr, Outcome.bind]⟩
  | .named name (.struct fields), hx => by
    simp only [AllExported] at hx
    obtain ⟨obj, hobj⟩ := ToJS_total_fields render fields hx []
    exact ⟨.object obj, by simp only [ToJS, hobj, Outcome.bind]⟩
  | .named name .nil, _ => ⟨_, rfl⟩
  | .named name (.bool _), _ => ⟨_, rfl⟩
  | .named name (.integer _ _), _ => ⟨_, rfl⟩
  | .named name (.float32 _), _ => ⟨_, rfl⟩
  | .named name (.float64 _), _ => ⟨_, rfl⟩
  | .named name (.string _), _ => ⟨_, rfl⟩
  | .named name (.nilSlice _), _ => ⟨_, rfl⟩
  | .named name (.array _ _), _ => ⟨_, rfl⟩
  | .named name (.map _ _), _ => ⟨_, rfl⟩
  | .named name (.nilMap _), _ => ⟨_, rfl⟩
  | .named name (.nilPtr _), _ => ⟨_, rfl⟩
  | .named name .chan, _ => ⟨_, rfl⟩
  | .named name .func, _ => ⟨_, rfl⟩
  | .named name (.named _ _), _ => ⟨_, rfl⟩
/-- The element loop returns. -/
theorem ToJS_total_items (render : GoValue → GoString) :
    ∀ items, AllExportedItems items → ∃ arr, ToJS_items render items = .ok arr
  | [], _ => ⟨[], rfl⟩
  | x :: xs, hx => by
    simp only [AllExportedItems] at hx
    obtain ⟨js, hjs⟩ := ToJS_total render x hx.1
    obtain ⟨arr, harr⟩ := ToJS_total_items render xs hx.2
    exact ⟨js :: arr, by simp only [ToJS_items, hjs, harr, Outcome.bind]⟩
/-- The entry loop returns. -/
theorem ToJS_total_entries (render : GoValue → GoString) :
    ∀ entries, AllExportedEntries entries → ∀ obj, ∃ obj', ToJS_entries render entries obj = .ok obj'
  | [], _, obj => ⟨obj, rfl⟩
  | (k, x) :: es, hx, obj => by
    simp only [AllExportedEntries] at hx
    obtain ⟨js, hjs⟩ := ToJS_total render x hx.1
    obtain ⟨obj', hobj⟩ := ToJS_total_entries render es hx.2 (Value_Set obj k js)
    exact ⟨obj', by simp only [ToJS_entries, hjs, hobj, Outcome.bind]⟩
/-- The field loop returns. -/
theorem ToJS_total_fields (render : GoValue → GoString) :
    ∀ fields, AllExportedFields fields → ∀ obj, ∃ obj', ToJS_fields render fields obj = .ok obj'
  | [], _, obj => ⟨obj, rfl⟩
  | (f, t, x) :: fs, hx, obj => by
    simp only [AllExportedFields] at hx
    rcases hx.1 with hk | ⟨hex, hax⟩
    · obtain ⟨obj', hobj⟩ := ToJS_total_fields render fs hx.2 obj
      exact ⟨obj', by simp only [ToJS_fields, hk, hobj]⟩
    · obtain ⟨js, hjs⟩ := ToJS_total render x hax
      cases hk : jsonKeyToJS f with
      | none =>
        obtain ⟨obj', hobj⟩ := ToJS_total_fields render fs hx.2 obj
        exact ⟨obj', by simp only [ToJS_fields, hk, hobj]⟩
      | some key =>
        obtain ⟨obj', hobj⟩ := ToJS_total_fields render fs hx.2 (Value_Set obj key js)
        exact ⟨obj', by simp only [ToJS_fields, hk, hex, if_true, hjs, hobj, Outcome.bind]⟩
end

/-- The shapes no dispatch rule covers are encoded as the string `render` makes of them:
channels, functions, values of a defined scalar type, maps with other value types. -/
theorem ToJS_fallback_string (render : GoValue → GoString) (name : String) (k : IntKind)
    (n : Int) (entries : List (GoString × GoValue)) :
    ToJS render .chan = .ok (.string (loadString (render .chan))) ∧
    ToJS render .func = .ok (.string (loadString (render .func))) ∧
    ToJS render (.named name (.integer k n))
      = .ok (.string (loadString (render (.named name (.integer k n))))) ∧
    ToJS render (.map .float64 entries)
      = .ok (.string (loadString (render (.map .float64 entries)))) :=
  ⟨rfl, rfl, rfl, rfl⟩

/-- C11, failing input: `ToJS` of a record with an unexported field,
`struct { name string }{"x"}`, panics: `val.Field(i).Interface()` is refused by `reflect`
for an unexported field, and the field loop has no test for it. -/
theorem ToJS_unexported_field_panics :
    ToJS exampleRender (.struct [(⟨lit "name", [], false⟩, .string, .string (lit "x"))])
      = .panic := by
  rfl

/-! ## C12: string-keyed maps -/

theorem loadString_injective (a b : GoString) (ha : WellFormedGo a) (hb : WellFormedGo b)
    (h : loadString a = loadString b) : a = b := by
  rw [← jsString_loadString a ha, ← jsString_loadString b hb, h]

theorem nodup_loadString_keys (entries : List (GoString × GoValue))
    (hn : (entries.map Prod.fst).Nodup) (hw : ∀ e ∈ entries, WellFormedGo e.1) :
    (entries.map (fun e => loadString e.1)).Nodup :=
  List.Nodup.map_on (fun p hp q hq heq => List.inj_on_of_nodup_map hn hp hq
    (loadString_injective _ _ (hw p hp) (hw q hq) heq)) (List.Nodup.of_map _ hn)

/-- The entry loop of the `map[string]string` and `map[string]int` cases makes one
assignment per entry, none of them to `__proto__`. -/
theorem foldl_set_eq (f : GoValue → JSValue) (es : List (GoString × GoValue))
    (acc : List (JSString × JSValue)) (hp : ∀ e ∈ es, loadString e.1 ≠ protoKey) :
    es.foldl (fun obj e => Value_Set obj e.1 (f e.2)) acc
      = setAll (es.map fun e => (loadString e.1, f e.2)) acc := by
  induction es generalizing acc with
  | nil => rfl
  | cons e rest ih =>
    obtain ⟨k, x⟩ := e
    have hk : loadString k ≠ protoKey := hp (k, x) (by simp)
    simp only [List.foldl_cons, List.map_cons, Value_Set_eq _ _ _ hk]
    rw [ih _ (fun e he => hp e (by simp [he]))]
    rfl

/-- The object built by one assignment per entry has the keys of the entries, each once,
and under each key the value assigned, when the keys stay distinct on the host. -/
theorem setAll_entries (g : GoValue → JSValue) (entries : List (GoString × GoValue))
    (hnl : (entries.map (fun e => loadString e.1)).Nodup) :
    ((setAll (entries.map fun e => (loadString e.1, g e.2)) []).map Prod.fst).Perm
        (entries.map (fun e => loadString e.1)) ∧
      ∀ e ∈ entries,
        lookupProp (loadString e.1) (setAll (entries.map fun e => (loadString e.1, g e.2)) [])
          = some (g e.2) := by
  have hkeys : (entries.map fun e => (loadString e.1, g e.2)).map Prod.fst
      = entries.map (fun e => loadString e.1) := by
    simp [List.map_map, Function.comp_def]
  have hkn : ((entries.map fun e => (loadString e.1, g e.2)).map Prod.fst).Nodup := hkeys ▸ hnl
  refine ⟨hkeys ▸ keys_setAll_perm _ hkn, ?_⟩
  intro e he
  exact lookupProp_setAll_mem _ [] hkn (loadString e.1, g e.2) (List.mem_map.mpr ⟨e, he, rfl⟩)

/-- The `map[string]any` `{"__proto__": 1}` is encoded as the empty object. -/
theorem proto_map_encoding :
    ToJS exampleRender (.map .iface [(lit "__proto__", .float64 (.ofInt 1))])
      = .ok (.object []) := by
  rfl

/-- The `map[string]string` with the two keys `\xff` and `\xfe`, which are not UTF-8, is
encoded as an object with the one key U+FFFD. -/
theorem colliding_map_encoding :
    ToJS exampleRender
        (.map .string [([0xFF], .string (lit "a")), ([0xFE], .string (lit "b"))])
      = .ok (.object [([0xFFFD], .string (loadString (lit "b")))]) := by
  rfl

/-- C12, counterexample: the `map[string]float64` `{"a": 1}` is not encoded as an object:
no case of the type switch matches it and the reflective branch knows no maps, so `ToJS`
falls back to a string. The `map[string]any` `{"__proto__": 1}` is encoded as the empty
object, which lacks the key; and the two keys `\xff` and `\xfe` of a `map[string]string`
become one key of the object. -/
theorem map_encoding_fails :
    ¬ MapEncodes exampleRender .float64 [(lit "a", .float64 (.ofInt 1))] ∧
      ¬ MapEncodes exampleRender .iface [(lit "__proto__", .float64 (.ofInt 1))] ∧
      ¬ MapEncodes exampleRender .string
        [([0xFF], .string (lit "a")), ([0xFE], .string (lit "b"))] := by
  refine ⟨?_, ?_, ?_⟩
  · rintro ⟨props, h1, -⟩
    simp [ToJS] at h1
  · rintro ⟨props, h1, h2, -⟩
    rw [proto_map_encoding] at h1
    cases h1
    have hl := h2.length_eq
    simp at hl
  · rintro ⟨props, h1, h2, -⟩
    rw [colliding_map_encoding] at h1
    cases h1
    have hl := h2.length_eq
    simp at hl

/-- C12, amended: for every `map[string]any`, `map[string]string` and `map[string]int`
whose keys are well-formed UTF-8 without a leading byte order mark and other than
`__proto__` (for `map[string]any`: whose values `ToJS` encodes without panic), `ToJS` yields
an object whose keys are exactly the keys of the map, each once, and whose value under each
key is `ToJS` of the value of the map; a string-keyed map of any other value type is not
encoded as an object: `ToJS` falls back to the string that renders it. -/
theorem map_encoding (render : GoValue → GoString) (val : GoType)
    (entries : List (GoString × GoValue)) (hval : HasMapCase val)
    (hn : (entries.map Prod.fst).Nodup) (hw : ∀ e ∈ entries, WellFormedGo e.1)
    (hp : ∀ e ∈ entries, loadString e.1 ≠ protoKey)
    (hv : ∀ e ∈ entries, EntryEncodes render val e.2) :
    MapEncodes render val entries ∧
      ∀ (val' : GoType) (entries' : List (GoString × GoValue)), ¬ HasMapCase val' →
        ToJS render (.map val' entries')
          = .ok (.string (loadString (render (.map val' entries')))) := by
  have hnl := nodup_loadString_keys entries hn hw
  have hfold : ∀ g : GoValue → JSValue,
      (∀ e ∈ entries, ToJS render e.2 = .ok (g e.2)) →
      ToJS render (.map val entries)
        = .ok (.object (setAll (entries.map fun e => (loadString e.1, g e.2)) [])) →
      MapEncodes render val entries := by
    intro g hg heq
    obtain ⟨hperm, hlook⟩ := setAll_entries g entries hnl
    exact ⟨_, heq, hperm, fun e he => ⟨g e.2, hg e he, hlook e he⟩⟩
  constructor
  · cases val with
    | iface =>
      apply hfold (jsOf render)
      · intro e he
        obtain ⟨y, hy⟩ := hv e he
        simp only [jsOf, hy]
      · have ho := ToJS_entries_ok render entries [] (fun e he => hv e he) hp
        simp only [ToJS, ho, ok_bind]
    | string =>
      apply hfold ValueOf
      · intro e he
        obtain ⟨s, hs⟩ := hv e he
        rw [hs]
        rfl
      · simp only [ToJS, foldl_set_eq ValueOf entries [] hp]
    | integer k =>
      cases k with
      | int =>
        apply hfold ValueOf
        · intro e he
          obtain ⟨n, hs⟩ := hv e he
          rw [hs]
          rfl
        · simp only [ToJS, foldl_set_eq ValueOf entries [] hp]
      | _ => exact hval.elim
    | _ => exact hval.elim
  · intro val' entries' hc
    cases val' with
    | iface => exact absurd trivial hc
    | string => exact absurd trivial hc
    | integer k =>
      cases k with
      | int => exact absurd trivial hc
      | _ => rfl
    | _ => rfl

theorem wellFormedGo_of_text (cps : List Nat) (h : IsText cps) : WellFormedGo (utf8Encode cps) :=
  ⟨cps, h, rfl⟩

theorem exampleEntries_keys (e : GoString × GoValue) (he : e ∈ exampleEntries) :
    WellFormedGo e.1 := by
  simp only [exampleEntries, List.mem_cons, List.mem_singleton, List.not_mem_nil, or_false] at he
  rcases he with rfl | rfl
  · exact wellFormedGo_of_text _ ⟨by decide, by decide⟩
  · exact wellFormedGo_of_text _ ⟨by decide, by decide⟩

theorem exampleEntries_values (e : GoString × GoValue) (he : e ∈ exampleEntries) :
    EntryEncodes exampleRender .iface e.2 := by
  simp only [exampleEntries, List.mem_cons, List.mem_singleton, List.not_mem_nil, or_false] at he
  rcases he with rfl | rfl
  · exact ⟨_, rfl⟩
  · exact ⟨_, rfl⟩

theorem exampleEntries_not_proto (e : GoString × GoValue) (he : e ∈ exampleEntries) :
    loadString e.1 ≠ protoKey := by
  simp only [exampleEntries, List.mem_cons, List.mem_singleton, List.not_mem_nil, or_false] at he
  rcases he with rfl | rfl <;> decide

/-- C12, witness: the `map[string]any` `{"a": 1, "b": "z"}`. -/
theorem map_encoding_witness :
    HasMapCase .iface ∧ (exampleEntries.map Prod.fst).Nodup ∧
      MapEncodes exampleRender .iface exampleEntries :=
  ⟨trivial, by decide,
    (map_encoding exampleRender .iface exampleEntries trivial (by decide) exampleEntries_keys
      exampleEntries_not_proto exampleEntries_values).1⟩

/-! ## C13: map destinations with a known value type -/

/-- C13, counterexample: decoding `{"a": 1}` into an empty `map[string]int` does not add
the key `a`: only `*map[string]any` has a case, and the reflective branch knows slices and
structs, so the call returns nil with the map as it was. -/
theorem typed_map_decoding_fails :
    ¬ TypedMapDecodes exampleHost exampleProps (.integer .int) (.map (.integer .int) []) := by
  rintro ⟨m, h1, h2, -⟩
  simp only [ToGo, ToGoPtr, ToGo_switch, ToGo_default, Outcome.bind, Option.getD_some,
    Outcome.ok.injEq, GoValue.ptr.injEq, GoValue.map.injEq, true_and] at h1
  subst h1
  obtain ⟨x, -, hx⟩ := h2 (utf16Encode [0x61], .number (.ofInt 1)) (by simp [exampleProps])
  simp [mapGet] at hx

/-- C13, amended: for every source and every map destination whose value type is not
`any`, `ToGo` returns no error and leaves the destination exactly as it was: the keys
already in it are kept and no key of the source is added. -/
theorem typed_map_untouched (h : Host) (jsVal : JSValue) (val : GoType) (cur : GoValue)
    (hval : val ≠ .iface) :
    ToGo h jsVal (.ptr (.map val) cur) = .ok (.ptr (.map val) cur) := by
  cases val with
  | iface => exact absurd rfl hval
  | _ => rfl

/-- C13, witness: a `map[string]int` destination that holds `{"b": 2}`, source
`{"a": 1}`. -/
theorem typed_map_untouched_witness :
    (GoType.integer .int ≠ .iface) ∧
      ToGo exampleHost (.object exampleProps)
          (.ptr (.map (.integer .int)) (.map (.integer .int) [(lit "b", .integer .int 2)]))
        = .ok (.ptr (.map (.integer .int)) (.map (.integer .int) [(lit "b", .integer .int 2)])) :=
  ⟨fun hc => GoType.noConfusion hc,
    typed_map_untouched exampleHost (.object exampleProps) (.integer .int)
      (.map (.integer .int) [(lit "b", .integer .int 2)]) (fun hc => GoType.noConfusion hc)⟩

/-! ## C14: sequences -/

theorem ToJS_items_pointwise (render : GoValue → GoString) (items : List GoValue)
    (arr : List JSValue) (h : ToJS_items render items = .ok arr) :
    arr.length = items.length ∧
      ∀ i (hi : i < items.length) (hj : i < arr.length), ToJS render items[i] = .ok arr[i] := by
  induction items generalizing arr with
  | nil =>
    simp only [ToJS_items, Outcome.ok.injEq] at h
    subst h
    exact ⟨rfl, fun i hi => absurd hi (by simp)⟩
  | cons x xs ih =>
    simp only [ToJS_items] at h
    cases hx : ToJS render x with
    | ok y =>
      cases hxs : ToJS_items render xs with
      | ok ys =>
        simp only [hx, hxs, Outcome.bind, Outcome.ok.injEq] at h
        subst h
        obtain ⟨hl, hp⟩ := ih ys hxs
        refine ⟨by simp [hl], ?_⟩
        intro i hi hj
        cases i with
        | zero => simpa using hx
        | succ j =>
          simp only [List.getElem_cons_succ]
          exact hp j (by simpa using hi) (by simpa using hj)
      | error msg => simp [hx, hxs, Outcome.bind] at h
      | panic => simp [hx, hxs, Outcome.bind] at h
    | error msg => simp [hx, Outcome.bind] at h
    | panic => simp [hx, Outcome.bind] at h

theorem ToJS_items_ValueOf (render : GoValue → GoString) (items : List GoValue)
    (h : ∀ item ∈ items, ToJS render item = .ok (ValueOf item)) :
    ToJS_items render items = .ok (items.map ValueOf) := by
  induction items with
  | nil => rfl
  | cons x xs ih =>
    simp only [ToJS_items, h x (by simp), ih (fun item hi => h item (by simp [hi])),
      Outcome.bind, List.map_cons]

theorem ToJS_items_ok (render : GoValue → GoString) (items : List GoValue)
    (henc : ∀ item ∈ items, ∃ js, ToJS render item = .ok js) :
    ∃ arr, ToJS_items render items = .ok arr := by
  induction items with
  | nil => exact ⟨[], rfl⟩
  | cons x xs ih =>
    obtain ⟨y, hy⟩ := henc x (by simp)
    obtain ⟨ys, hys⟩ := ih (fun item hi => henc item (by simp [hi]))
    exact ⟨y :: ys, by simp only [ToJS_items, hy, hys, ok_bind]⟩

/-- The Go array `[2]int{1, 2}` is encoded as the string that renders it: no case of the
type switch and no kind of the reflective branch covers arrays. -/
theorem array_encoding_example :
    ToJS exampleRender (.array (.integer .int) [.integer .int 1, .integer .int 2])
      = .ok (.string (loadString (lit "?"))) := by
  rfl

/-- The slice `[]struct { name string }{{"x"}}` makes `ToJS` panic: the element has an
unexported field. -/
theorem unexported_slice_example :
    ToJS exampleRender
        (.slice (.struct [(⟨lit "name", [], false⟩, .string)])
          [.struct [(⟨lit "name", [], false⟩, .string, .string (lit "x"))]] 1)
      = .panic := by
  rfl

/-- C14, counterexample: the Go array `[2]int{1, 2}` is an ordered sequence of two `int`s
and is not encoded as an array, and the slice `[]struct { name string }{{"x"}}` is not
encoded at all. -/
theorem sequence_encoding_fails :
    ¬ SequenceEncodes exampleRender
        (.array (.integer .int) [.integer .int 1, .integer .int 2])
        [.integer .int 1, .integer .int 2] ∧
      ¬ SequenceEncodes exampleRender
        (.slice (.struct [(⟨lit "name", [], false⟩, .string)])
          [.struct [(⟨lit "name", [], false⟩, .string, .string (lit "x"))]] 1)
        [.struct [(⟨lit "name", [], false⟩, .string, .string (lit "x"))]] := by
  constructor
  · rintro ⟨arr, h1, -⟩
    rw [array_encoding_example] at h1
    cases h1
  · rintro ⟨arr, h1, -⟩
    rw [unexported_slice_example] at h1
    cases h1

/-- C14, amended: for every slice whose element type is not `byte` and whose elements
`ToJS` encodes, `ToJS` returns an array of the same length whose element at each index is
`ToJS` of the element of the slice there; the cases for `[]any`, `[]string` and `[]int` and
the reflective branch, which a slice of a defined type takes, are the same element loop and
give the same result; a nil slice gives the empty array; a Go array of fixed length is not
encoded as an array: `ToJS` falls back to the string that renders it. -/
theorem sequence_encoding (render : GoValue → GoString) (elem : GoType)
    (items : List GoValue) (cap : Nat) (name : String)
    (helem : elem ≠ .integer .uint8) (htyped : ItemsTyped elem items)
    (henc : ∀ item ∈ items, ∃ js, ToJS render item = .ok js) :
    SequenceEncodes render (.slice elem items cap) items ∧
    SequenceEncodes render (.named name (.slice elem items cap)) items ∧
    ToJS render (.slice elem items cap)
      = (ToJS_items render items).bind (fun arr => .ok (.array arr)) ∧
    ToJS render (.named name (.slice elem items cap))
      = (ToJS_items render items).bind (fun arr => .ok (.array arr)) ∧
    ToJS render (.nilSlice elem) = .ok (.array []) ∧
    ToJS render (.array elem items)
      = .ok (.string (loadString (render (.array elem items)))) := by
  have h1 : ToJS render (.slice elem items cap)
      = (ToJS_items render items).bind (fun arr => .ok (.array arr)) := by
    cases elem with
    | string =>
      have hv : ∀ item ∈ items, ToJS render item = .ok (ValueOf item) := by
        intro item hi
        obtain ⟨s, rfl⟩ := htyped item hi
        rfl
      simp only [ToJS, ToJS_items_ValueOf render items hv, Outcome.bind]
    | integer k =>
      cases k with
      | int =>
        have hv : ∀ item ∈ items, ToJS render item = .ok (ValueOf item) := by
          intro item hi
          obtain ⟨n, rfl⟩ := htyped item hi
          rfl
        simp only [ToJS, ToJS_items_ValueOf render items hv, Outcome.bind]
      | uint8 => exact absurd rfl helem
      | _ => rfl
    | _ => rfl
  have h2 : ToJS render (.named name (.slice elem items cap))
      = (ToJS_items render items).bind (fun arr => .ok (.array arr)) := rfl
  obtain ⟨arr, harr⟩ := ToJS_items_ok render items henc
  obtain ⟨hl, hpt⟩ := ToJS_items_pointwise render items arr harr
  refine ⟨⟨arr, by rw [h1, harr, ok_bind], hl, hpt⟩, ⟨arr, by rw [h2, harr, ok_bind], hl, hpt⟩,
    h1, h2, ?_, rfl⟩
  cases elem with
  | integer k =>
    cases k with
    | uint8 => exact absurd rfl helem
    | _ => rfl
  | _ => rfl

/-- C14, witness: the `[]string` `{"a", "b"}` of the tests. -/
theorem sequence_encoding_witness :
    (GoType.string ≠ .integer .uint8) ∧
      ItemsTyped .string [.string (lit "a"), .string (lit "b")] ∧
      (∀ item ∈ [GoValue.string (lit "a"), .string (lit "b")],
        ∃ js, ToJS exampleRender item = .ok js) ∧
      SequenceEncodes exampleRender (.slice .string [.string (lit "a"), .string (lit "b")] 2)
        [.string (lit "a"), .string (lit "b")] :=
  ⟨fun hc => GoType.noConfusion hc,
    fun item hi => by
      simp only [List.mem_cons, List.mem_singleton, List.not_mem_nil, or_false] at hi
      rcases hi with rfl | rfl <;> exact ⟨_, rfl⟩,
    fun item hi => by
      simp only [List.mem_cons, List.mem_singleton, List.not_mem_nil, or_false] at hi
      rcases hi with rfl | rfl <;> exact ⟨_, rfl⟩,
    (sequence_encoding exampleRender .string [.string (lit "a"), .string (lit "b")] 2 "Names"
      (fun hc => GoType.noConfusion hc)
      (fun item hi => by
        simp only [List.mem_cons, List.mem_singleton, List.not_mem_nil, or_false] at hi
        rcases hi with rfl | rfl <;> exact ⟨_, rfl⟩)
      (fun item hi => by
        simp only [List.mem_cons, List.mem_singleton, List.not_mem_nil, or_false] at hi
        rcases hi with rfl | rfl <;> exact ⟨_, rfl⟩)).1⟩

/-- The `[]string` `{"a", "b"}` is encoded as the array of the two strings. -/
theorem sequence_encoding_example :
    ToJS exampleRender (.slice .string [.string (lit "a"), .string (lit "b")] 2)
      = .ok (.array [.string (loadString (lit "a")), .string (loadString (lit "b"))]) := rfl

/-! ## C15: an array of small integers into a byte sequence -/

theorem ToGo_byteItems_eq (ns : List Int) (hn : ∀ n ∈ ns, 0 ≤ n ∧ n ≤ 255) (idxs : List Nat)
    (hi : ∀ i ∈ idxs, i < ns.length) :
    ToGo_byteItems (.array (ns.map fun n => .number (.ofInt n))) idxs
      = .ok (idxs.map fun i => toByte (ns.getD i 0)) := by
  induction idxs with
  | nil => rfl
  | cons i rest ih =>
    have hlt : i < ns.length := hi i (by simp)
    have hmem : ns[i] ∈ ns := List.getElem_mem hlt
    have hidx : (ns.map fun n => JSValue.number (.ofInt n)).getD i .undefined
        = .number (.ofInt ns[i]) := by
      simp [List.getD_eq_getElem?_getD, List.getElem?_eq_getElem hlt]
    have hget : ns.getD i 0 = ns[i] := by
      simp [List.getD_eq_getElem?_getD, List.getElem?_eq_getElem hlt]
    have hint : (Float64.ofInt ns[i]).toInt = ns[i] :=
      toInt_ofInt _ (by have := (hn _ hmem).1; omega) (by have := (hn _ hmem).2; omega)
    simp only [ToGo_byteItems, Value_Index, hidx, Value_Int, hint, Outcome.bind,
      ih (fun j hj => hi j (by simp [hj])), List.map_cons, hget]

/-- C15: for every array whose elements are the numbers `n_0, ..., n_(k-1)`, each an
integer from 0 to 255, `ToGo` into a `*[]byte` returns no error and leaves a slice of
length `k` whose `i`-th byte is `n_i`, whatever the destination held before. -/
theorem byte_array_decoding (h : Host) (ns : List Int) (cur : GoValue)
    (hn : ∀ n ∈ ns, 0 ≤ n ∧ n ≤ 255) :
    ToGo h (.array (ns.map fun n => .number (.ofInt n))) (.ptr (.slice (.integer .uint8)) cur)
      = .ok (.ptr (.slice (.integer .uint8))
          (.slice (.integer .uint8) (ns.map fun n => .integer .uint8 n) ns.length)) := by
  have hitems : ofBytes ((List.range ns.length).map fun i => toByte (ns.getD i 0))
      = ns.map fun n => GoValue.integer .uint8 n := by
    apply List.ext_getElem
    · simp [ofBytes]
    · intro i h1 h2
      have hlt : i < ns.length := by simpa using h2
      have hmem : ns[i] ∈ ns := List.getElem_mem hlt
      have hb := toByte_ofNat ns[i] (hn _ hmem).1 (by have := (hn _ hmem).2; omega)
      simp [ofBytes, List.getD_eq_getElem?_getD, List.getElem?_eq_getElem hlt, hb]
  simp only [ToGo, ToGoPtr, ToGo_switch, Value_Type, Value_InstanceOfArray, Value_Length,
    List.length_map, Int.toNat_ofNat, Outcome.bind, Option.getD_some, if_true,
    ToGo_byteItems_eq ns hn _ (fun i hi => List.mem_range.mp hi), hitems]
  simp

/-- C15, witness: the array `[1, 2, 3]` of the tests into a `[]byte` that held `{9}`. -/
theorem byte_array_decoding_witness :
    (∀ n ∈ [(1 : Int), 2, 3], 0 ≤ n ∧ n ≤ 255) ∧
      ToGo exampleHost (.array ([(1 : Int), 2, 3].map fun n => .number (.ofInt n)))
          (.ptr (.slice (.integer .uint8)) (.slice (.integer .uint8) [.integer .uint8 9] 1))
        = .ok (.ptr (.slice (.integer .uint8))
            (.slice (.integer .uint8) ([(1 : Int), 2, 3].map fun n => .integer .uint8 n) 3)) :=
  ⟨by decide, byte_array_decoding exampleHost [1, 2, 3]
    (.slice (.integer .uint8) [.integer .uint8 9] 1) (by decide)⟩

/-! ## C18: an array into a sequence -/

theorem range_map_getD (items : List JSValue) :
    (List.range items.length).map (fun i => items.getD i .undefined) = items := by
  apply List.ext_getElem
  · simp
  · intro i h1 h2
    simp [List.getD_eq_getElem?_getD, List.getElem?_eq_getElem h2]

theorem bind_assoc_ok {α β γ : Type} (x : Outcome α) (f : α → β) (g : β → Outcome γ) :
    (x.bind fun a => Outcome.ok (f a)).bind g = x.bind fun a => g (f a) := by
  cases x <;> rfl

theorem decodeEach_any (h : Host) (items : List JSValue) :
    decodeEach h .iface items = .ok (toAny_items h items) := by
  induction items with
  | nil => rfl
  | cons x rest ih =>
    simp only [decodeEach, decodeFresh, ToGoPtr, ToGo_switch, store, zero, Outcome.bind,
      Option.getD_some, ih, toAny_items]

theorem decodeEach_bytes (h : Host) (items : List JSValue) (idxs : List Nat) :
    (ToGo_byteItems (.array items) idxs).bind (fun bs => .ok (ofBytes bs))
      = decodeEach h (.integer .uint8) (idxs.map fun i => items.getD i .undefined) := by
  induction idxs with
  | nil => rfl
  | cons i rest ih =>
    simp only [ToGo_byteItems, Value_Index, List.map_cons, decodeEach, decodeFresh, ToGoPtr,
      ToGo_switch, zero, ← ih]
    cases hv : Value_Int (items.getD i .undefined) <;>
      cases hw : ToGo_byteItems (.array items) rest <;>
      simp only [hv, hw, Outcome.bind, store, ofBytes, List.map_cons, Option.getD_some]

/-- The shortcut of the element loop for an element of byte-slice kind that arrives as a
string, `SetBytes` on the new element, leaves what the recursive `ToGo` into a new slot
leaves. -/
theorem decodeFresh_setBytes (h : Host) (elemType : GoType) (s : JSString)
    (hb : isByteSliceKind elemType = true) :
    decodeFresh h elemType (.string s) = .ok (setBytes elemType (Value_String h (.string s))) := by
  cases elemType with
  | slice e =>
    have he : isUint8Kind e = true := by simpa [isByteSliceKind, GoType.underlying] using hb
    cases e with
    | integer k =>
      cases k <;> simp [isUint8Kind, GoType.underlying] at he
      simp [decodeFresh, ToGoPtr, ToGo_switch, Value_Type, store, zero, Outcome.bind, setBytes,
        GoType.underlying, wrapNamed, ofBytes]
    | named n u =>
      simp [decodeFresh, ToGoPtr, ToGo_switch, ToGo_default, ToGo_slice, he, Value_Type, zero,
        Outcome.bind]
    | _ => simp [isUint8Kind, GoType.underlying] at he
  | named name u =>
    cases u with
    | slice e =>
      have he : isUint8Kind e = true := by simpa [isByteSliceKind, GoType.underlying] using hb
      simp [decodeFresh, ToGoPtr, ToGo_switch, ToGo_default, ToGo_slice, he, Value_Type, zero,
        Outcome.bind]
    | _ => simp [isByteSliceKind, GoType.underlying] at hb
  | _ => simp [isByteSliceKind, GoType.underlying] at hb

theorem elem_step (h : Host) (elemType : GoType) (x : JSValue) :
    (if isByteSliceKind elemType && Value_Type x = .TypeString then
        Outcome.ok (setBytes elemType (Value_String h x))
      else (ToGoPtr h elemType x (some (zero elemType))).bind fun r =>
        .ok (r.getD (zero elemType)))
      = decodeFresh h elemType x := by
  by_cases hb : isByteSliceKind elemType = true
  · cases x with
    | string s => simp [hb, Value_Type, decodeFresh_setBytes h elemType s hb]
    | _ => simp [hb, Value_Type, decodeFresh]
  · simp [hb, decodeFresh]

theorem ToGo_elems_eq (h : Host) (elemType : GoType) (items : List JSValue) (idxs : List Nat) :
    ToGo_elems h elemType (fun jsItem => ToGoPtr h elemType jsItem (some (zero elemType)))
        (.array items) idxs
      = decodeEach h elemType (idxs.map fun i => items.getD i .undefined) := by
  induction idxs with
  | nil => rfl
  | cons i rest ih =>
    simp only [ToGo_elems, Value_Index, List.map_cons, decodeEach, ih, ok_bind, elem_step]

theorem ToGo_slice_array (h : Host) (t elemType : GoType) (items : List JSValue)
    (cur : GoValue) :
    ToGo_slice h t elemType (fun jsItem => ToGoPtr h elemType jsItem (some (zero elemType)))
        (.array items) cur
      = (decodeEach h elemType items).bind fun xs =>
          .ok (some (wrapNamed t (.slice elemType xs items.length))) := by
  simp only [ToGo_slice, Value_Type, Value_InstanceOfArray, Value_Length, Outcome.bind,
    Int.toNat_ofNat, ToGo_elems_eq, range_map_getD]
  simp

theorem decodeEach_pointwise (h : Host) (t : GoType) (items : List JSValue)
    (xs : List GoValue) (hd : decodeEach h t items = .ok xs) :
    xs.length = items.length ∧
      ∀ i (hi : i < items.length) (hj : i < xs.length), decodeFresh h t items[i] = .ok xs[i] := by
  induction items generalizing xs with
  | nil =>
    simp only [decodeEach, Outcome.ok.injEq] at hd
    subst hd
    exact ⟨rfl, fun i hi => absurd hi (by simp)⟩
  | cons x rest ih =>
    simp only [decodeEach] at hd
    cases hx : decodeFresh h t x with
    | ok y =>
      cases hr : decodeEach h t rest with
      | ok ys =>
        simp only [hx, hr, Outcome.bind, Outcome.ok.injEq] at hd
        subst hd
        obtain ⟨hl, hp⟩ := ih ys hr
        refine ⟨by simp [hl], ?_⟩
        intro i hi hj
        cases i with
        | zero => simpa using hx
        | succ j =>
          simp only [List.getElem_cons_succ]
          exact hp j (by simpa using hi) (by simpa using hj)
      | error msg => simp [hx, hr, Outcome.bind] at hd
      | panic => simp [hx, hr, Outcome.bind] at hd
    | error msg => simp [hx, Outcome.bind] at hd
    | panic => simp [hx, Outcome.bind] at hd

theorem sliceItems_decodedSlice (elemType : GoType) (cur : GoValue) (xs : List GoValue) :
    sliceItems (decodedSlice elemType cur xs.length xs) = xs := by
  cases elemType with
  | iface =>
    simp only [decodedSlice, resliceAny]
    by_cases hc : sliceCap cur < xs.length
    · simp [hc, sliceItems]
    · cases cur with
      | slice e old cap => simp [hc, sliceItems]
      | _ =>
        simp only [sliceCap, Nat.not_lt, Nat.le_zero, List.length_eq_zero] at hc
        subst hc
        simp [sliceCap, sliceItems]
  | _ => rfl

theorem ToGo_default_slice (h : Host) (e : GoType) (jsVal : JSValue) (cur : GoValue) :
    ToGo_default h (.slice e) jsVal (some cur)
      = ToGo_slice h (.slice e) e (fun jsItem => ToGoPtr h e jsItem (some (zero e))) jsVal cur := by
  rw [ToGo_default]
  rfl

theorem ToGo_default_named_slice (h : Host) (name : String) (e : GoType) (jsVal : JSValue)
    (cur : GoValue) :
    ToGo_default h (.named name (.slice e)) jsVal (some cur)
      = ToGo_slice h (.named name (.slice e)) e
          (fun jsItem => ToGoPtr h e jsItem (some (zero e))) jsVal cur := by
  rw [ToGo_default]
  rfl

theorem ToGo_array_reflect (h : Host) (items : List JSValue) (e : GoType) (cur : GoValue)
    (hsw : ToGo_switch h (.slice e) (.array items) (some cur) = none) :
    ToGo h (.array items) (.ptr (.slice e) cur)
      = (decodeEach h e items).bind fun xs =>
          .ok (.ptr (.slice e) (.slice e xs items.length)) := by
  have hp : ToGoPtr h (.slice e) (.array items) (some cur)
      = ToGo_default h (.slice e) (.array items) (some cur) := by
    unfold ToGoPtr
    rw [hsw]
  simp only [ToGo, hp, ToGo_default_slice, ToGo_slice_array, wrapNamed]
  cases decodeEach h e items <;> rfl

/-- For every array and every destination of a slice type, `ToGo` is the sequence of the
decodings of the elements into new zero-valued slots (it returns when each of them does)
followed by the assignment of the new elements: for `*[]any`, for `*[]byte`, for the slices
the reflective branch handles, and for slices of a defined type. -/
theorem ToGo_array_slice (h : Host) (items : List JSValue) (elemType : GoType)
    (name : String) (cur : GoValue) :
    ToGo h (.array items) (.ptr (.slice elemType) cur)
      = (decodeEach h elemType items).bind (fun xs =>
          .ok (.ptr (.slice elemType) (decodedSlice elemType cur items.length xs))) ∧
    ToGo h (.array items) (.ptr (.named name (.slice elemType)) cur)
      = (decodeEach h elemType items).bind (fun xs =>
          .ok (.ptr (.named name (.slice elemType))
            (.named name (.slice elemType xs items.length)))) := by
  refine ⟨?_, ?_⟩
  · cases elemType with
    | iface =>
      have hneg : ¬ ((items.length : Int) < 0) := by omega
      simp [ToGo, ToGoPtr, ToGo_switch, Value_Length, toAny_array_loop, decodeEach_any,
        decodedSlice, Outcome.bind, hneg]
    | integer k =>
      cases k with
      | uint8 =>
        have hb := decodeEach_bytes h items (List.range items.length)
        rw [range_map_getD] at hb
        rw [← hb]
        simp only [ToGo, ToGoPtr, ToGo_switch, Value_Type, Value_InstanceOfArray, Value_Length,
          decodedSlice, ok_bind, Int.toNat_ofNat]
        cases ToGo_byteItems (.array items) (List.range items.length) <;> simp [Outcome.bind]
      | _ => exact ToGo_array_reflect h items _ cur rfl
    | _ => exact ToGo_array_reflect h items _ cur rfl
  · have hp : ToGoPtr h (.named name (.slice elemType)) (.array items) (some cur)
        = ToGo_default h (.named name (.slice elemType)) (.array items) (some cur) := rfl
    simp only [ToGo, hp, ToGo_default_named_slice, ToGo_slice_array, wrapNamed]
    cases decodeEach h elemType items <;> rfl

theorem decodeEach_ok (h : Host) (t : GoType) (items : List JSValue)
    (hdec : ∀ item ∈ items, ∃ x, decodeFresh h t item = .ok x) :
    ∃ xs, decodeEach h t items = .ok xs := by
  induction items with
  | nil => exact ⟨[], rfl⟩
  | cons x rest ih =>
    obtain ⟨y, hy⟩ := hdec x (by simp)
    obtain ⟨ys, hys⟩ := ih (fun item hi => hdec item (by simp [hi]))
    exact ⟨y :: ys, by simp only [decodeEach, hy, hys, ok_bind]⟩

/-- Decoding the array `["x"]` into a `[]int` that holds `{7, 8, 9}` does not return: the
`*int` case calls `Int()` on the string, which panics. -/
theorem sequence_decoding_panic_example :
    ToGo exampleHost (.array [.string (loadString (lit "x"))])
        (.ptr (.slice (.integer .int))
          (.slice (.integer .int) [.integer .int 7, .integer .int 8, .integer .int 9] 3))
      = .panic := by
  rfl

/-- C18, counterexample: the array `["x"]` of length 1 decoded into a `[]int` that holds
`{7, 8, 9}` leaves no slice of length 1: the call panics. -/
theorem sequence_decoding_fails :
    ¬ SequenceDecodes exampleHost [.string (loadString (lit "x"))] (.integer .int)
      (.slice (.integer .int) [.integer .int 7, .integer .int 8, .integer .int 9] 3) := by
  rintro ⟨res, h1, -⟩
  rw [sequence_decoding_panic_example] at h1
  cases h1

/-- C18, amended: for every array of length `n` each of whose elements can be decoded into
a new zero-valued slot of the element type, and every destination of a slice type, whatever
it held before, `ToGo` returns without error and leaves a slice of length `n` whose `i`-th
element is the result of decoding the `i`-th element of the array into a new zero-valued
slot, and nothing of the old elements. This holds for `*[]any`, for `*[]byte`, for the
slices the reflective branch handles, and for slices of a defined type. -/
theorem sequence_decoding (h : Host) (items : List JSValue) (elemType : GoType)
    (name : String) (cur : GoValue)
    (hdec : ∀ item ∈ items, ∃ x, decodeFresh h elemType item = .ok x) :
    SequenceDecodes h items elemType cur ∧
    ∃ xs, decodeEach h elemType items = .ok xs ∧ xs.length = items.length ∧
      ToGo h (.array items) (.ptr (.slice elemType) cur)
        = .ok (.ptr (.slice elemType) (decodedSlice elemType cur items.length xs)) ∧
      ToGo h (.array items) (.ptr (.named name (.slice elemType)) cur)
        = .ok (.ptr (.named name (.slice elemType))
            (.named name (.slice elemType xs items.length))) ∧
      sliceItems (decodedSlice elemType cur items.length xs) = xs ∧
      ∀ i (hi : i < items.length) (hj : i < xs.length),
        decodeFresh h elemType items[i] = .ok xs[i] := by
  obtain ⟨xs, hxs⟩ := decodeEach_ok h elemType items hdec
  obtain ⟨hl, hpt⟩ := decodeEach_pointwise h elemType items xs hxs
  obtain ⟨h1, h2⟩ := ToGo_array_slice h items elemType name cur
  rw [hxs, ok_bind] at h1 h2
  have hs : sliceItems (decodedSlice elemType cur items.length xs) = xs := by
    rw [← hl]
    exact sliceItems_decodedSlice elemType cur xs
  refine ⟨⟨_, h1, by rw [hs]; exact hl, ?_⟩, xs, hxs, hl, h1, h2, hs, hpt⟩
  intro i hi hj
  have hj2 : i < xs.length := by rw [hs] at hj; exact hj
  rw [hpt i hi hj2]
  simp only [hs]

/-- C18, witness: the array `[1, 2, 3]` decoded into a `[]int` that held `{7, 8, 9, 10}`:
each element can be decoded into a new `int`, and the destination is left with the three
new elements. -/
theorem sequence_decoding_witness :
    (∀ item ∈ [JSValue.number (.ofInt 1), .number (.ofInt 2), .number (.ofInt 3)],
        ∃ x, decodeFresh exampleHost (.integer .int) item = .ok x) ∧
      SequenceDecodes exampleHost [.number (.ofInt 1), .number (.ofInt 2), .number (.ofInt 3)]
        (.integer .int)
        (.slice (.integer .int)
          [.integer .int 7, .integer .int 8, .integer .int 9, .integer .int 10] 4) :=
  ⟨fun item hi => by
      simp only [List.mem_cons, List.mem_singleton, List.not_mem_nil, or_false] at hi
      rcases hi with rfl | rfl | rfl <;> exact ⟨_, rfl⟩,
    (sequence_decoding exampleHost [.number (.ofInt 1), .number (.ofInt 2), .number (.ofInt 3)]
      (.integer .int) "Ints"
      (.slice (.integer .int)
        [.integer .int 7, .integer .int 8, .integer .int 9, .integer .int 10] 4)
      (fun item hi => by
        simp only [List.mem_cons, List.mem_singleton, List.not_mem_nil, or_false] at hi
        rcases hi with rfl | rfl | rfl <;> exact ⟨_, rfl⟩)).1⟩

/-- The array `[1, 2, 3]` decoded into a `[]int` that held `{7, 8, 9, 10}`. -/
theorem sequence_decoding_example :
    ToGo exampleHost (.array [.number (.ofInt 1), .number (.ofInt 2), .number (.ofInt 3)])
        (.ptr (.slice (.integer .int))
          (.slice (.integer .int)
            [.integer .int 7, .integer .int 8, .integer .int 9, .integer .int 10] 4))
      = .ok (.ptr (.slice (.integer .int))
          (.slice (.integer .int) [.integer .int 1, .integer .int 2, .integer .int 3] 3)) := by
  rfl

/-! ## C20: integers of every width -/

theorem trunc_ofInt (n : Int) (h1 : -(2 ^ 53) ≤ n) (h2 : n ≤ 2 ^ 53) :
    (Float64.ofInt n).trunc = some n := by
  by_cases hlt : n.natAbs < 2 ^ 53
  · rw [ofInt_small n hlt]
    simp only [Float64.trunc, le_refl, if_true, Int.toNat_zero, pow_zero, mul_one]
    by_cases hn : n < 0
    · simp only [hn, decide_True, if_true, Option.some.injEq]
      omega
    · simp only [hn, decide_False, Bool.false_eq_true, if_false, Option.some.injEq]
      omega
  · have : n = 2 ^ 53 ∨ n = -(2 ^ 53) := by omega
    rcases this with rfl | rfl
    · decide
    · decide

/-- An integer of any type whose value fits the platform `int` is handed to the host as
the float64 nearest to it. -/
theorem ToJS_integer_in_range (render : GoValue → GoString) (k : IntKind) (n : Int)
    (h1 : -(2 ^ 63) ≤ n) (h2 : n < 2 ^ 63) :
    ToJS render (.integer k n) = .ok (.number (.ofInt n)) := by
  cases k <;> simp only [ToJS, toPlatformInt_small n h1 h2]

/-- An integer of any type whose magnitude is at most 2^53 is handed to the host as the
number with exactly its value. -/
theorem ToJS_integer_exact (render : GoValue → GoString) (k : IntKind) (n : Int)
    (h1 : -(2 ^ 53) ≤ n) (h2 : n ≤ 2 ^ 53) :
    ToJS render (.integer k n) = .ok (.number (.ofInt n)) ∧ (Float64.ofInt n).trunc = some n :=
  ⟨ToJS_integer_in_range render k n (by omega) (by omega), trunc_ofInt n h1 h2⟩

/-- C20, failing input: the `uint64` 2^63 is handed to the host as the number -2^63: the
conversion `int(v)` wraps it to the smallest `int`, and the number the host gets has the
magnitude of the input and the opposite sign. -/
theorem ToJS_uint64_changes_sign :
    ToJS exampleRender (.integer .uint64 (2 ^ 63)) = .ok (.number (.fin true (2 ^ 52) 11)) ∧
      Float64.ofInt (2 ^ 63) = .fin false (2 ^ 52) 11 ∧
      toPlatformInt (2 ^ 63) = -(2 ^ 63) := by
  refine ⟨?_, by decide, by decide⟩
  have e : Float64.ofInt (toPlatformInt (2 ^ 63)) = .fin true (2 ^ 52) 11 := by decide
  simp only [ToJS, e]

/-! ## The recursive calls return no error -/

theorem isError_bind {α β : Type} (x : Outcome α) (f : α → Outcome β)
    (hx : x.isError = false) (hf : ∀ a, (f a).isError = false) : (x.bind f).isError = false := by
  cases x with
  | ok a => exact hf a
  | error msg => cases hx
  | panic => rfl

theorem Value_Get_no_error (js : JSValue) (key : GoString) :
    (Value_Get js key).isError = false := by
  cases js <;> simp only [Value_Get] <;> try rfl
  split
  · rfl
  · split <;> rfl

theorem Value_Index_no_error (js : JSValue) (i : Nat) : (Value_Index js i).isError = false := by
  cases js <;> rfl

theorem Value_Length_no_error (h : Host) (js : JSValue) :
    (Value_Length h js).isError = false := by
  cases js <;> simp only [Value_Length] <;> try rfl
  split <;> rfl

theorem Value_Int_no_error (js : JSValue) : (Value_Int js).isError = false := by
  cases js <;> rfl

theorem Value_Float_no_error (js : JSValue) : (Value_Float js).isError = false := by
  cases js <;> rfl

theorem Value_Bool_no_error (js : JSValue) : (Value_Bool js).isError = false := by
  cases js <;> rfl

theorem Object_keys_no_error (js : JSValue) : (Object_keys js).isError = false := by
  cases js <;> rfl

theorem ToGo_keys_no_error (h : Host) (js : JSValue) (ks : List JSString)
    (m : List (GoString × GoValue)) : (ToGo_keys h js ks m).isError = false := by
  induction ks generalizing m with
  | nil => rfl
  | cons k rest ih =>
    simp only [ToGo_keys]
    exact isError_bind _ _ (Value_Get_no_error _ _) (fun x => ih _)

theorem ToGo_anyItems_no_error (h : Host) (js : JSValue) (idxs : List Nat) :
    (ToGo_anyItems h js idxs).isError = false := by
  induction idxs with
  | nil => rfl
  | cons i rest ih =>
    simp only [ToGo_anyItems]
    exact isError_bind _ _ (Value_Index_no_error _ _)
      (fun x => isError_bind _ _ ih (fun _ => rfl))

theorem ToGo_byteItems_no_error (js : JSValue) (idxs : List Nat) :
    (ToGo_byteItems js idxs).isError = false := by
  induction idxs with
  | nil => rfl
  | cons i rest ih =>
    simp only [ToGo_byteItems]
    exact isError_bind _ _ (Value_Index_no_error _ _)
      (fun x => isError_bind _ _ (Value_Int_no_error _)
        (fun _ => isError_bind _ _ ih (fun _ => rfl)))

/-- No case of the type switch returns an error for a destination that is not nil. -/
theorem ToGo_switch_no_error (h : Host) (t : GoType) (js : JSValue) (cur : GoValue)
    (r : Outcome (Option GoValue)) (hr : ToGo_switch h t js (some cur) = some r) :
    r.isError = false := by
  unfold ToGo_switch at hr
  split at hr <;> simp only [Option.some.injEq, reduceCtorEq] at hr <;> subst hr
  · rfl
  · exact isError_bind _ _ (Object_keys_no_error _)
      (fun _ => isError_bind _ _ (ToGo_keys_no_error _ _ _ _) (fun _ => rfl))
  · refine isError_bind _ _ (Value_Length_no_error _ _) (fun n => ?_)
    beta_reduce
    split
    · rfl
    · exact isError_bind _ _ (ToGo_anyItems_no_error _ _ _) (fun _ => rfl)
  · rfl
  · exact isError_bind _ _ (Value_Int_no_error _) (fun _ => rfl)
  · exact isError_bind _ _ (Value_Float_no_error _) (fun _ => rfl)
  · exact isError_bind _ _ (Value_Bool_no_error _) (fun _ => rfl)
  · exact isError_bind _ _ (Value_Int_no_error _) (fun _ => rfl)
  · split
    · rfl
    · split
      · refine isError_bind _ _ (Value_Length_no_error _ _) (fun n => ?_)
        exact isError_bind _ _ (ToGo_byteItems_no_error _ _) (fun _ => rfl)
      · rfl

/-- The field loop returns no error: it has no statement that returns one. -/
theorem ToGo_fields_no_error (h : Host) (fields : List (StructField × GoType))
    (jsVal : JSValue) (vals : List (StructField × GoType × GoValue)) :
    (ToGo_fields h fields jsVal vals).isError = false := by
  induction fields generalizing vals with
  | nil =>
    rw [ToGo_fields]
    rfl
  | cons fd rest ih =>
    obtain ⟨field, ft⟩ := fd
    cases vals with
    | nil =>
      rw [ToGo_fields]
      rfl
    | cons v vals =>
      obtain ⟨f, t, fv⟩ := v
      rw [ToGo_fields_cons]
      split
      · exact isError_bind _ _ (ih _) (fun _ => rfl)
      · refine isError_bind _ _ (Value_Get_no_error _ _) (fun jsField => ?_)
        beta_reduce
        split
        · split
          · split
            · rfl
            · exact isError_bind _ _ (ih _) (fun _ => rfl)
            · exact isError_bind _ _ (ih _) (fun _ => rfl)
          · rfl
        · exact isError_bind _ _ (ih _) (fun _ => rfl)

theorem ToGo_elems_no_error (h : Host) (elemType : GoType)
    (decodeElem : JSValue → Outcome (Option GoValue))
    (hdec : ∀ x, (decodeElem x).isError = false) (js : JSValue) (idxs : List Nat) :
    (ToGo_elems h elemType decodeElem js idxs).isError = false := by
  induction idxs with
  | nil => rfl
  | cons i rest ih =>
    simp only [ToGo_elems]
    refine isError_bind _ _ (Value_Index_no_error _ _) (fun jsItem => ?_)
    refine isError_bind _ _ ?_ (fun _ => isError_bind _ _ ih (fun _ => rfl))
    split
    · rfl
    · exact isError_bind _ _ (hdec _) (fun _ => rfl)

theorem ToGo_slice_no_error (h : Host) (t elemType : GoType)
    (decodeElem : JSValue → Outcome (Option GoValue))
    (hdec : ∀ x, (decodeElem x).isError = false) (js : JSValue) (cur : GoValue) :
    (ToGo_slice h t elemType decodeElem js cur).isError = false := by
  unfold ToGo_slice
  split
  · rfl
  · split
    · rfl
    · exact isError_bind _ _ (Value_Length_no_error _ _)
        (fun _ => isError_bind _ _ (ToGo_elems_no_error h elemType decodeElem hdec _ _)
          (fun _ => rfl))

theorem ToGo_default_no_error_of (h : Host) (t : GoType)
    (hrec : ∀ e, sizeOf e < sizeOf t → ∀ js cur, (ToGoPtr h e js (some cur)).isError = false)
    (js : JSValue) (cur : GoValue) : (ToGo_default h t js (some cur)).isError = false := by
  cases t with
  | slice e =>
    rw [ToGo_default_slice]
    exact ToGo_slice_no_error h _ e _ (fun x => hrec e (by simp) x _) js cur
  | struct fields =>
    simp only [ToGo_default]
    split
    · rfl
    · split
      · rfl
      · exact isError_bind _ _ (ToGo_fields_no_error _ _ _ _) (fun _ => rfl)
  | named name u =>
    cases u with
    | slice e =>
      rw [ToGo_default_named_slice]
      exact ToGo_slice_no_error h _ e _ (fun x => hrec e (by simp; omega) x _) js cur
    | struct fields =>
      simp only [ToGo_default]
      split
      · rfl
      · split
        · rfl
        · exact isError_bind _ _ (ToGo_fields_no_error _ _ _ _) (fun _ => rfl)
    | _ => rfl
  | _ => rfl

/-- A recursive `ToGo` into the address of a field or of a new element, which is never
nil, returns no error. -/
theorem ToGoPtr_no_error (h : Host) (t : GoType) (js : JSValue) (cur : GoValue) :
    (ToGoPtr h t js (some cur)).isError = false := by
  have key : ∀ n, ∀ t, sizeOf t = n → ∀ js cur,
      (ToGoPtr h t js (some cur)).isError = false := by
    intro n
    induction n using Nat.strong_induction_on with
    | _ n ih =>
      intro t hn js cur
      subst hn
      unfold ToGoPtr
      split
      · next r hr => exact ToGo_switch_no_error h t js cur r hr
      · exact ToGo_default_no_error_of h t (fun e he js cur => ih _ he e rfl js cur) js cur
  exact key _ t rfl js cur

/-- A `ToGo` into a record returns no error, whatever the source and the fields. -/
theorem ToGo_record_no_error (h : Host) (jsVal : JSValue)
    (fields : List (StructField × GoType)) (vals : List (StructField × GoType × GoValue)) :
    (ToGo h jsVal (.ptr (.struct fields) (.struct vals))).isError = false := by
  simp only [ToGo]
  exact isError_bind _ _ (ToGoPtr_no_error h _ jsVal _) (fun _ => rfl)

/-! ## C16: round trip of records -/

theorem mem_fieldKeys (vals : List (StructField × GoType × GoValue))
    (e : StructField × GoType × GoValue) (he : e ∈ vals) (key : GoString)
    (hk : jsonKeyToJS e.1 = some key) : loadString key ∈ fieldKeys vals := by
  induction vals with
  | nil => simp at he
  | cons x rest ih =>
    obtain ⟨f, t, v⟩ := x
    rcases List.mem_cons.mp he with rfl | hr
    · simp only at hk
      simp [fieldKeys, hk]
    · simp only [fieldKeys]
      split
      · exact ih hr
      · exact List.mem_cons_of_mem _ (ih hr)

theorem zero_fields_fieldTypes_cons (f : StructField) (t : GoType) (v : GoValue)
    (rest : List (StructField × GoType × GoValue)) :
    zero_fields (fieldTypes ((f, t, v) :: rest)) = (f, t, zero t) :: zero_fields (fieldTypes rest) := by
  simp [fieldTypes, zero_fields]

/-- The field loop of `ToGo`, run on new zero-valued fields against an object that holds
under the key of each field what `ToJS` made of the field, leaves the fields as they are
expected to come back. -/
theorem ToGo_fields_comesBack (render : GoValue → GoString) (h : Host)
    (obj : List (JSString × JSValue)) (vals : List (StructField × GoType × GoValue))
    (hround : ∀ e ∈ vals, jsonKeyToJS e.1 = none ∨
      (e.1.Exported = true ∧ ComesBack render h e.2.1 e.2.2))
    (hget : ∀ e ∈ vals, ∀ key, jsonKeyToJS e.1 = some key →
      lookupProp (loadString key) obj = some (jsOf render e.2.2)) :
    ToGo_fields h (fieldTypes vals) (.object obj) (zero_fields (fieldTypes vals))
      = .ok (comesBack_fields vals) := by
  induction vals with
  | nil => rfl
  | cons x rest ih =>
    obtain ⟨f, t, v⟩ := x
    have hx := hround (f, t, v) (by simp)
    have ihr := ih (fun e he => hround e (by simp [he])) (fun e he => hget e (by simp [he]))
    rw [zero_fields_fieldTypes_cons]
    have hft : fieldTypes ((f, t, v) :: rest) = (f, t) :: fieldTypes rest := rfl
    rw [hft]
    rw [ToGo_fields_cons]
    cases hk : jsonKeyToJS f with
    | none =>
      simp only [jsonKeyToGo_eq, hk, ihr, ok_bind, comesBack_fields]
    | some key =>
      rcases hx with hx | ⟨hex, -, hu, hnull, hgo⟩
      · rw [hk] at hx
        cases hx
      · simp only at hex hu hnull hgo
        have hl := hget (f, t, v) (by simp) key hk
        simp only at hl
        simp only [jsonKeyToGo_eq, hk, Value_Get, getProp, hl, Option.getD_some, ok_bind, hu,
          hnull, Bool.not_false, Bool.and_self, if_true, hex, hgo, ihr, comesBack_fields]

theorem decodeEach_ints (h : Host) (items : List GoValue) (hp : PlainInts items) :
    decodeEach h (.integer .int) (items.map ValueOf) = .ok items := by
  induction items with
  | nil => rfl
  | cons x rest ih =>
    obtain ⟨n, rfl, h1, h2⟩ := hp x (by simp)
    have hr := ih (fun item hi => hp item (by simp [hi]))
    simp only [List.map_cons, decodeEach, hr, decodeFresh, ToGoPtr, ToGo_switch, ValueOf,
      Value_Int, toInt_ofInt n h1 h2, store, zero, ok_bind, Option.getD_some]

theorem ToJS_items_ints (render : GoValue → GoString) (items : List GoValue)
    (hp : PlainInts items) : ∀ item ∈ items, ToJS render item = .ok (ValueOf item) := by
  intro item hi
  obtain ⟨n, rfl, -, -⟩ := hp item hi
  rfl

mutual
/-- Every plain value comes back from the host. -/
theorem plain_comesBack (render : GoValue → GoString) (h : Host) :
    ∀ v, Plain v → ComesBack render h v.typeOf v
  | .string s, hp => by
    simp only [Plain] at hp
    refine ⟨rfl, rfl, rfl, ?_⟩
    simp [jsOf, ToJS, GoValue.typeOf, ToGoPtr, ToGo_switch, Value_String, store, zero,
      jsString_loadString s hp, comesBack]
  | .integer k n, hp => by
    cases k <;> simp only [Plain] at hp
    refine ⟨rfl, rfl, rfl, ?_⟩
    simp [jsOf, ToJS, GoValue.typeOf, ToGoPtr, ToGo_switch, Value_Int, store, zero,
      toInt_ofInt n hp.1 hp.2, comesBack, Outcome.bind]
  | .slice elem items cap, hp => by
    have he : elem = .integer .int := by
      cases elem with
      | integer k => cases k <;> first | rfl | simp only [Plain] at hp
      | _ => simp only [Plain] at hp
    subst he
    simp only [Plain] at hp
    have hjs : jsOf render (.slice (.integer .int) items cap) = .array (items.map ValueOf) := rfl
    refine ⟨rfl, rfl, rfl, ?_⟩
    rw [hjs]
    have hp2 : ToGoPtr h (.slice (.integer .int)) (.array (items.map ValueOf))
          (some (zero (.slice (.integer .int))))
        = ToGo_default h (.slice (.integer .int)) (.array (items.map ValueOf))
          (some (zero (.slice (.integer .int)))) := rfl
    simp only [GoValue.typeOf]
    rw [hp2, ToGo_default_slice, ToGo_slice_array, decodeEach_ints h items hp]
    simp [Outcome.bind, wrapNamed, comesBack]
  | .nilSlice elem, hp => by
    have he : elem = .integer .int := by
      cases elem with
      | integer k => cases k <;> first | rfl | simp only [Plain] at hp
      | _ => simp only [Plain] at hp
    subst he
    exact ⟨rfl, rfl, rfl, rfl⟩
  | .struct vals, hp => by
    simp only [Plain] at hp
    have hf := plainFields_comesBack render h vals hp.2
    have henc : ∀ e ∈ vals, jsonKeyToJS e.1 = none ∨
        (e.1.Exported = true ∧ ToJS render e.2.2 = .ok (jsOf render e.2.2)) := by
      intro e he
      rcases hf e he with hx | ⟨hex, hc⟩
      · exact Or.inl hx
      · exact Or.inr ⟨hex, hc.1⟩
    have hjs := ToJS_fields_eq render vals [] henc
    have hto : ToJS render (.struct vals)
        = .ok (.object (setAll (encProps render vals) [])) := by
      simp only [ToJS, hjs, ok_bind]
    have hof : jsOf render (.struct vals) = .object (setAll (encProps render vals) []) := by
      simp only [jsOf, hto]
    have hnd : ((encProps render vals).map Prod.fst).Nodup := by
      rw [encProps_keys render vals hp.1.2]
      exact hp.1.1
    have hgo := ToGo_fields_comesBack render h (setAll (encProps render vals) []) vals hf
      (fun e he key hk => lookupProp_setAll_mem _ [] hnd (loadString key, jsOf render e.2.2)
        (encProps_mem render vals e he key hk
          (fun hc => hp.1.2 (hc ▸ mem_fieldKeys vals e he key hk))))
    refine ⟨by rw [hto, hof], by rw [hof]; rfl, by rw [hof]; rfl, ?_⟩
    rw [hof]
    have hty : (GoValue.struct vals).typeOf = .struct (fieldTypes vals) := rfl
    rw [hty]
    simp only [ToGoPtr, ToGo_switch, ToGo_default, zero, Value_Type, ne_eq, not_true_eq_false,
      if_false, structFields, hgo, ok_bind, comesBack]
  | .nil, hp => by simp only [Plain] at hp
  | .array _ _, hp => by simp only [Plain] at hp
  | .bool _, hp => by simp only [Plain] at hp
  | .float32 _, hp => by simp only [Plain] at hp
  | .float64 _, hp => by simp only [Plain] at hp
  | .map _ _, hp => by simp only [Plain] at hp
  | .nilMap _, hp => by simp only [Plain] at hp
  | .ptr _ _, hp => by simp only [Plain] at hp
  | .nilPtr _, hp => by simp only [Plain] at hp
  | .chan, hp => by simp only [Plain] at hp
  | .func, hp => by simp only [Plain] at hp
  | .named _ _, hp => by simp only [Plain] at hp
/-- Every field of a plain record that is not excluded comes back from the host. -/
theorem plainFields_comesBack (render : GoValue → GoString) (h : Host) :
    ∀ vals, PlainFields vals → ∀ e ∈ vals, jsonKeyToJS e.1 = none ∨
      (e.1.Exported = true ∧ ComesBack render h e.2.1 e.2.2)
  | [], _ => fun e he => absurd he (by simp)
  | (f, t, v) :: rest, hp => by
    simp only [PlainFields] at hp
    intro e he
    rcases List.mem_cons.mp he with rfl | hr
    · rcases hp.1 with hx | ⟨hex, ht, hv⟩
      · exact Or.inl hx
      · refine Or.inr ⟨hex, ?_⟩
        simp only
        rw [ht]
        exact plain_comesBack render h v hv
    · exact plainFields_comesBack render h rest hp.2 e hr
end

/-- The record `struct { P string "json:\"__proto__\"" }{"x"}` is encoded as the empty
object, and decoding that into a new record of the type leaves `P` at `<object>`: `Get`
reports the prototype under `__proto__`, and the `*string` case stores its description. -/
theorem protoField_roundTrip_example :
    ToJS exampleRender (.struct [(⟨lit "P", lit "__proto__", true⟩, .string, .string (lit "x"))])
        = .ok (.object []) ∧
      ToGo exampleHost (.object [])
          (.ptr (.struct [(⟨lit "P", lit "__proto__", true⟩, .string)])
            (.struct [(⟨lit "P", lit "__proto__", true⟩, .string, .string [])]))
        = .ok (.ptr (.struct [(⟨lit "P", lit "__proto__", true⟩, .string)])
            (.struct [(⟨lit "P", lit "__proto__", true⟩, .string,
              .string (lit "<object>"))])) :=
  ⟨rfl, rfl⟩

/-- C16, counterexample: the record `{Age: 2^53 + 1}` with the single field
`Age int` keyed `age` does not come back: the host holds numbers as float64, so `ToJS`
hands it 2^53, and `ToGo` leaves `Age` at 2^53. And the record `{P: "x"}` with the single
field `P string` keyed `__proto__` comes back as `{P: "<object>"}`. -/
theorem record_roundTrip_fails :
    ¬ RecordRoundTripExact exampleRender exampleHost
        [(⟨lit "Age", lit "age", true⟩, .integer .int, .integer .int (2 ^ 53 + 1))] ∧
      ¬ RecordRoundTripExact exampleRender exampleHost
        [(⟨lit "P", lit "__proto__", true⟩, .string, .string (lit "x"))] := by
  constructor
  · rintro ⟨js, h1, h2⟩
    have e1 : ToJS exampleRender
        (.struct [(⟨lit "Age", lit "age", true⟩, .integer .int, .integer .int (2 ^ 53 + 1))])
        = .ok (.object [(loadString (lit "age"), .number (.fin false (2 ^ 52) 1))]) := by
      rfl
    rw [e1] at h1
    cases h1
    have e2 : ToGo exampleHost
        (.object [(loadString (lit "age"), .number (.fin false (2 ^ 52) 1))])
        (.ptr (.struct (fieldTypes
            [(⟨lit "Age", lit "age", true⟩, .integer .int, .integer .int (2 ^ 53 + 1))]))
          (zero (.struct (fieldTypes
            [(⟨lit "Age", lit "age", true⟩, .integer .int, .integer .int (2 ^ 53 + 1))]))))
        = .ok (.ptr (.struct [(⟨lit "Age", lit "age", true⟩, .integer .int)])
            (.struct [(⟨lit "Age", lit "age", true⟩, .integer .int, .integer .int (2 ^ 53))])) := by
      rfl
    rw [e2] at h2
    have hk : jsonKeyToJS ⟨lit "Age", lit "age", true⟩ = some (lit "age") := by decide
    simp [fieldTypes, hk] at h2
  · rintro ⟨js, h1, h2⟩
    rw [protoField_roundTrip_example.1] at h1
    cases h1
    have e2 : ToGo exampleHost (.object [])
        (.ptr (.struct (fieldTypes
            [(⟨lit "P", lit "__proto__", true⟩, .string, .string (lit "x"))]))
          (zero (.struct (fieldTypes
            [(⟨lit "P", lit "__proto__", true⟩, .string, .string (lit "x"))]))))
        = .ok (.ptr (.struct [(⟨lit "P", lit "__proto__", true⟩, .string)])
            (.struct [(⟨lit "P", lit "__proto__", true⟩, .string,
              .string (lit "<object>"))])) := by
      rfl
    rw [e2] at h2
    have hk : jsonKeyToJS ⟨lit "P", lit "__proto__", true⟩ = some (lit "__proto__") := by decide
    simp only [fieldTypes, List.map_cons, List.map_nil, hk, Outcome.ok.injEq, GoValue.ptr.injEq,
      GoValue.struct.injEq, List.cons.injEq, Prod.mk.injEq, GoValue.string.injEq, true_and,
      and_true] at h2
    revert h2
    decide

/-- C16, amended: for every record whose fields, as far as they are not excluded, are
exported and hold strings that are well-formed UTF-8 without a leading byte order mark,
`int`s of magnitude at most 2^53, `[]int`s of such `int`s or nested such records, and whose
keys stay distinct on the host and are not `__proto__`, `ToJS` returns and `ToGo` of the
result into a new zero-valued record of the same type returns no error and leaves every
field that is not excluded as it was in the record (a `[]int` with the same elements, an
empty one for a nil one) and every excluded field at the zero value. -/
theorem record_roundTrip (render : GoValue → GoString) (h : Host)
    (vals : List (StructField × GoType × GoValue)) (hp : Plain (.struct vals)) :
    RecordRoundTrip render h vals := by
  obtain ⟨hjs, -, -, hgo⟩ := plain_comesBack render h (.struct vals) hp
  have hty : (GoValue.struct vals).typeOf = .struct (fieldTypes vals) := rfl
  rw [hty] at hgo
  refine ⟨jsOf render (.struct vals), hjs, ?_⟩
  simp only [ToGo, hgo, ok_bind, Option.getD_some]

theorem plain_testStruct :
    Plain (.struct (testStruct (lit "Alice") 30 (lit "x") (lit "visible"))) := by
  simp only [Plain, testStruct, PlainFields, GoValue.typeOf, and_true, true_and]
  exact ⟨⟨by decide, by decide⟩, Or.inr (wellFormedGo_of_text _ ⟨by decide, by decide⟩),
    Or.inr (by decide), Or.inl rfl, Or.inr (wellFormedGo_of_text _ ⟨by decide, by decide⟩)⟩

/-- The record `{Name: "Alice", Age: 30, Ignored: "x", Default: "visible"}` is expected to
come back as `{Name: "Alice", Age: 30, Ignored: "", Default: "visible"}`. -/
theorem record_roundTrip_example :
    comesBack (.struct (testStruct (lit "Alice") 30 (lit "x") (lit "visible")))
      = .struct (testStruct (lit "Alice") 30 [] (lit "visible")) := by
  rfl

/-- C16, witness: the `TestStruct` `{Name: "Alice", Age: 30, Ignored: "x", Default:
"visible"}` of the tests. -/
theorem record_roundTrip_witness :
    Plain (.struct (testStruct (lit "Alice") 30 (lit "x") (lit "visible"))) ∧
      RecordRoundTrip exampleRender exampleHost
        (testStruct (lit "Alice") 30 (lit "x") (lit "visible")) :=
  ⟨plain_testStruct, record_roundTrip exampleRender exampleHost
    (testStruct (lit "Alice") 30 (lit "x") (lit "visible")) plain_testStruct⟩

/-- The `ComplexStruct` `{Nested: {Name: "Diff", Age: 40}, List: {5, 6}}` of the tests comes
back as it was. -/
theorem complexStruct_roundTrip :
    RecordRoundTrip exampleRender exampleHost complexStruct ∧
      comesBack (.struct complexStruct) = .struct complexStruct :=
  ⟨⟨_, rfl, rfl⟩, rfl⟩

/-! ## C17: round trip of untyped trees -/

theorem Float64.equal_self (x : Float64) (hx : x ≠ .nan) : Float64.equal x x := by
  cases x with
  | nan => exact absurd rfl hx
  | inf n => rfl
  | fin n m e => exact ⟨rfl, Or.inr rfl⟩

theorem loadString_wellFormed (s : GoString) (hs : WellFormedGo s) :
    WellFormedJS (loadString s) := by
  obtain ⟨cps, ⟨hsc, hb⟩, rfl⟩ := hs
  refine ⟨cps, ⟨hsc, hb⟩, ?_⟩
  simp only [loadString, utf8Decode, stripBOM_encode cps hb, utf8DecodeFrom_encode cps hsc]

theorem UntypedEntries_mem (es : List (GoString × GoValue)) (hw : UntypedEntries es)
    (e : GoString × GoValue) (he : e ∈ es) :
    (WellFormedGo e.1 ∧ loadString e.1 ≠ protoKey) ∧ UntypedTree e.2 := by
  induction es with
  | nil => simp at he
  | cons x rest ih =>
    obtain ⟨k, y⟩ := x
    simp only [UntypedEntries] at hw
    rcases List.mem_cons.mp he with rfl | hr
    · exact ⟨hw.1, hw.2.1⟩
    · exact ih hw.2.2 hr

/-- What `toAny` makes of an object whose keys are well-formed and distinct. -/
theorem toAny_object_of_keys (h : Host) (props : List (JSString × JSValue))
    (hn : (props.map Prod.fst).Nodup) (hw : ∀ p ∈ props, WellFormedJS p.1) :
    toAny h (.object props)
      = .map .iface (props.map (fun p => (jsString p.1, toAny h p.2))) := by
  simp only [toAny, toAny_props_eq]
  rw [toAny_keys_eq _ _ [] (fun k hk => by
      obtain ⟨p, hp, rfl⟩ := List.mem_map.mp hk
      exact hw p hp) hn (by simp)]
  simp only [List.nil_append, List.map_map, GoValue.map.injEq, true_and]
  apply List.map_congr_left
  intro p hp
  simp only [Function.comp_apply, Prod.mk.injEq, true_and]
  exact find_converted h props hn p hp _

theorem deepEqualEntries_of (es es' : List (GoString × GoValue))
    (hall : ∀ e ∈ es, ∃ y, mapGet e.1 es' = some y ∧ DeepEqual e.2 y) :
    DeepEqualEntries es es' := by
  induction es with
  | nil => simp only [DeepEqualEntries]
  | cons x rest ih =>
    obtain ⟨k, v⟩ := x
    obtain ⟨y, hy, hd⟩ := hall (k, v) (by simp)
    simp only at hy hd
    simp only [DeepEqualEntries, hy]
    exact ⟨hd, ih (fun e he => hall e (by simp [he]))⟩

/-- A nil `map[string]any` destination receives what `toAny` makes of an object. -/
theorem ToGo_nil_map (h : Host) (props : List (JSString × JSValue)) :
    ToGo h (.object props) (.ptr (.map .iface) (.nilMap .iface))
      = .ok (.ptr (.map .iface) (toAny h (.object props))) := by
  simp only [ToGo, ToGoPtr, ToGo_switch, Object_keys, mapEntries, toAny_keys_loop, ok_bind,
    Option.getD_some, toAny]

mutual
/-- Every untyped tree is encoded by `ToJS`, and `toAny` of the encoding is deeply equal
to the tree. -/
theorem tree_comesBack (render : GoValue → GoString) (h : Host) :
    ∀ v, UntypedTree v →
      ToJS render v = .ok (jsOf render v) ∧ DeepEqual v (toAny h (jsOf render v))
  | .nil, _ => ⟨rfl, rfl⟩
  | .bool _, _ => ⟨rfl, rfl⟩
  | .float64 x, hp => by
    simp only [UntypedTree] at hp
    exact ⟨rfl, Float64.equal_self x hp⟩
  | .string s, hp => by
    simp only [UntypedTree] at hp
    refine ⟨rfl, ?_⟩
    simp [jsOf, ToJS, toAny, Value_String, jsString_loadString s hp, DeepEqual]
  | .slice elem items cap, hp => by
    have he : elem = .iface := by
      cases elem <;> first | rfl | simp only [UntypedTree] at hp
    subst he
    simp only [UntypedTree] at hp
    obtain ⟨h1, h2⟩ := items_comeBack render h items hp
    have hto : ToJS render (.slice .iface items cap) = .ok (.array (items.map (jsOf render))) := by
      simp only [ToJS, h1, ok_bind]
    have hof : jsOf render (.slice .iface items cap) = .array (items.map (jsOf render)) := by
      simp only [jsOf, hto]
    refine ⟨by rw [hto, hof], ?_⟩
    rw [hof]
    simp only [toAny, DeepEqual, true_and]
    exact h2
  | .map val entries, hp => by
    have he : val = .iface := by
      cases val <;> first | rfl | simp only [UntypedTree] at hp
    subst he
    simp only [UntypedTree] at hp
    obtain ⟨hn, hu⟩ := hp
    have hall := entries_comeBack render h entries hu
    have hwf : ∀ e ∈ entries, WellFormedGo e.1 :=
      fun e he => (UntypedEntries_mem entries hu e he).1.1
    have hnp : ∀ e ∈ entries, loadString e.1 ≠ protoKey :=
      fun e he => (UntypedEntries_mem entries hu e he).1.2
    have hnl := nodup_loadString_keys entries hn hwf
    have hjs := ToJS_entries_ok render entries [] (fun e he => ⟨_, (hall e he).1⟩) hnp
    obtain ⟨hperm, hlook⟩ := setAll_entries (jsOf render) entries hnl
    obtain ⟨props, hprops⟩ :
        ∃ props, props = setAll (entries.map fun e => (loadString e.1, jsOf render e.2)) [] :=
      ⟨_, rfl⟩
    rw [← hprops] at hjs hperm hlook
    have hto : ToJS render (.map .iface entries) = .ok (.object props) := by
      simp only [ToJS, hjs, ok_bind]
    have hof : jsOf render (.map .iface entries) = .object props := by
      simp only [jsOf, hto]
    have hpn : (props.map Prod.fst).Nodup := hperm.nodup_iff.mpr hnl
    have hpw : ∀ p ∈ props, WellFormedJS p.1 := by
      intro p hp
      have hm : p.1 ∈ entries.map (fun e => loadString e.1) :=
        hperm.mem_iff.mp (List.mem_map_of_mem Prod.fst hp)
      obtain ⟨e, he, heq⟩ := List.mem_map.mp hm
      rw [← heq]
      exact loadString_wellFormed e.1 (hwf e he)
    refine ⟨by rw [hto, hof], ?_⟩
    rw [hof, toAny_object_of_keys h props hpn hpw]
    simp only [DeepEqual, List.length_map, true_and]
    refine ⟨?_, ?_⟩
    · have hl := hperm.length_eq
      simpa using hl
    · apply deepEqualEntries_of
      intro e he
      refine ⟨toAny h (jsOf render e.2), ?_, (hall e he).2⟩
      have hm : (loadString e.1, jsOf render e.2) ∈ props :=
        lookupProp_some_mem _ _ _ (hlook e he)
      have hmem : (e.1, toAny h (jsOf render e.2))
          ∈ props.map (fun p => (jsString p.1, toAny h p.2)) :=
        List.mem_map.mpr ⟨_, hm, by simp [jsString_loadString e.1 (hwf e he)]⟩
      refine mapGet_mem _ ?_ _ hmem
      have hk : ((props.map Prod.fst).map jsString).Nodup :=
        List.Nodup.map_on (fun a ha b hb heq => by
          obtain ⟨p, hp, rfl⟩ := List.mem_map.mp ha
          obtain ⟨q, hq, rfl⟩ := List.mem_map.mp hb
          exact jsString_injective p.1 q.1 (hpw p hp) (hpw q hq) heq) hpn
      simpa [List.map_map, Function.comp_def] using hk
  | .integer _ _, hp => by simp only [UntypedTree] at hp
  | .float32 _, hp => by simp only [UntypedTree] at hp
  | .nilSlice _, hp => by simp only [UntypedTree] at hp
  | .array _ _, hp => by simp only [UntypedTree] at hp
  | .nilMap _, hp => by simp only [UntypedTree] at hp
  | .ptr _ _, hp => by simp only [UntypedTree] at hp
  | .nilPtr _, hp => by simp only [UntypedTree] at hp
  | .struct _, hp => by simp only [UntypedTree] at hp
  | .chan, hp => by simp only [UntypedTree] at hp
  | .func, hp => by simp only [UntypedTree] at hp
  | .named _ _, hp => by simp only [UntypedTree] at hp
/-- The elements of a `[]any` of untyped trees come back. -/
theorem items_comeBack (render : GoValue → GoString) (h : Host) :
    ∀ items, UntypedItems items →
      ToJS_items render items = .ok (items.map (jsOf render)) ∧
        DeepEqualItems items (toAny_items h (items.map (jsOf render)))
  | [], _ => ⟨rfl, rfl⟩
  | x :: xs, hp => by
    simp only [UntypedItems] at hp
    obtain ⟨h1, h2⟩ := tree_comesBack render h x hp.1
    obtain ⟨h3, h4⟩ := items_comeBack render h xs hp.2
    refine ⟨by simp only [ToJS_items, h1, h3, ok_bind, List.map_cons], ?_⟩
    simp only [List.map_cons, toAny_items, DeepEqualItems]
    exact ⟨h2, h4⟩
/-- The values of a `map[string]any` of untyped trees come back. -/
theorem entries_comeBack (render : GoValue → GoString) (h : Host) :
    ∀ es, UntypedEntries es → ∀ e ∈ es,
      ToJS render e.2 = .ok (jsOf render e.2) ∧ DeepEqual e.2 (toAny h (jsOf render e.2))
  | [], _ => fun e he => absurd he (by simp)
  | (k, x) :: es, hp => by
    simp only [UntypedEntries] at hp
    intro e he
    rcases List.mem_cons.mp he with rfl | hr
    · exact tree_comesBack render h x hp.2.1
    · exact entries_comeBack render h es hp.2.2 e hr
end

/-- What `ToJS` makes of four trees and what `ToGo` into a nil `map[string]any` makes of
the result: the string `\xff` comes back as U+FFFD, the key `__proto__` is lost, NaN comes
back as NaN, and a nil `[]any` comes back as an empty one. -/
theorem tree_roundTrip_examples :
    (ToJS exampleRender (.map .iface [(lit "a", .string [0xFF])])
        = .ok (.object [(loadString (lit "a"), .string [0xFFFD])]) ∧
      ToGo exampleHost (.object [(loadString (lit "a"), .string [0xFFFD])])
          (.ptr (.map .iface) (.nilMap .iface))
        = .ok (.ptr (.map .iface) (.map .iface [(lit "a", .string [0xEF, 0xBF, 0xBD])]))) ∧
    (ToJS exampleRender (.map .iface [(lit "__proto__", .float64 (.ofInt 1))])
        = .ok (.object []) ∧
      ToGo exampleHost (.object []) (.ptr (.map .iface) (.nilMap .iface))
        = .ok (.ptr (.map .iface) (.map .iface []))) ∧
    (ToJS exampleRender (.map .iface [(lit "a", .float64 .nan)])
        = .ok (.object [(loadString (lit "a"), .number .nan)]) ∧
      ToGo exampleHost (.object [(loadString (lit "a"), .number .nan)])
          (.ptr (.map .iface) (.nilMap .iface))
        = .ok (.ptr (.map .iface) (.map .iface [(lit "a", .float64 .nan)]))) ∧
    (ToJS exampleRender (.map .iface [(lit "a", .nilSlice .iface)])
        = .ok (.object [(loadString (lit "a"), .array [])]) ∧
      ToGo exampleHost (.object [(loadString (lit "a"), .array [])])
          (.ptr (.map .iface) (.nilMap .iface))
        = .ok (.ptr (.map .iface) (.map .iface [(lit "a", .slice .iface [] 0)]))) :=
  ⟨⟨rfl, rfl⟩, ⟨rfl, rfl⟩, ⟨rfl, rfl⟩, ⟨rfl, rfl⟩⟩

/-- C17, counterexample: the tree `{"a": "\xff"}`, whose string is not valid UTF-8, does
not come back: the host decodes the byte FF as U+FFFD, and `ToGo` leaves the three bytes
EF BF BD under the key `a`. Neither do `{"__proto__": 1}`, which comes back empty,
`{"a": NaN}`, whose value is not equal to itself, and `{"a": []any(nil)}`, which comes back
with an empty slice that is not nil. -/
theorem tree_roundTrip_fails :
    ¬ TreeRoundTrip exampleRender exampleHost [(lit "a", .string [0xFF])] ∧
      ¬ TreeRoundTrip exampleRender exampleHost [(lit "__proto__", .float64 (.ofInt 1))] ∧
      ¬ TreeRoundTrip exampleRender exampleHost [(lit "a", .float64 .nan)] ∧
      ¬ TreeRoundTrip exampleRender exampleHost [(lit "a", .nilSlice .iface)] := by
  obtain ⟨⟨a1, a2⟩, ⟨b1, b2⟩, ⟨c1, c2⟩, ⟨d1, d2⟩⟩ := tree_roundTrip_examples
  refine ⟨?_, ?_, ?_, ?_⟩
  · rintro ⟨js, h1, res, h2, h3⟩
    rw [a1] at h1
    cases h1
    rw [a2] at h2
    cases h2
    simp [DeepEqual, DeepEqualEntries, mapGet] at h3
  · rintro ⟨js, h1, res, h2, h3⟩
    rw [b1] at h1
    cases h1
    rw [b2] at h2
    cases h2
    simp [DeepEqual] at h3
  · rintro ⟨js, h1, res, h2, h3⟩
    rw [c1] at h1
    cases h1
    rw [c2] at h2
    cases h2
    simp [DeepEqual, DeepEqualEntries, mapGet, Float64.equal] at h3
  · rintro ⟨js, h1, res, h2, h3⟩
    rw [d1] at h1
    cases h1
    rw [d2] at h2
    cases h2
    simp [DeepEqual, DeepEqualEntries, mapGet] at h3

/-- C17, amended: for every `map[string]any` that is not nil and is built from nil,
booleans, float64 values other than NaN, strings that are well-formed UTF-8 without a leading
byte order mark, `[]any` values that are not nil and `map[string]any` values that are not nil
with such strings other than `__proto__` for keys, `ToJS` returns and `ToGo` of the result
into a nil `map[string]any` returns no error and leaves a map deeply equal to the first. -/
theorem tree_roundTrip (render : GoValue → GoString) (h : Host)
    (entries : List (GoString × GoValue)) (hp : UntypedTree (.map .iface entries)) :
    TreeRoundTrip render h entries := by
  obtain ⟨hjs, hd⟩ := tree_comesBack render h (.map .iface entries) hp
  have hobj : ∃ props, jsOf render (.map .iface entries) = .object props := by
    cases hr : ToJS_entries render entries [] with
    | ok obj => exact ⟨obj, by simp only [jsOf, ToJS, hr, ok_bind]⟩
    | error msg => simp [ToJS, hr, Outcome.bind] at hjs
    | panic => simp [ToJS, hr, Outcome.bind] at hjs
  obtain ⟨props, hprops⟩ := hobj
  refine ⟨jsOf render (.map .iface entries), hjs, toAny h (jsOf render (.map .iface entries)), ?_, hd⟩
  rw [hprops]
  exact ToGo_nil_map h props

theorem untypedTree_coverageTree : UntypedTree (.map .iface coverageTree) := by
  simp only [UntypedTree, coverageTree, UntypedEntries, UntypedItems, and_true, true_and]
  exact ⟨by decide, ⟨wellFormedGo_of_text _ ⟨by decide, by decide⟩, by decide⟩,
    ⟨wellFormedGo_of_text _ ⟨by decide, by decide⟩, by decide⟩,
    ⟨wellFormedGo_of_text _ ⟨by decide, by decide⟩, by decide⟩, by decide⟩

/-- C17, witness: the tree `{"bool": true, "null": nil, "list": []any{false, 42.0}}` of
the tests. -/
theorem tree_roundTrip_witness :
    UntypedTree (.map .iface coverageTree) ∧
      TreeRoundTrip exampleRender exampleHost coverageTree :=
  ⟨untypedTree_coverageTree, tree_roundTrip exampleRender exampleHost coverageTree
    untypedTree_coverageTree⟩

/-- The tree of the tests comes back as the map with the same entries. -/
theorem tree_roundTrip_example :
    ∃ js, ToJS exampleRender (.map .iface coverageTree) = .ok js ∧
      ToGo exampleHost js (.ptr (.map .iface) (.nilMap .iface))
        = .ok (.ptr (.map .iface) (.map .iface coverageTree)) :=
  ⟨_, rfl, rfl⟩

/-! ## C21: the two resolutions of a field key -/

/-- C21: the resolution of the key of a field written out in the field loop of `ToJS` and
the one written out in the field loop of `ToGo` are the same function: for every declared
name, every annotation and either visibility both exclude the field, exactly when the
annotation (the name, when the annotation is empty) is `-`, or both resolve it to the same
key, the text before the first comma; and the property `ToJS` sets under its key, when that
is not `__proto__`, is the one `ToGo` gets under its own, whatever the object held. -/
theorem field_key_resolution (name tag : GoString) (exported : Bool)
    (props : List (JSString × JSValue)) (x : JSValue) :
    jsonKeyToJS ⟨name, tag, exported⟩ = jsonKeyToGo ⟨name, tag, exported⟩ ∧
    (jsonKeyToJS ⟨name, tag, exported⟩ = none ↔ (if tag = [] then name else tag) = lit "-") ∧
    (jsonKeyToGo ⟨name, tag, exported⟩ = none ↔ (if tag = [] then name else tag) = lit "-") ∧
    (match jsonKeyToJS ⟨name, tag, exported⟩, jsonKeyToGo ⟨name, tag, exported⟩ with
      | some key, some key' =>
        key = key' ∧
          (loadString key ≠ protoKey → Value_Get (.object (Value_Set props key x)) key' = .ok x)
      | none, none => True
      | _, _ => False) := by
  refine ⟨rfl, ?_, ?_, ?_⟩
  · simp only [jsonKeyToJS]
    split <;> simp_all
  · simp only [jsonKeyToGo]
    split <;> simp_all
  · have he : jsonKeyToGo ⟨name, tag, exported⟩ = jsonKeyToJS ⟨name, tag, exported⟩ := rfl
    rw [he]
    cases jsonKeyToJS ⟨name, tag, exported⟩ with
    | none => trivial
    | some key =>
      exact ⟨rfl, fun hp => by
        simp only [Value_Get, getProp, Value_Set_eq _ _ _ hp, lookupProp_setProp,
          Option.getD_some]⟩

/-- The annotations the statement lists, for a field declared as `Field`: no annotation
gives the declared name, `-` excludes the field, `name` and `name,omitempty` give `name`,
`,omitempty` gives the empty key, and `-,` gives the key `-`; in `ToJS` and in `ToGo`. -/
theorem field_key_resolution_examples :
    jsonKeyToJS ⟨lit "Field", [], true⟩ = some (lit "Field") ∧
    jsonKeyToGo ⟨lit "Field", [], true⟩ = some (lit "Field") ∧
    jsonKeyToJS ⟨lit "Field", lit "-", true⟩ = none ∧
    jsonKeyToGo ⟨lit "Field", lit "-", true⟩ = none ∧
    jsonKeyToJS ⟨lit "Field", lit "name", true⟩ = some (lit "name") ∧
    jsonKeyToGo ⟨lit "Field", lit "name", true⟩ = some (lit "name") ∧
    jsonKeyToJS ⟨lit "Field", lit "name,omitempty", true⟩ = some (lit "name") ∧
    jsonKeyToGo ⟨lit "Field", lit "name,omitempty", true⟩ = some (lit "name") ∧
    jsonKeyToJS ⟨lit "Field", lit ",omitempty", true⟩ = some [] ∧
    jsonKeyToGo ⟨lit "Field", lit ",omitempty", true⟩ = some [] ∧
    jsonKeyToJS ⟨lit "Field", lit "-,", true⟩ = some (lit "-") ∧
    jsonKeyToGo ⟨lit "Field", lit "-,", true⟩ = some (lit "-") := by
  decide

end Jsvalue
